import Mathlib

/-!
Verification of the SMILES parsing / descriptor core of the Overlay-Chemlab
repository.  The JavaScript sources are embedded shallowly:

* namespace `ME` models `src/core/molecular-embeddings.js`
  (parseSMILES, buildAdjacency, morganFingerprint, tanimoto/cosine
  similarity, molecularWeight);
* namespace `SP` models `src/core/smiles-parser.js`
  (tokenize, validate, resolveElement, implicitHydrogens, atomCount,
  bondCount);
* namespace `DL` models `src/core/drug-likeness.js`
  (_findRingBonds, countRotatableBonds).

Modelling conventions: JavaScript numbers appearing as array indices are
modelled as `Int` (the out-of-range sentinel -1 stands for both -1 and the
`undefined` produced by popping an empty stack; each guard in the sources
treats the two identically, via `>= 0` tests).  JavaScript floating point
weights are modelled as exact rationals.  Functions that can throw a
TypeError (reading a property of `undefined`) return `Option`, with `none`
for the thrown exception.  Strings are processed as their character lists;
recursion over an input string uses a fuel argument that is at least the
length of the string, so the fuel never runs out (every step consumes at
least one character).
-/

/-- JavaScript parseInt applied to a short character list: skip leading
whitespace, read an optional sign and then a digit run; no digits means NaN,
modelled as `none`. -/
def jsParseIntDigits : List Char → Option Nat
  | [] => none
  | c :: rest =>
    if c.isDigit then
      some ((c :: rest).takeWhile Char.isDigit |>.foldl
        (fun a d => a * 10 + (d.toNat - '0'.toNat)) 0)
    else none

/-- JavaScript parseInt on a character list (used for the two characters after
a percent sign): whitespace skip, optional sign, digit run. -/
def jsParseInt (cs : List Char) : Option Int :=
  let cs := cs.dropWhile (fun c => c == ' ' || c == '\t' || c == '\n' || c == '\r')
  match cs with
  | '+' :: rest => (jsParseIntDigits rest).map (fun n => (n : Int))
  | '-' :: rest => (jsParseIntDigits rest).map (fun n => -(n : Int))
  | rest => (jsParseIntDigits rest).map (fun n => (n : Int))

/-- Numeric value of a single decimal digit character. -/
def digitVal (c : Char) : Nat := c.toNat - '0'.toNat

/-- JavaScript Math.round: round half up (toward positive infinity). -/
def jsRound (q : ℚ) : Int := (q + 1/2).floor

/-- JavaScript String(v) for the ring-label keys (`none` is NaN). -/
def keyRepr : Option Int → String
  | none => "NaN"
  | some k => if k < 0 then "-" ++ Nat.repr k.natAbs else Nat.repr k.natAbs

/-- Lookup in an insertion-ordered association list (JavaScript Map.get). -/
def mapGet {κ α : Type} [BEq κ] (m : List (κ × α)) (k : κ) : Option α :=
  match m.find? (fun p => p.1 == k) with
  | some p => some p.2
  | none => none

/-- JavaScript Map.delete: remove the (unique) entry with the given key. -/
def mapDelete {κ α : Type} [BEq κ] (m : List (κ × α)) (k : κ) : List (κ × α) :=
  m.filter (fun p => ¬ (p.1 == k))

/-- JavaScript Map.set: update in place if present, else append. -/
def mapSet {κ α : Type} [BEq κ] (m : List (κ × α)) (k : κ) (v : α) : List (κ × α) :=
  if (m.find? (fun p => p.1 == k)).isSome then
    m.map (fun p => if p.1 == k then (k, v) else p)
  else m ++ [(k, v)]

namespace ME

/-- The ATOMIC_WEIGHTS table of molecular-embeddings.js (and, identically,
of smiles-parser.js).  Every weight in the source is an exact multiple of
0.001, so the table is kept in integer thousandths (H = 1.008 is 1008) and
converted to ℚ at the end; this keeps the arithmetic exact and computable. -/
def ATOMIC_WEIGHTS : List (String × Nat) :=
  [("H", 1008), ("C", 12011), ("N", 14007), ("O", 15999),
   ("S", 32065), ("P", 30974), ("F", 18998), ("Cl", 35453),
   ("Br", 79904), ("I", 126904)]

def atomicWeight (sym : String) : Option Nat := mapGet ATOMIC_WEIGHTS sym

/-- An atom of the parsed graph: symbol and aromatic flag (the index field of
the source is the position in the atom list). -/
structure PAtom where
  symbol : String
  aromatic : Bool
deriving Repr, DecidableEq, Inhabited

/-- A bond of the parsed graph.  Endpoints are JavaScript numbers: they are
valid list indices in the intended case, but the parser can record -1. -/
structure PBond where
  fromIdx : Int
  toIdx : Int
  order : Nat
deriving Repr, DecidableEq, Inhabited

structure Parsed where
  atoms : List PAtom
  bonds : List PBond
  rings : Nat
deriving Repr, DecidableEq, Inhabited

/-- The mutable state of one parseSMILES invocation. -/
structure PState where
  atoms : List PAtom
  bonds : List PBond
  branchStack : List Int
  ringOpenings : List (Option Int × Int)
  prevAtomIdx : Int
  pendingBondOrder : Option Nat
  ringCount : Nat
deriving Repr, DecidableEq, Inhabited

def initPState : PState := ⟨[], [], [], [], -1, none, 0⟩

/-- parseSMILES inner function addAtom. -/
def addAtom (st : PState) (symbol : String) (aromatic : Bool) : PState :=
  let idx : Int := st.atoms.length
  let atoms' := st.atoms ++ [⟨symbol, aromatic⟩]
  if st.prevAtomIdx ≥ 0 then
    -- order: pendingBondOrder if set; the aromatic ternary yields 1 either way
    let order := st.pendingBondOrder.getD 1
    { st with atoms := atoms',
              bonds := st.bonds ++ [⟨st.prevAtomIdx, idx, order⟩],
              pendingBondOrder := none, prevAtomIdx := idx }
  else
    { st with atoms := atoms', pendingBondOrder := none, prevAtomIdx := idx }

/-- parseSMILES inner function handleRing. -/
def handleRing (st : PState) (digit : Option Int) : PState :=
  match mapGet st.ringOpenings digit with
  | some openIdx =>
    let order := st.pendingBondOrder.getD 1
    { st with ringOpenings := mapDelete st.ringOpenings digit,
              bonds := st.bonds ++ [⟨openIdx, st.prevAtomIdx, order⟩],
              pendingBondOrder := none,
              ringCount := st.ringCount + 1 }
  | none =>
    { st with ringOpenings := mapSet st.ringOpenings digit st.prevAtomIdx }

/-- parseSMILES inner function parseBracketAtom: strip isotope digits,
chirality markers, charge suffixes and H-counts, in that order, then resolve
the element. -/
def stripChargeAux : Bool → List Char → List Char
  | _, [] => []
  | skipping, c :: rest =>
    if skipping && c.isDigit then stripChargeAux true rest
    else if c == '+' || c == '-' then stripChargeAux true rest
    else c :: stripChargeAux false rest

def stripCharge (cs : List Char) : List Char := stripChargeAux false cs

def stripHAux : Bool → List Char → List Char
  | _, [] => []
  | skipping, c :: rest =>
    if skipping && c.isDigit then stripHAux true rest
    else if c == 'H' then stripHAux true rest
    else c :: stripHAux false rest

def stripHCount (cs : List Char) : List Char := stripHAux false cs

def parseBracketAtom (inner : List Char) : PAtom :=
  let s := stripHCount (stripCharge ((inner.dropWhile Char.isDigit).filter (· ≠ '@')))
  let aromatic := match s with
    | [] => false
    | c :: _ => c.isLower
  let symbol :=
    match s with
    | c₁ :: c₂ :: _ =>
      let two := String.mk [c₁.toUpper, c₂.toLower]
      if (atomicWeight two).isSome then two else String.mk [c₁.toUpper]
    | [c₁] => String.mk [c₁.toUpper]
    | [] => "H"
  ⟨symbol, aromatic⟩

/-- One step of the parseSMILES character loop: given the head character and
the remaining characters, produce the next state and the rest of the input. -/
def pstep (st : PState) (c : Char) (rest : List Char) : PState × List Char :=
  if c == '(' then ({ st with branchStack := st.prevAtomIdx :: st.branchStack }, rest)
  else if c == ')' then
    match st.branchStack with
    | [] => ({ st with prevAtomIdx := -1 }, rest)   -- pop() on empty: undefined
    | p :: s => ({ st with branchStack := s, prevAtomIdx := p }, rest)
  else if c == '-' then ({ st with pendingBondOrder := some 1 }, rest)
  else if c == '=' then ({ st with pendingBondOrder := some 2 }, rest)
  else if c == '#' then ({ st with pendingBondOrder := some 3 }, rest)
  else if c == ':' then ({ st with pendingBondOrder := some 1 }, rest)
  else if c == '/' || c == '\\' then (st, rest)
  else if c.isDigit then (handleRing st (some (digitVal c)), rest)
  else if c == '%' then
    match rest with
    | c₁ :: c₂ :: rest' => (handleRing st (jsParseInt [c₁, c₂]), rest')
    | _ => (st, rest)    -- falls through every later test and is skipped
  else if c == '[' then
    let innerCs := rest.takeWhile (· ≠ ']')
    let rest' := (rest.dropWhile (· ≠ ']')).drop 1
    let a := parseBracketAtom innerCs
    (addAtom st a.symbol a.aromatic, rest')
  else if (match rest with
           | c₂ :: _ => (c == 'C' && c₂ == 'l') || (c == 'B' && c₂ == 'r')
           | [] => false) then
    (addAtom st (if c == 'C' then "Cl" else "Br") false, rest.drop 1)
  else if c.isAlpha then
    let aromatic := c == 'c' || c == 'n' || c == 'o' || c == 's' || c == 'p'
    let symbol := if aromatic then String.mk [c.toUpper] else String.mk [c]
    (addAtom st symbol aromatic, rest)
  else if c == '.' then ({ st with prevAtomIdx := -1 }, rest)
  else (st, rest)

/-- The parseSMILES while loop, with fuel (one unit per iteration; each
iteration consumes at least one character). -/
def consume : Nat → PState → List Char → PState
  | 0, st, _ => st
  | _ + 1, st, [] => st
  | fuel + 1, st, c :: rest =>
    let (st', rest') := pstep st c rest
    consume fuel st' rest'

def parseSMILES (s : String) : Parsed :=
  let st := consume (s.data.length + 1) initPState s.data
  ⟨st.atoms, st.bonds, st.ringCount⟩

/-- buildAdjacency: adjacency list of (neighbor, order) pairs.  Indexing the
list of rows with an out-of-range bond endpoint throws in JavaScript, hence
the `Option`. -/
def buildAdjacency (p : Parsed) : Option (List (List (Nat × Nat))) :=
  let n := p.atoms.length
  p.bonds.foldl
    (fun acc b =>
      acc.bind (fun adj =>
        if h : 0 ≤ b.fromIdx ∧ b.fromIdx < (n : Int) ∧ 0 ≤ b.toIdx ∧ b.toIdx < (n : Int) then
          let f := b.fromIdx.toNat
          let t := b.toIdx.toNat
          let adj₁ := adj.set f (adj.getD f [] ++ [(t, b.order)])
          some (adj₁.set t (adj₁.getD t [] ++ [(f, b.order)]))
        else none))
    (some (List.replicate n []))

/-- FNV-1a 32-bit string hash (hashString of molecular-embeddings.js).
The xor/imul loop is exact 32-bit arithmetic. -/
def hashString (s : String) : Nat :=
  s.data.foldl (fun h c => (Nat.xor h c.toNat) * 16777619 % 4294967296) 2166136261

/-- Ascending insertion sort of naturals; the same result as the source
numeric sort((x, y) => x - y). -/
def insertAsc (x : Nat) : List Nat → List Nat
  | [] => [x]
  | y :: ys => if x ≤ y then x :: y :: ys else y :: insertAsc x ys

def sortAsc (l : List Nat) : List Nat := l.foldr insertAsc []

/-- Set one fingerprint bit: typed-array writes out of range are ignored,
exactly like `List.set`. -/
def setBit (fp : List ℚ) (i : Nat) : List ℚ := fp.set i 1

def setBits (fp : List ℚ) (ids : List Nat) (nBits : Nat) : List ℚ :=
  ids.foldl (fun fp id => setBit fp (id % nBits)) fp

/-- The radius-0 atom invariant hashes. -/
def initialIds (p : Parsed) (adj : List (List (Nat × Nat))) : List Nat :=
  (List.range p.atoms.length).map (fun i =>
    let atom := p.atoms.getD i default
    let deg := (adj.getD i []).length
    hashString (atom.symbol ++ ":" ++ Nat.repr deg ++ ":" ++
      (if atom.aromatic then "1" else "0")))

/-- One radius level: recompute every atom identifier from its previous
identifier and the sorted neighbour identifiers perturbed by bond order. -/
def nextIds (p : Parsed) (adj : List (List (Nat × Nat))) (ids : List Nat)
    (r : Nat) : List Nat :=
  (List.range p.atoms.length).map (fun a =>
    let neighborHashes := sortAsc ((adj.getD a []).map (fun e => ids.getD e.1 0 + e.2 * 7))
    hashString (Nat.repr (ids.getD a 0) ++ "|" ++
      String.intercalate "," (neighborHashes.map Nat.repr) ++ "|r" ++ Nat.repr r))

/-- The body of morganFingerprint once the adjacency is built. -/
def fingerprintOf (p : Parsed) (adj : List (List (Nat × Nat)))
    (radius nBits : Nat) : List ℚ :=
  let ids₀ := initialIds p adj
  let fp₀ := setBits (List.replicate nBits 0) ids₀ nBits
  ((List.range' 1 radius).foldl
    (fun (acc : List ℚ × List Nat) r =>
      let ids' := nextIds p adj acc.2 r
      (setBits acc.1 ids' nBits, ids'))
    (fp₀, ids₀)).1

/-- morganFingerprint: Morgan-style circular fingerprint as a 0/1 vector.
`none` models the TypeError thrown by buildAdjacency when the parsed graph
contains an out-of-range bond endpoint. -/
def morganFingerprint (s : String) (radius : Nat := 2) (nBits : Nat := 128) :
    Option (List ℚ) :=
  let p := parseSMILES s
  (buildAdjacency p).map (fun adj => fingerprintOf p adj radius nBits)

/-- tanimotoSimilarity: |A ∩ B| / |A ∪ B| over the common prefix of the two
vectors, 0 when the union is empty.  Truthiness of a JS number without NaN
is being nonzero. -/
def tanimotoSimilarity (fp1 fp2 : List ℚ) : ℚ :=
  let pairs := fp1.zip fp2
  let andCount := pairs.countP (fun p => p.1 ≠ 0 ∧ p.2 ≠ 0)
  let orCount := pairs.countP (fun p => p.1 ≠ 0 ∨ p.2 ≠ 0)
  if orCount = 0 then 0 else (andCount : ℚ) / (orCount : ℚ)

/-- The computable core of cosineSimilarity: dot product and the two squared
magnitudes, all over the common prefix. -/
def cosineParts (fp1 fp2 : List ℚ) : ℚ × ℚ × ℚ :=
  let pairs := fp1.zip fp2
  (pairs.foldl (fun a p => a + p.1 * p.2) 0,
   pairs.foldl (fun a p => a + p.1 * p.1) 0,
   pairs.foldl (fun a p => a + p.2 * p.2) 0)

open Classical in
/-- cosineSimilarity: dot product over the product of Euclidean norms,
0 when the denominator is 0. -/
noncomputable def cosineSimilarity (fp1 fp2 : List ℚ) : ℝ :=
  let p := cosineParts fp1 fp2
  let denom := Real.sqrt p.2.1 * Real.sqrt p.2.2
  if denom = 0 then 0 else (p.1 : ℝ) / denom

/-- The valence table shared by molecularWeight (and, identically, by
smiles-parser.js and drug-likeness.js). -/
def valences : List (String × Nat) :=
  [("C", 4), ("N", 3), ("O", 2), ("S", 2), ("P", 3), ("F", 1), ("Cl", 1),
   ("Br", 1), ("I", 1)]

/-- The molecularWeight accumulation loop, in integer thousandths: atomic
weight of every atom plus valence-inferred implicit hydrogens (H = 1008). -/
def molecularWeightMilli (p : Parsed) (adj : List (List (Nat × Nat))) : Nat :=
  (List.range p.atoms.length).foldl
    (fun mw i =>
      let atom := p.atoms.getD i default
      let weight := (atomicWeight atom.symbol).getD 0
      let mw := mw + weight
      match mapGet valences atom.symbol with
      | some v =>
        let bondOrderSum := ((adj.getD i []).map Prod.snd).sum
        let effective : Int := if atom.aromatic then (v : Int) - 1 else v
        let implicitH : Nat := (effective - (bondOrderSum : Int)).toNat
        mw + implicitH * 1008
      | none => mw)
    0

/-- molecularWeight: atomic weights plus valence-inferred implicit hydrogens
for every atom, rounded to three decimals (the accumulated value is an exact
multiple of 0.001, so the Math.round call of the source is the identity).
`none` models the buildAdjacency TypeError. -/
def molecularWeight (s : String) : Option ℚ :=
  let p := parseSMILES s
  (buildAdjacency p).map (fun adj =>
    let mw : ℚ := (molecularWeightMilli p adj : ℚ) / 1000
    (jsRound (mw * 1000) : ℚ) / 1000)

end ME

namespace SP

/-- The token kinds produced by the smiles-parser.js tokenizer. -/
inductive Tok where
  | atom (value : List Char) (bracket : Bool)
  | bond (value : Char)
  | branch_open
  | branch_close
  | ring (value : Option Int)
deriving Repr, DecidableEq

/-- One step of the tokenize loop: head character plus remainder to a token
(if any) and the rest of the input. -/
def tstep (c : Char) (rest : List Char) : Option Tok × List Char :=
  if c == '(' then (some .branch_open, rest)
  else if c == ')' then (some .branch_close, rest)
  else if c == '-' || c == '=' || c == '#' || c == ':' then (some (.bond c), rest)
  else if c.isDigit then (some (.ring (some (digitVal c))), rest)
  else if c == '%' then
    match rest with
    | c₁ :: c₂ :: rest' => (some (.ring (jsParseInt [c₁, c₂])), rest')
    | _ => (none, rest)    -- skipped: falls through all remaining tests
  else if c == '[' then
    match rest.dropWhile (· ≠ ']') with
    | [] => (some (.atom (c :: rest) true), [])   -- no closing bracket: rest of string
    | _ :: rest' => (some (.atom (rest.takeWhile (· ≠ ']')) true), rest')
  else if (match rest with
           | c₂ :: _ => (c == 'C' && c₂ == 'l') || (c == 'B' && c₂ == 'r')
           | [] => false) then
    (some (.atom [c, rest.headD ' '] false), rest.drop 1)
  else if c.isAlpha then (some (.atom [c] false), rest)
  else (none, rest)

def tokenizeAux : Nat → List Char → List Tok
  | 0, _ => []
  | _ + 1, [] => []
  | fuel + 1, c :: rest =>
    match tstep c rest with
    | (some t, rest') => t :: tokenizeAux fuel rest'
    | (none, rest') => tokenizeAux fuel rest'

def tokenize (s : List Char) : List Tok := tokenizeAux (s.length + 1) s

/-- The valence table of implicitHydrogens (textually identical to the one in
molecular-embeddings.js and drug-likeness.js). -/
def valences : List (String × Nat) :=
  [("C", 4), ("N", 3), ("O", 2), ("S", 2), ("P", 3), ("F", 1), ("Cl", 1),
   ("Br", 1), ("I", 1)]

/-- implicitHydrogens: max(0, effective valence - bond order sum), where the
effective valence loses 1 on aromatic atoms; unknown elements give 0. -/
def implicitHydrogens (element : String) (bondOrderSum : Nat) (aromatic : Bool) : Nat :=
  match mapGet valences element with
  | none => 0
  | some v =>
    let effective : Int := if aromatic then (v : Int) - 1 else (v : Int)
    (effective - (bondOrderSum : Int)).toNat

/-- resolveElement: strip bracket annotations (isotope digits, H-counts,
charges, chirality, in the order of the source) and resolve the remaining
letters. -/
def resolveElement (value : List Char) (bracket : Bool) : String :=
  let raw :=
    if bracket then
      ME.stripCharge (ME.stripHCount (value.dropWhile Char.isDigit)) |>.filter (· ≠ '@')
    else value
  if bracket && raw.isEmpty then "H"
  else
    match raw with
    | ['c'] => "C"
    | ['n'] => "N"
    | ['o'] => "O"
    | ['s'] => "S"
    | ['p'] => "P"
    | c₁ :: c₂ :: rest =>
      let two := String.mk [c₁.toUpper, c₂.toLower]
      if (ME.atomicWeight two).isSome then two
      else
        let one := String.mk [c₁.toUpper]
        if (ME.atomicWeight one).isSome then one
        else String.mk (c₁.toUpper :: (c₂ :: rest).map Char.toLower)
    | [c₁] =>
      let one := String.mk [c₁.toUpper]
      if (ME.atomicWeight one).isSome then one
      else String.mk [c₁.toUpper]
    | [] => ""    -- unreachable: non-bracket token values are never empty

/-- The paren-balance scan of validate: depth goes up on '(' and down on ')',
an error as soon as it is negative, an error at the end if nonzero. -/
def scanParen : Int → List Char → Option String
  | depth, [] => if depth ≠ 0 then some "Unmatched opening parenthesis" else none
  | depth, c :: rest =>
    let d := if c == '(' then depth + 1 else if c == ')' then depth - 1 else depth
    if d < 0 then some "Unmatched closing parenthesis" else scanParen d rest

/-- The bracket-balance scan of validate. -/
def scanBracket : Int → List Char → Option String
  | depth, [] => if depth ≠ 0 then some "Unmatched opening bracket" else none
  | depth, c :: rest =>
    let d := if c == '[' then depth + 1 else if c == ']' then depth - 1 else depth
    if d < 0 then some "Unmatched closing bracket" else scanBracket d rest

/-- The ring-digit pairing scan of validate: toggle each ring value in a
map, returning the set of values seen an odd number of times. -/
def ringToggle (m : List (Option Int)) : List Tok → List (Option Int)
  | [] => m
  | .ring v :: ts =>
    ringToggle (if m.contains v then m.erase v else m ++ [v]) ts
  | _ :: ts => ringToggle m ts

def isAtomTok : Tok → Bool
  | .atom _ _ => true
  | _ => false

structure ValidateResult where
  valid : Bool
  error : Option String
deriving Repr, DecidableEq

/-- validate: balanced parentheses, balanced brackets, paired ring digits,
at least one atom.  Never throws; a failure carries a reason string. -/
def validate (s : String) : ValidateResult :=
  if s.data.length = 0 then ⟨false, some "Empty SMILES string"⟩
  else
    match scanParen 0 s.data with
    | some e => ⟨false, some e⟩
    | none =>
      match scanBracket 0 s.data with
      | some e => ⟨false, some e⟩
      | none =>
        let tokens := tokenize s.data
        let m := ringToggle [] tokens
        if m ≠ [] then
          ⟨false, some ("Unclosed ring digit(s): " ++
            String.intercalate ", " (m.map keyRepr))⟩
        else if ¬ tokens.any isAtomTok then ⟨false, some "No atoms found"⟩
        else ⟨true, none⟩

/-- The per-atom record built by the first pass of atomCount. -/
structure CAtom where
  element : String
  aromatic : Bool
  bondOrderSum : Nat
  bracket : Bool
  raw : List Char
deriving Repr, DecidableEq

/-- Is a token value a single lowercase letter (the aromatic test of
atomCount and bondCount)? -/
def isLowerSingle : List Char → Bool
  | [c] => c.isLower
  | _ => false

def bumpBOS (atoms : List CAtom) (idx : Nat) (d : Nat) : List CAtom :=
  match atoms.get? idx with
  | some a => atoms.set idx { a with bondOrderSum := a.bondOrderSum + d }
  | none => atoms

/-- State of the first atomCount pass (connectivity for implicit H). -/
structure ACState where
  atoms : List CAtom
  atomStack : List Int
  prevAtomIdx : Int
  pendingBond : Option Char
deriving Repr, DecidableEq

def acStep (st : ACState) : Tok → ACState
  | .atom value bracket =>
    let element := resolveElement value bracket
    let aromatic := isLowerSingle value
    let idx := st.atoms.length
    let atoms := st.atoms ++ [⟨element, aromatic, 0, bracket, value⟩]
    if st.prevAtomIdx ≥ 0 then
      let order : Nat :=
        match st.pendingBond with
        | some '=' => 2
        | some '#' => 3
        | _ => 1    -- ':' and the aromatic-implicit branch also assign 1
      let atoms := bumpBOS atoms st.prevAtomIdx.toNat order
      let atoms := bumpBOS atoms idx order
      { st with atoms := atoms, prevAtomIdx := idx, pendingBond := none }
    else
      { st with atoms := atoms, prevAtomIdx := idx, pendingBond := none }
  | .bond c => { st with pendingBond := some c }
  | .branch_open => { st with atomStack := st.prevAtomIdx :: st.atomStack }
  | .branch_close =>
    match st.atomStack with
    | [] => { st with prevAtomIdx := -1 }          -- pop() on empty: undefined
    | p :: s => { st with atomStack := s, prevAtomIdx := p }
  | .ring _ => st

/-- State of the second atomCount pass (ring-closure bond order bumps);
`none` models the TypeError of indexing atoms at -1. -/
structure RingState where
  atoms : List CAtom
  ringOpens : List (Option Int × Int)
  atomIdx : Int
deriving Repr, DecidableEq

def bumpChecked (atoms : List CAtom) (idx : Int) : Option (List CAtom) :=
  if 0 ≤ idx ∧ idx < (atoms.length : Int) then some (bumpBOS atoms idx.toNat 1)
  else none

def ringStep (st : RingState) : Tok → Option RingState
  | .atom _ _ => some { st with atomIdx := st.atomIdx + 1 }
  | .ring v =>
    match mapGet st.ringOpens v with
    | some openIdx =>
      (bumpChecked st.atoms openIdx).bind (fun atoms =>
        (bumpChecked atoms st.atomIdx).map (fun atoms =>
          { st with atoms := atoms, ringOpens := mapDelete st.ringOpens v }))
    | none => some { st with ringOpens := mapSet st.ringOpens v st.atomIdx }
  | _ => some st

/-- First match of /H([0-9]*)/ in a bracket-atom raw value: digit count after
the first H, defaulting to 1; 0 if there is no H at all. -/
def jsExplicitH : List Char → Nat
  | [] => 0
  | c :: rest =>
    if c == 'H' then
      let digits := rest.takeWhile Char.isDigit
      if digits.isEmpty then 1
      else digits.foldl (fun a d => a * 10 + digitVal d) 0
    else jsExplicitH rest

/-- The hydrogen contribution of one atom in the atomCount tally: bracket
atoms use the explicit H annotation of their raw text, other atoms use
valence inference. -/
def hContrib (a : CAtom) : Nat :=
  if a.bracket then jsExplicitH a.raw
  else implicitHydrogens a.element a.bondOrderSum a.aromatic

/-- JavaScript counts[el] = (counts[el] || 0) + d on a plain object with
non-numeric string keys: update in place, or append. -/
def tallyAdd (counts : List (String × Nat)) (el : String) (d : Nat) :
    List (String × Nat) :=
  match mapGet counts el with
  | some v => counts.map (fun p => if p.1 == el then (el, v + d) else p)
  | none => counts ++ [(el, d)]

/-- The element/hydrogen tally of atomCount over the final atom records. -/
def tallyCounts (atoms : List CAtom) : List (String × Nat) :=
  let acc := atoms.foldl
    (fun (acc : List (String × Nat) × Nat) a =>
      (tallyAdd acc.1 a.element 1, acc.2 + hContrib a))
    ([], 0)
  if acc.2 > 0 then tallyAdd acc.1 "H" acc.2 else acc.1

/-- The atom records of atomCount after both connectivity passes. -/
def atomRecords (s : String) : Option (List CAtom) :=
  let tokens := tokenize s.data
  let st₁ := tokens.foldl acStep ⟨[], [], -1, none⟩
  (tokens.foldl (fun acc t => acc.bind (fun st => ringStep st t))
      (some ⟨st₁.atoms, [], -1⟩)).map RingState.atoms

/-- atomCount: heavy atoms by element, plus the accumulated hydrogen total
under the key H.  `none` models the TypeError on ring digits that close
against a state with no current atom. -/
def atomCount (s : String) : Option (List (String × Nat)) :=
  (atomRecords s).map tallyCounts

/-- The bond tally of bondCount. -/
structure BondTally where
  single : Nat
  double : Nat
  triple : Nat
  aromatic : Nat
deriving Repr, DecidableEq

/-- The prevAtom variable of bondCount: null initially, undefined after a
pop from an empty branch stack, or an atom record. -/
inductive PrevRef where
  | nullRef
  | undefRef
  | atomRef (index : Int) (aromatic : Bool)
deriving Repr, DecidableEq

structure BCState where
  result : BondTally
  prevAtom : PrevRef
  pendingBond : Option Char
  atomStack : List PrevRef
  ringOpens : List (Option Int × PrevRef)
  atomIdx : Int
deriving Repr, DecidableEq

/-- One bondCount token step; `none` models the TypeError of reading
`.aromatic` on undefined (chain bonds) or on null/undefined (ring bonds). -/
def bcStep (st : BCState) : Tok → Option BCState
  | .atom value _ =>
    let atomIdx := st.atomIdx + 1
    let aromatic := isLowerSingle value
    let next (r : BondTally) : BCState :=
      { st with result := r, pendingBond := none,
                prevAtom := .atomRef atomIdx aromatic, atomIdx := atomIdx }
    (match st.prevAtom with
     | .nullRef => some (next st.result)
     | prev =>
       if st.pendingBond == some '=' then
         some (next { st.result with double := st.result.double + 1 })
       else if st.pendingBond == some '#' then
         some (next { st.result with triple := st.result.triple + 1 })
       else if st.pendingBond == some ':' then
         some (next { st.result with aromatic := st.result.aromatic + 1 })
       else if aromatic then
         match prev with
         | .atomRef _ a =>
           if a then some (next { st.result with aromatic := st.result.aromatic + 1 })
           else some (next { st.result with single := st.result.single + 1 })
         | _ => none    -- undefined.aromatic throws
       else some (next { st.result with single := st.result.single + 1 }))
  | .bond c => some { st with pendingBond := some c }
  | .branch_open => some { st with atomStack := st.prevAtom :: st.atomStack }
  | .branch_close =>
    match st.atomStack with
    | [] => some { st with prevAtom := .undefRef }
    | p :: s => some { st with atomStack := s, prevAtom := p }
  | .ring v =>
    match mapGet st.ringOpens v with
    | some openAtom =>
      let done (r : BondTally) : BCState :=
        { st with result := r, pendingBond := none,
                  ringOpens := mapDelete st.ringOpens v }
      (if st.pendingBond == some '=' then
         some (done { st.result with double := st.result.double + 1 })
       else if st.pendingBond == some '#' then
         some (done { st.result with triple := st.result.triple + 1 })
       else if st.pendingBond == some ':' then
         some (done { st.result with aromatic := st.result.aromatic + 1 })
       else
         match st.prevAtom with
         | .atomRef _ a =>
           if a then
             match openAtom with
             | .atomRef _ b =>
               if b then some (done { st.result with aromatic := st.result.aromatic + 1 })
               else some (done { st.result with single := st.result.single + 1 })
             | _ => none    -- null/undefined .aromatic throws
           else some (done { st.result with single := st.result.single + 1 })
         | _ => some (done { st.result with single := st.result.single + 1 }))
    | none => some { st with ringOpens := mapSet st.ringOpens v st.prevAtom }

/-- bondCount: single/double/triple/aromatic bond tally over the token
stream. -/
def bondCount (s : String) : Option BondTally :=
  ((tokenize s.data).foldl (fun acc t => acc.bind (fun st => bcStep st t))
    (some ⟨⟨0, 0, 0, 0⟩, .nullRef, none, [], [], -1⟩)).map BCState.result

end SP

namespace DL

/-- The DFS state of _findRingBonds. -/
structure DState where
  visited : List Bool
  disc : List Int
  low : List Int
  timer : Nat
  bridges : List Nat
deriving Repr, DecidableEq

/-- The recursive dfs of _findRingBonds: discovery times, low links and the
bridge set.  The fuel bounds the recursion depth; depth never exceeds the
number of vertices, since every call visits a new vertex. -/
def dfsGo (adj : List (List (Nat × Nat))) : Nat → Nat → Int → DState → DState
  | 0, _, _, st => st
  | fuel + 1, u, parentEdgeIdx, st₀ =>
    let st₀ := { st₀ with visited := st₀.visited.set u true,
                          disc := st₀.disc.set u st₀.timer,
                          low := st₀.low.set u st₀.timer,
                          timer := st₀.timer + 1 }
    (adj.getD u []).foldl
      (fun st (e : Nat × Nat) =>
        let v := e.1
        let idx := e.2
        if (idx : Int) == parentEdgeIdx then st
        else if st.visited.getD v false then
          { st with low := st.low.set u (min (st.low.getD u 0) (st.disc.getD v 0)) }
        else
          let st := dfsGo adj fuel v idx st
          let st := { st with low := st.low.set u (min (st.low.getD u 0) (st.low.getD v 0)) }
          if st.low.getD v 0 > st.disc.getD u 0 then
            { st with bridges := st.bridges ++ [idx] }
          else st)
      st₀

/-- Does a bond have both endpoints inside the vertex range? -/
def bondOK (n : Nat) (b : ME.PBond) : Bool :=
  0 ≤ b.fromIdx && b.fromIdx < (n : Int) && 0 ≤ b.toIdx && b.toIdx < (n : Int)

/-- The adjacency array of _findRingBonds: rows of (neighbor, bond index). -/
def ringAdj (bonds : List ME.PBond) (n : Nat) : List (List (Nat × Nat)) :=
  bonds.enum.foldl
    (fun adj (p : Nat × ME.PBond) =>
      let f := p.2.fromIdx.toNat
      let t := p.2.toIdx.toNat
      let adj₁ := adj.set f (adj.getD f [] ++ [(t, p.1)])
      adj₁.set t (adj₁.getD t [] ++ [(f, p.1)]))
    (List.replicate n [])

/-- _findRingBonds: the set of bond indices that are not bridges, by the DFS
low-link bridge condition.  `none` models the TypeError of pushing onto a
missing adjacency row when a bond endpoint is out of range. -/
def _findRingBonds (bonds : List ME.PBond) (n : Nat) : Option (List Nat) :=
  if bonds.all (bondOK n) then
    let adj := ringAdj bonds n
    let st := (List.range n).foldl
      (fun st i => if st.visited.getD i false then st else dfsGo adj (n + 1) i (-1) st)
      ⟨List.replicate n false, List.replicate n (-1), List.replicate n (-1), 0, []⟩
    some ((List.range bonds.length).filter (fun i => ¬ st.bridges.contains i))
  else none

/-- The degree array of countRotatableBonds. -/
def degreeArray (bonds : List ME.PBond) (n : Nat) : List Nat :=
  bonds.foldl
    (fun deg b =>
      let d₁ := deg.set b.fromIdx.toNat (deg.getD b.fromIdx.toNat 0 + 1)
      d₁.set b.toIdx.toNat (d₁.getD b.toIdx.toNat 0 + 1))
    (List.replicate n 0)

/-- countRotatableBonds: single bonds, not ring bonds, both endpoint degrees
strictly above 1. -/
def countRotatableBonds (s : String) : Option Nat :=
  let parsed := ME.parseSMILES s
  let bonds := parsed.bonds
  let n := parsed.atoms.length
  (_findRingBonds bonds n).map (fun ringBonds =>
    let degree := degreeArray bonds n
    bonds.enum.countP (fun p =>
      p.2.order == 1 && !(ringBonds.contains p.1) &&
      degree.getD p.2.fromIdx.toNat 0 > 1 && degree.getD p.2.toIdx.toNat 0 > 1))

end DL

/-! Specification-side definitions: formalizations of the wording of the
claims, to be compared with the source functions above. -/

namespace Spec

/-- Depth of nesting of a delimiter pair after a character list. -/
def depthBy (oc cc : Char) (d₀ : Int) (cs : List Char) : Int :=
  cs.foldl (fun d c => if c == oc then d + 1 else if c == cc then d - 1 else d) d₀

/-- Balanced delimiters in the sense of the spec: the running depth is never
negative and ends at zero. -/
def balancedBy (oc cc : Char) (cs : List Char) : Prop :=
  (∀ i ≤ cs.length, 0 ≤ depthBy oc cc 0 (cs.take i)) ∧ depthBy oc cc 0 cs = 0

instance (oc cc : Char) (cs : List Char) : Decidable (balancedBy oc cc cs) := by
  unfold balancedBy; infer_instance

/-- The ring-closure token values of a token list. -/
def ringValues (ts : List SP.Tok) : List (Option Int) :=
  ts.filterMap (fun t => match t with | .ring v => some v | _ => none)

/-- The validity predicate claimed for validate: non-empty input, balanced
parentheses and brackets, every ring-closure value occurring an even number
of times, and at least one atom token. -/
def validSMILES (s : String) : Prop :=
  s.data ≠ [] ∧
  balancedBy '(' ')' s.data ∧
  balancedBy '[' ']' s.data ∧
  (∀ v ∈ ringValues (SP.tokenize s.data),
    (ringValues (SP.tokenize s.data)).count v % 2 = 0) ∧
  (∃ t ∈ SP.tokenize s.data, SP.isAtomTok t)

instance (s : String) : Decidable (validSMILES s) := by
  unfold validSMILES; infer_instance

/-- One breadth-first expansion step of reachability over the bond list,
ignoring the bond with index `skip`. -/
def reachStep (bonds : List ME.PBond) (skip : Nat) (reach : List Bool) : List Bool :=
  bonds.enum.foldl
    (fun r (p : Nat × ME.PBond) =>
      if p.1 = skip then r
      else
        let f := p.2.fromIdx.toNat
        let t := p.2.toIdx.toNat
        let r := if r.getD f false then r.set t true else r
        if r.getD t false then r.set f true else r)
    reach

/-- Are u and v connected in the bond graph with bond `skip` removed?
`n` expansion steps saturate reachability, since a shortest path visits
each vertex at most once. -/
def connectedWithout (bonds : List ME.PBond) (n : Nat) (skip : Nat) (u v : Nat) : Bool :=
  (Nat.rec ((List.replicate n false).set u true)
    (fun _ r => reachStep bonds skip r) n : List Bool).getD v false

/-- A bond lies on some cycle iff its endpoints stay connected once the bond
itself is removed (parallel copies count). -/
def onSomeCycle (bonds : List ME.PBond) (n : Nat) (i : Nat) : Bool :=
  match bonds.get? i with
  | some b => connectedWithout bonds n i b.fromIdx.toNat b.toIdx.toNat
  | none => false

/-- Heavy-atom degree of vertex v: the number of bonds joining v to an atom
that is not a hydrogen. -/
def heavyDegree (p : ME.Parsed) (v : Nat) : Nat :=
  (p.bonds.map (fun b =>
    (if b.fromIdx = (v : Int) ∧ (p.atoms.getD b.toIdx.toNat default).symbol ≠ "H"
     then 1 else 0) +
    (if b.toIdx = (v : Int) ∧ (p.atoms.getD b.fromIdx.toNat default).symbol ≠ "H"
     then 1 else 0))).sum

/-- The rotatable-bond count exactly as the claim words it: order exactly 1,
not on any cycle, and both endpoints of heavy-atom degree above 1. -/
def claimRotatableBonds (s : String) : Nat :=
  let p := ME.parseSMILES s
  p.bonds.enum.countP (fun q =>
    q.2.order == 1 &&
    !(onSomeCycle p.bonds p.atoms.length q.1) &&
    heavyDegree p q.2.fromIdx.toNat > 1 &&
    heavyDegree p q.2.toIdx.toNat > 1)

/-- The total degree of vertex v in the parsed graph, bonds to explicit
hydrogen atoms included (what countRotatableBonds actually uses). -/
def totalDegree (bonds : List ME.PBond) (v : Nat) : Nat :=
  (bonds.map (fun b =>
    (if b.fromIdx = (v : Int) then 1 else 0) +
    (if b.toIdx = (v : Int) then 1 else 0))).sum

/-- Aromatic flag of a bondCount prevAtom reference, false for null and
undefined (total reading, used by the amended claim). -/
def prevArom : SP.PrevRef → Bool
  | .atomRef _ a => a
  | _ => false

/-- The amended bond classification: ':' is aromatic; '=' and '#' are double
and triple; with no symbol, or with an explicit '-', a bond between two
aromatic endpoints is aromatic, otherwise single. -/
def classifyAm (pending : Option Char) (a b : Bool) (r : SP.BondTally) : SP.BondTally :=
  if pending == some '=' then { r with double := r.double + 1 }
  else if pending == some '#' then { r with triple := r.triple + 1 }
  else if pending == some ':' then { r with aromatic := r.aromatic + 1 }
  else if a && b then { r with aromatic := r.aromatic + 1 }
  else { r with single := r.single + 1 }

/-- The bond classification exactly as the claim words it: aromatic only for
an explicit ':' or for aromatic endpoints with no explicit symbol at all; an
explicit '-' always tallies single. -/
def classifyCl (pending : Option Char) (a b : Bool) (r : SP.BondTally) : SP.BondTally :=
  if pending == some '=' then { r with double := r.double + 1 }
  else if pending == some '#' then { r with triple := r.triple + 1 }
  else if pending == some ':' then { r with aromatic := r.aromatic + 1 }
  else if pending == none then
    (if a && b then { r with aromatic := r.aromatic + 1 }
     else { r with single := r.single + 1 })
  else { r with single := r.single + 1 }

/-- The bondCount traversal with a pluggable total bond classification. -/
def bcStepWith (classify : Option Char → Bool → Bool → SP.BondTally → SP.BondTally)
    (st : SP.BCState) : SP.Tok → SP.BCState
  | .atom value _ =>
    let atomIdx := st.atomIdx + 1
    let aromatic := SP.isLowerSingle value
    let next (r : SP.BondTally) : SP.BCState :=
      { st with result := r, pendingBond := none,
                prevAtom := .atomRef atomIdx aromatic, atomIdx := atomIdx }
    (match st.prevAtom with
     | .nullRef => next st.result
     | prev => next (classify st.pendingBond (prevArom prev) aromatic st.result))
  | .bond c => { st with pendingBond := some c }
  | .branch_open => { st with atomStack := st.prevAtom :: st.atomStack }
  | .branch_close =>
    match st.atomStack with
    | [] => { st with prevAtom := .undefRef }
    | p :: s => { st with atomStack := s, prevAtom := p }
  | .ring v =>
    match mapGet st.ringOpens v with
    | some openAtom =>
      { st with result := classify st.pendingBond (prevArom st.prevAtom)
                  (prevArom openAtom) st.result,
                pendingBond := none,
                ringOpens := mapDelete st.ringOpens v }
    | none => { st with ringOpens := mapSet st.ringOpens v st.prevAtom }

def bondCountWith
    (classify : Option Char → Bool → Bool → SP.BondTally → SP.BondTally)
    (s : String) : SP.BondTally :=
  ((SP.tokenize s.data).foldl (bcStepWith classify)
    ⟨⟨0, 0, 0, 0⟩, .nullRef, none, [], [], -1⟩).result

/-- Total bondCount under the amended aromatic rule. -/
def bondCountAm (s : String) : SP.BondTally := bondCountWith classifyAm s

/-- Total bondCount under the literal claimed aromatic rule. -/
def bondCountCl (s : String) : SP.BondTally := bondCountWith classifyCl s

/-- Per-atom hydrogen tally claimed for atomCount: the explicit annotation
for bracket atoms, valence inference otherwise (sum over all atoms). -/
def hydrogenTally (atoms : List SP.CAtom) : Nat := (atoms.map SP.hContrib).sum

/-- Element tally of the atomCount loop, without the hydrogen total. -/
def elementTally (atoms : List SP.CAtom) : List (String × Nat) :=
  atoms.foldl (fun c a => SP.tallyAdd c a.element 1) []

/-- Valid bond endpoints, as claimed in C3. -/
def validBondIndices (p : ME.Parsed) : Prop :=
  ∀ b ∈ p.bonds,
    0 ≤ b.fromIdx ∧ b.fromIdx < (p.atoms.length : Int) ∧
    0 ≤ b.toIdx ∧ b.toIdx < (p.atoms.length : Int)

instance (p : ME.Parsed) : Decidable (validBondIndices p) := by
  unfold validBondIndices; infer_instance

/-- A bond endpoint as parseSMILES can actually record it: a valid index or
the -1 sentinel. -/
def looseIdx (len : Nat) (i : Int) : Prop := -1 ≤ i ∧ i < (len : Int)

/-- The parse-state invariant for C3: the current atom, every stacked branch
return point, every open ring label and every recorded bond endpoint is
either a valid atom index or -1. -/
def PInv (st : ME.PState) : Prop :=
  looseIdx st.atoms.length st.prevAtomIdx ∧
  (∀ i ∈ st.branchStack, looseIdx st.atoms.length i) ∧
  (∀ p ∈ st.ringOpenings, looseIdx st.atoms.length p.2) ∧
  (∀ b ∈ st.bonds, looseIdx st.atoms.length b.fromIdx ∧ looseIdx st.atoms.length b.toIdx)

end Spec

/-! Definitions for claim C4: a ghost-instrumented copy of the bridge dfs that
additionally records the list of descended (tree) edges, spec-side
connectivity predicates, and the invariant packages of the dfs proof.  The
instrumented dfs erases to DL.dfsGo by forgetting the ghost component. -/

namespace C4

/-- Does bond number i join vertices a and b, in either orientation? -/
def edgeJoins (bonds : List ME.PBond) (i a b : Nat) : Prop :=
  ∃ bd, bonds.get? i = some bd ∧
    ((bd.fromIdx.toNat = a ∧ bd.toIdx.toNat = b) ∨
     (bd.fromIdx.toNat = b ∧ bd.toIdx.toNat = a))

/-- One adjacency step using any bond except the one numbered skip. -/
def stepOther (bonds : List ME.PBond) (skip a b : Nat) : Prop :=
  ∃ i, i ≠ skip ∧ edgeJoins bonds i a b

/-- The two vertices are connected once the bond numbered skip is removed:
the spec-side reading of lying on a ring. -/
def ConnMinus (bonds : List ME.PBond) (skip a b : Nat) : Prop :=
  Relation.ReflTransGen (stepOther bonds skip) a b

/-- One adjacency step along a bond whose number lies in the list T. -/
def stepIn (bonds : List ME.PBond) (T : List Nat) (a b : Nat) : Prop :=
  ∃ i, i ∈ T ∧ edgeJoins bonds i a b

/-- Connectivity through bonds whose numbers lie in T. -/
def ConnIn (bonds : List ME.PBond) (T : List Nat) (a b : Nat) : Prop :=
  Relation.ReflTransGen (stepIn bonds T) a b

/-- Ghost dfs state: the dfs state together with the descended tree edges. -/
structure GState where
  ds : DL.DState
  tree : List Nat
deriving Repr

/-- The ghost tree contribution of a parent edge index: the index itself when
nonnegative, nothing for the root sentinel -1. -/
def peL (pe : Int) : List Nat := if 0 ≤ pe then [pe.toNat] else []

/-- Marking a vertex on dfs entry: visited, discovery and low set, timer
bumped. -/
def markState (u : Nat) (st : DL.DState) : DL.DState :=
  { st with visited := st.visited.set u true,
            disc := st.disc.set u (st.timer : Int),
            low := st.low.set u (st.timer : Int),
            timer := st.timer + 1 }

/-- One edge step of the instrumented dfs loop at vertex u, with the
recursive call passed in as rec. -/
def edgeStep (rec : Nat → Nat → GState → GState) (pe : Int) (u : Nat)
    (g : GState) (e : Nat × Nat) : GState :=
  let v := e.1
  let idx := e.2
  if (idx : Int) == pe then g
  else if g.ds.visited.getD v false then
    { g with ds := { g.ds with
        low := g.ds.low.set u (min (g.ds.low.getD u 0) (g.ds.disc.getD v 0)) } }
  else
    let g1 := rec v idx g
    let g2 := { g1 with ds := { g1.ds with
        low := g1.ds.low.set u (min (g1.ds.low.getD u 0) (g1.ds.low.getD v 0)) } }
    if g2.ds.low.getD v 0 > g2.ds.disc.getD u 0 then
      { g2 with ds := { g2.ds with bridges := g2.ds.bridges ++ [idx] } }
    else g2

/-- DL.dfsGo instrumented with the ghost tree-edge list; the parent edge is
appended to the ghost on entry.  Its ds component is exactly DL.dfsGo. -/
def dfsGoT (adj : List (List (Nat × Nat))) : Nat → Nat → Int → GState → GState
  | 0, _, _, g => g
  | fuel + 1, u, parentEdgeIdx, g₀ =>
    (adj.getD u []).foldl
      (edgeStep (fun v idx g => dfsGoT adj fuel v idx g) parentEdgeIdx u)
      { ds := markState u g₀.ds, tree := g₀.tree ++ peL parentEdgeIdx }

/-- The root loop of _findRingBonds, instrumented. -/
def rootsT (adj : List (List (Nat × Nat))) (n : Nat) : GState :=
  (List.range n).foldl
    (fun g i => if g.ds.visited.getD i false then g else dfsGoT adj (n + 1) i (-1) g)
    ⟨⟨List.replicate n false, List.replicate n (-1), List.replicate n (-1), 0, []⟩, []⟩

/-- Is the vertex visited in the dfs state? -/
def vis (st : DL.DState) (x : Nat) : Prop := st.visited.getD x false = true

/-- Discovery time of a vertex. -/
def discOf (st : DL.DState) (x : Nat) : Int := st.disc.getD x 0

/-- Low link of a vertex. -/
def lowOf (st : DL.DState) (x : Nat) : Int := st.low.getD x 0

/-- Every neighbor of the vertex is visited. -/
def Closed (bonds : List ME.PBond) (st : DL.DState) (x : Nat) : Prop :=
  ∀ i y, edgeJoins bonds i x y → vis st y

/-- Number of unvisited slots: the dfs termination measure. -/
def uc (st : DL.DState) : Nat := st.visited.countP (fun b => !b)

/-- Shape invariants of the dfs state. -/
structure Wf (n : Nat) (st : DL.DState) : Prop where
  hvlen : st.visited.length = n
  hdlen : st.disc.length = n
  hllen : st.low.length = n
  hdisc : ∀ x, vis st x → 0 ≤ discOf st x ∧ discOf st x < (st.timer : Int)

/-- The adjacency rows are sound and complete for the bond list. -/
structure AdjOK (bonds : List ME.PBond) (n : Nat)
    (adj : List (List (Nat × Nat))) : Prop where
  hlen : adj.length = n
  sound : ∀ u, ∀ p ∈ adj.getD u [],
      p.1 < n ∧ p.2 < bonds.length ∧ edgeJoins bonds p.2 u p.1
  complete : ∀ i a b, edgeJoins bonds i a b → a < n → (b, i) ∈ adj.getD a []

/-- Precondition of a dfs call on u with parent edge pe and active chain A:
the chain is visited and tree-connected to u, every other visited vertex is
closed, the parent edge leads from u to a visited vertex, and tree edges
join visited vertices. -/
structure Pre (bonds : List ME.PBond) (n : Nat) (A : List Nat) (pe : Int)
    (u : Nat) (g₀ : GState) : Prop where
  wf : Wf n g₀.ds
  hun : u < n
  hunvis : ¬ vis g₀.ds u
  hframe : ∀ x, vis g₀.ds x → x ∉ A → Closed bonds g₀.ds x
  hAvis : ∀ y ∈ A, vis g₀.ds y
  hAconn : ∀ y ∈ A, ConnIn bonds (g₀.tree ++ peL pe) y u
  hpe : 0 ≤ pe → ∃ a, edgeJoins bonds pe.toNat u a ∧ vis g₀.ds a
  htree : ∀ i ∈ g₀.tree, ∀ a b, edgeJoins bonds i a b →
      vis g₀.ds a ∧ vis g₀.ds b

/-- Postcondition of a dfs call from g₀ to g₁: Δ lists the tree edges
descended inside the call, newB the bridges found.  Newly visited vertices
are closed and tree-connected to u, the low link of u is sound and complete
for edges leaving the new set, and every edge decided inside carries its
timeless connectivity verdict. -/
structure Post (bonds : List ME.PBond) (n : Nat) (pe : Int) (u : Nat)
    (g₀ g₁ : GState) (Δ newB : List Nat) : Prop where
  wf : Wf n g₁.ds
  mono : ∀ x, vis g₀.ds x → vis g₁.ds x
  hu : vis g₁.ds u
  stable_disc : ∀ x, vis g₀.ds x → discOf g₁.ds x = discOf g₀.ds x
  stable_low : ∀ x, vis g₀.ds x → lowOf g₁.ds x = lowOf g₀.ds x
  timer_gt : g₀.ds.timer < g₁.ds.timer
  disc_u : discOf g₁.ds u = (g₀.ds.timer : Int)
  new_disc : ∀ x, vis g₁.ds x → ¬ vis g₀.ds x →
      (g₀.ds.timer : Int) ≤ discOf g₁.ds x
  closed_new : ∀ x, vis g₁.ds x → ¬ vis g₀.ds x → Closed bonds g₁.ds x
  tree_eq : g₁.tree = g₀.tree ++ peL pe ++ Δ
  tree_new : ∀ i ∈ Δ, ∀ a b, edgeJoins bonds i a b →
      (vis g₁.ds a ∧ ¬ vis g₀.ds a) ∧ (vis g₁.ds b ∧ ¬ vis g₀.ds b)
  treevis : ∀ i ∈ g₁.tree, ∀ a b, edgeJoins bonds i a b →
      vis g₁.ds a ∧ vis g₁.ds b
  tconn : ∀ x, vis g₁.ds x → ¬ vis g₀.ds x → ConnIn bonds Δ x u
  uc_lt : uc g₁.ds < uc g₀.ds
  bridges_eq : g₁.ds.bridges = g₀.ds.bridges ++ newB
  low_ub : lowOf g₁.ds u ≤ discOf g₁.ds u
  low_sound : ∀ (gi z w : Nat), edgeJoins bonds gi z w → vis g₁.ds z →
      ¬ vis g₀.ds z → vis g₀.ds w → (gi : Int) ≠ pe →
      lowOf g₁.ds u ≤ discOf g₀.ds w
  low_complete : lowOf g₁.ds u = discOf g₁.ds u ∨
      ∃ (gi z w : Nat), (gi : Int) ≠ pe ∧ edgeJoins bonds gi z w ∧
        vis g₁.ds z ∧ ¬ vis g₀.ds z ∧ vis g₁.ds w ∧
        discOf g₁.ds w = lowOf g₁.ds u
  verdict_b : ∀ i ∈ newB, i ∈ Δ ∧
      ∀ a b, edgeJoins bonds i a b → ¬ ConnMinus bonds i a b
  verdict_t : ∀ i ∈ Δ, i ∉ g₁.ds.bridges →
      ∀ a b, edgeJoins bonds i a b → ConnMinus bonds i a b

/-- Invariant of the dfs edge loop at vertex u while the suffix es of the
adjacency row is still unprocessed: the postcondition fields together with
the per-row scan facts about the processed part of the row. -/
structure Mid (bonds : List ME.PBond) (n : Nat) (adj : List (List (Nat × Nat)))
    (A : List Nat) (pe : Int) (u : Nat) (g₀ : GState)
    (es : List (Nat × Nat)) (g : GState) (Δ newB : List Nat) : Prop where
  wf : Wf n g.ds
  hu : vis g.ds u
  mono : ∀ x, vis g₀.ds x → vis g.ds x
  stable_disc : ∀ x, vis g₀.ds x → discOf g.ds x = discOf g₀.ds x
  stable_low : ∀ x, vis g₀.ds x → lowOf g.ds x = lowOf g₀.ds x
  timer_gt : g₀.ds.timer < g.ds.timer
  disc_u : discOf g.ds u = (g₀.ds.timer : Int)
  new_disc : ∀ x, vis g.ds x → ¬ vis g₀.ds x →
      (g₀.ds.timer : Int) ≤ discOf g.ds x
  frame : ∀ x, vis g.ds x → x ∉ A → x ≠ u → Closed bonds g.ds x
  tree_eq : g.tree = g₀.tree ++ peL pe ++ Δ
  tree_new : ∀ i ∈ Δ, ∀ a b, edgeJoins bonds i a b →
      (vis g.ds a ∧ ¬ vis g₀.ds a) ∧ (vis g.ds b ∧ ¬ vis g₀.ds b)
  treevis : ∀ i ∈ g.tree, ∀ a b, edgeJoins bonds i a b →
      vis g.ds a ∧ vis g.ds b
  tconn : ∀ x, vis g.ds x → ¬ vis g₀.ds x → ConnIn bonds Δ x u
  uc_lt : uc g.ds < uc g₀.ds
  bridges_eq : g.ds.bridges = g₀.ds.bridges ++ newB
  low_ub : lowOf g.ds u ≤ discOf g.ds u
  low_sound : ∀ (gi z w : Nat), edgeJoins bonds gi z w → vis g.ds z →
      ¬ vis g₀.ds z → z ≠ u → vis g₀.ds w → (gi : Int) ≠ pe →
      lowOf g.ds u ≤ discOf g₀.ds w
  scan_vis : ∀ p ∈ adj.getD u [], p ∈ es ∨ ((p.2 : Int) ≠ pe → vis g.ds p.1)
  scan_low : ∀ p ∈ adj.getD u [], p ∈ es ∨
      ((p.2 : Int) ≠ pe → vis g₀.ds p.1 → lowOf g.ds u ≤ discOf g₀.ds p.1)
  low_complete : lowOf g.ds u = discOf g.ds u ∨
      ∃ (gi z w : Nat), (gi : Int) ≠ pe ∧ edgeJoins bonds gi z w ∧
        vis g.ds z ∧ ¬ vis g₀.ds z ∧ vis g.ds w ∧
        discOf g.ds w = lowOf g.ds u
  verdict_b : ∀ i ∈ newB, i ∈ Δ ∧
      ∀ a b, edgeJoins bonds i a b → ¬ ConnMinus bonds i a b
  verdict_t : ∀ i ∈ Δ, i ∉ g.ds.bridges →
      ∀ a b, edgeJoins bonds i a b → ConnMinus bonds i a b

/-- Invariant of the root loop between root calls: all visited vertices are
closed, adjacent visited vertices are tree-connected, and the bridge list
carries its verdicts. -/
structure TopInv (bonds : List ME.PBond) (n : Nat) (g : GState) : Prop where
  wf : Wf n g.ds
  all_closed : ∀ x, vis g.ds x → Closed bonds g.ds x
  treevis : ∀ i ∈ g.tree, ∀ a b, edgeJoins bonds i a b →
      vis g.ds a ∧ vis g.ds b
  conn : ∀ i a b, edgeJoins bonds i a b → vis g.ds a → ConnIn bonds g.tree a b
  verdict_b : ∀ i ∈ g.ds.bridges, i ∈ g.tree ∧
      ∀ a b, edgeJoins bonds i a b → ¬ ConnMinus bonds i a b
  verdict_t : ∀ i ∈ g.tree, i ∉ g.ds.bridges →
      ∀ a b, edgeJoins bonds i a b → ConnMinus bonds i a b

end C4

example : (ME.parseSMILES "CCO").atoms.length = 3 := by decide
example : (ME.parseSMILES "CCO").bonds = [⟨0, 1, 1⟩, ⟨1, 2, 1⟩] := by decide
example : (ME.buildAdjacency (ME.parseSMILES "C")).map (ME.molecularWeightMilli (ME.parseSMILES "C")) = some 16043 := by decide

/-! Generic helper lemmas. -/

theorem listGetD_set_eq {α : Type} (l : List α) (i : Nat) (x d : α) (h : i < l.length) :
    (l.set i x).getD i d = x := by
  induction l generalizing i with
  | nil => simp at h
  | cons a t ih =>
    cases i with
    | zero => rfl
    | succ j => simpa using ih j (by simpa using h)

theorem listGetD_set_ne {α : Type} (l : List α) (i j : Nat) (x d : α) (h : j ≠ i) :
    (l.set i x).getD j d = l.getD j d := by
  induction l generalizing i j with
  | nil => rfl
  | cons a t ih =>
    cases i with
    | zero => cases j with
      | zero => exact absurd rfl h
      | succ k => rfl
    | succ i' => cases j with
      | zero => rfl
      | succ k => simpa using ih i' k (by omega)

theorem mapGet_mem {κ α : Type} [BEq κ] (m : List (κ × α)) (k : κ) (v : α)
    (h : mapGet m k = some v) : ∃ p ∈ m, p.2 = v := by
  unfold mapGet at h
  cases hf : m.find? (fun p => p.1 == k) with
  | none => rw [hf] at h; exact absurd h (by simp)
  | some p =>
    rw [hf] at h
    exact ⟨p, List.mem_of_find?_eq_some hf, by simpa using h⟩

theorem mapDelete_subset {κ α : Type} [BEq κ] (m : List (κ × α)) (k : κ) (x : κ × α)
    (h : x ∈ mapDelete m k) : x ∈ m :=
  List.mem_of_mem_filter h

theorem mapSet_mem {κ α : Type} [BEq κ] (m : List (κ × α)) (k : κ) (v : α) (x : κ × α)
    (h : x ∈ mapSet m k v) : x ∈ m ∨ x = (k, v) := by
  unfold mapSet at h
  by_cases hf : (m.find? (fun p => p.1 == k)).isSome
  · rw [if_pos hf] at h
    obtain ⟨p, hp, he⟩ := List.mem_map.mp h
    by_cases hk : p.1 == k
    · right; rw [if_pos hk] at he; exact he.symm
    · left; rw [if_neg hk] at he; exact he ▸ hp
  · rw [if_neg hf] at h
    rcases List.mem_append.mp h with h' | h'
    · exact Or.inl h'
    · right; simpa using h'

theorem foldl_preserve {α β : Type} (f : β → α → β) (P : β → Prop)
    (hf : ∀ b a, P b → P (f b a)) :
    ∀ (l : List α) (b : β), P b → P (l.foldl f b) := by
  intro l
  induction l with
  | nil => intro b hb; exact hb
  | cons a t ih => intro b hb; exact ih (f b a) (hf b a hb)

theorem zip_take_min {α : Type} (l₁ l₂ : List α) :
    l₁.zip l₂ =
      (l₁.take (min l₁.length l₂.length)).zip (l₂.take (min l₁.length l₂.length)) := by
  induction l₁ generalizing l₂ with
  | nil => simp
  | cons a t ih =>
    cases l₂ with
    | nil => simp
    | cons b u =>
      simp only [List.zip_cons_cons, List.length_cons, Nat.succ_min_succ, List.take_succ_cons]
      exact congrArg _ (ih u)

/-- C10.  tanimotoSimilarity and cosineSimilarity compare only the first
min-length positions of their two argument vectors: the result equals the
similarity of the vectors truncated to the common length (and both functions
are total, so no error is raised on unequal lengths). -/
theorem c10_similarity_truncation (fp1 fp2 : List ℚ) :
    ME.tanimotoSimilarity fp1 fp2 =
      ME.tanimotoSimilarity (fp1.take (min fp1.length fp2.length))
        (fp2.take (min fp1.length fp2.length)) ∧
    ME.cosineSimilarity fp1 fp2 =
      ME.cosineSimilarity (fp1.take (min fp1.length fp2.length))
        (fp2.take (min fp1.length fp2.length)) := by
  have hz := zip_take_min fp1 fp2
  constructor
  · unfold ME.tanimotoSimilarity
    rw [← hz]
  · unfold ME.cosineSimilarity ME.cosineParts
    rw [← hz]

/-! C2: the fragment separator. -/

theorem pstep_dot (st : ME.PState) (rest : List Char) :
    ME.pstep st '.' rest = ({ st with prevAtomIdx := -1 }, rest) := by
  cases rest <;> rfl

theorem tstep_dot (rest : List Char) :
    SP.tstep '.' rest = (none, rest) := by
  cases rest <;> rfl

/-- C2 (amended).  The character-stream builder parseSMILES resets the
current attachment point on a fragment separator, so no bond crosses the
dot there; but tokenize emits no token at all for a dot, so the token-stream
passes atomCount and bondCount connect the atoms on either side of a dot as
if they were adjacent. -/
theorem c2_fragment_separator_amended :
    (∀ (fuel : Nat) (st : ME.PState) (rest : List Char),
      ME.consume (fuel + 1) st ('.' :: rest) =
        ME.consume fuel { st with prevAtomIdx := -1 } rest) ∧
    (∀ (fuel : Nat) (rest : List Char),
      SP.tokenizeAux (fuel + 1) ('.' :: rest) = SP.tokenizeAux fuel rest) ∧
    (ME.parseSMILES "CCO.CCO").bonds =
      [⟨0, 1, 1⟩, ⟨1, 2, 1⟩, ⟨3, 4, 1⟩, ⟨4, 5, 1⟩] ∧
    SP.bondCount "C.C" = some ⟨1, 0, 0, 0⟩ ∧
    SP.atomCount "C.C" = some [("C", 2), ("H", 6)] := by
  refine ⟨fun fuel st rest => ?_, fun fuel rest => ?_, by decide, by decide, by decide⟩
  · show (match ME.pstep st '.' rest with
      | (st', rest') => ME.consume fuel st' rest') = _
    rw [pstep_dot]
  · show (match SP.tstep '.' rest with
      | (some t, rest') => t :: SP.tokenizeAux fuel rest'
      | (none, rest') => SP.tokenizeAux fuel rest') = _
    rw [tstep_dot]

/-- C2 (counterexample).  In the token-stream passes the dot does not break
connectivity: bondCount tallies one single bond for "C.C" (two atoms
separated by a dot), where the claim requires zero, and atomCount infers six
hydrogens (a C-C bond was created across the dot) instead of the eight of
two separate methanes; parseSMILES itself creates no bond there. -/
theorem c2_counterexample :
    SP.bondCount "C.C" = some ⟨1, 0, 0, 0⟩ ∧
    SP.atomCount "C.C" = some [("C", 2), ("H", 6)] ∧
    (ME.parseSMILES "C.C").bonds = [] := by
  refine ⟨by decide, by decide, by decide⟩

/-! C3: bond endpoints recorded by parseSMILES. -/

theorem looseIdx_mono {len len' : Nat} {i : Int} (h : len ≤ len')
    (hi : Spec.looseIdx len i) : Spec.looseIdx len' i :=
  ⟨hi.1, lt_of_lt_of_le hi.2 (by exact_mod_cast h)⟩

theorem looseIdx_neg_one (len : Nat) : Spec.looseIdx len (-1) :=
  ⟨le_refl _, by omega⟩

theorem addAtom_inv (st : ME.PState) (sym : String) (ar : Bool)
    (h : Spec.PInv st) : Spec.PInv (ME.addAtom st sym ar) := by
  obtain ⟨hprev, hstack, hring, hbonds⟩ := h
  have hlen : st.atoms.length ≤ (st.atoms ++ [(⟨sym, ar⟩ : ME.PAtom)]).length := by
    simp
  have hnew : Spec.looseIdx (st.atoms ++ [(⟨sym, ar⟩ : ME.PAtom)]).length
      (st.atoms.length : Int) := by
    constructor
    · omega
    · simp
  unfold ME.addAtom
  split
  · refine ⟨hnew, fun i hi => looseIdx_mono hlen (hstack i hi),
      fun p hp => looseIdx_mono hlen (hring p hp), fun b hb => ?_⟩
    rcases List.mem_append.mp hb with hb | hb
    · exact ⟨looseIdx_mono hlen (hbonds b hb).1, looseIdx_mono hlen (hbonds b hb).2⟩
    · simp only [List.mem_singleton] at hb
      subst hb
      exact ⟨looseIdx_mono hlen hprev, hnew⟩
  · exact ⟨hnew, fun i hi => looseIdx_mono hlen (hstack i hi),
      fun p hp => looseIdx_mono hlen (hring p hp),
      fun b hb => ⟨looseIdx_mono hlen (hbonds b hb).1,
        looseIdx_mono hlen (hbonds b hb).2⟩⟩

theorem handleRing_inv (st : ME.PState) (d : Option Int)
    (h : Spec.PInv st) : Spec.PInv (ME.handleRing st d) := by
  obtain ⟨hprev, hstack, hring, hbonds⟩ := h
  unfold ME.handleRing
  cases hg : mapGet st.ringOpenings d with
  | some openIdx =>
    obtain ⟨p, hp, hpv⟩ := mapGet_mem _ _ _ hg
    refine ⟨hprev, hstack, fun q hq => hring q (mapDelete_subset _ _ _ hq),
      fun b hb => ?_⟩
    rcases List.mem_append.mp hb with hb | hb
    · exact hbonds b hb
    · simp only [List.mem_singleton] at hb
      subst hb
      exact ⟨hpv ▸ hring p hp, hprev⟩
  | none =>
    refine ⟨hprev, hstack, fun q hq => ?_, hbonds⟩
    rcases mapSet_mem _ _ _ _ hq with hq' | hq'
    · exact hring q hq'
    · subst hq'; exact hprev

theorem pstep_inv (st : ME.PState) (c : Char) (rest : List Char)
    (h : Spec.PInv st) : Spec.PInv (ME.pstep st c rest).1 := by
  obtain ⟨hprev, hstack, hring, hbonds⟩ := h
  have Hall : Spec.PInv st := ⟨hprev, hstack, hring, hbonds⟩
  by_cases h1 : (c == '(') = true
  · simp only [ME.pstep, if_pos h1]
    refine ⟨hprev, fun i hi => ?_, hring, hbonds⟩
    rcases List.mem_cons.mp hi with hi' | hi'
    · exact hi' ▸ hprev
    · exact hstack i hi'
  by_cases h2 : (c == ')') = true
  · simp only [ME.pstep, if_neg h1, if_pos h2]
    cases hb : st.branchStack with
    | nil =>
      exact ⟨looseIdx_neg_one _, fun i hi => by simp at hi, hring, hbonds⟩
    | cons p s =>
      refine ⟨hstack p (by rw [hb]; exact List.mem_cons_self p s),
        fun i hi => hstack i (by rw [hb]; exact List.mem_cons_of_mem p hi),
        hring, hbonds⟩
  by_cases h3 : (c == '-') = true
  · simp only [ME.pstep, if_neg h1, if_neg h2, if_pos h3]; exact Hall
  by_cases h4 : (c == '=') = true
  · simp only [ME.pstep, if_neg h1, if_neg h2, if_neg h3, if_pos h4]; exact Hall
  by_cases h5 : (c == '#') = true
  · simp only [ME.pstep, if_neg h1, if_neg h2, if_neg h3, if_neg h4, if_pos h5]
    exact Hall
  by_cases h6 : (c == ':') = true
  · simp only [ME.pstep, if_neg h1, if_neg h2, if_neg h3, if_neg h4, if_neg h5,
      if_pos h6]
    exact Hall
  by_cases h7 : (c == '/' || c == '\\') = true
  · simp only [ME.pstep, if_neg h1, if_neg h2, if_neg h3, if_neg h4, if_neg h5,
      if_neg h6, if_pos h7]
    exact Hall
  by_cases h8 : c.isDigit = true
  · simp only [ME.pstep, if_neg h1, if_neg h2, if_neg h3, if_neg h4, if_neg h5,
      if_neg h6, if_neg h7, if_pos h8]
    exact handleRing_inv st _ Hall
  by_cases h9 : (c == '%') = true
  · simp only [ME.pstep, if_neg h1, if_neg h2, if_neg h3, if_neg h4, if_neg h5,
      if_neg h6, if_neg h7, if_neg h8, if_pos h9]
    cases rest with
    | nil => exact Hall
    | cons c₁ r₁ =>
      cases r₁ with
      | nil => exact Hall
      | cons c₂ r₂ => exact handleRing_inv st _ Hall
  by_cases h10 : (c == '[') = true
  · simp only [ME.pstep, if_neg h1, if_neg h2, if_neg h3, if_neg h4, if_neg h5,
      if_neg h6, if_neg h7, if_neg h8, if_neg h9, if_pos h10]
    exact addAtom_inv st _ _ Hall
  by_cases h11 : (match rest with
      | c₂ :: _ => (c == 'C' && c₂ == 'l') || (c == 'B' && c₂ == 'r')
      | [] => false) = true
  · simp only [ME.pstep, if_neg h1, if_neg h2, if_neg h3, if_neg h4, if_neg h5,
      if_neg h6, if_neg h7, if_neg h8, if_neg h9, if_neg h10, if_pos h11]
    exact addAtom_inv st _ _ Hall
  by_cases h12 : c.isAlpha = true
  · simp only [ME.pstep, if_neg h1, if_neg h2, if_neg h3, if_neg h4, if_neg h5,
      if_neg h6, if_neg h7, if_neg h8, if_neg h9, if_neg h10, if_neg h11,
      if_pos h12]
    exact addAtom_inv st _ _ Hall
  by_cases h13 : (c == '.') = true
  · simp only [ME.pstep, if_neg h1, if_neg h2, if_neg h3, if_neg h4, if_neg h5,
      if_neg h6, if_neg h7, if_neg h8, if_neg h9, if_neg h10, if_neg h11,
      if_neg h12, if_pos h13]
    exact ⟨looseIdx_neg_one _, hstack, hring, hbonds⟩
  · simp only [ME.pstep, if_neg h1, if_neg h2, if_neg h3, if_neg h4, if_neg h5,
      if_neg h6, if_neg h7, if_neg h8, if_neg h9, if_neg h10, if_neg h11,
      if_neg h12, if_neg h13]
    exact Hall

theorem consume_inv :
    ∀ (fuel : Nat) (st : ME.PState) (cs : List Char),
      Spec.PInv st → Spec.PInv (ME.consume fuel st cs) := by
  intro fuel
  induction fuel with
  | zero => intro st cs h; exact h
  | succ n ih =>
    intro st cs h
    cases cs with
    | nil => exact h
    | cons c rest =>
      have hp := pstep_inv st c rest h
      rcases he : ME.pstep st c rest with ⟨st', rest'⟩
      rw [he] at hp
      show Spec.PInv (match ME.pstep st c rest with
        | (st', rest') => ME.consume n st' rest')
      rw [he]
      exact ih st' rest' hp

/-- C3 (amended).  Every bond endpoint recorded by parseSMILES is strictly
below the atom count, and is either a valid index or the out-of-range
sentinel -1; bonds between consecutive atoms always get valid endpoints
(")C" parses with no bonds at all), but a ring digit matched against an
opening recorded while no atom was current records -1, as in "1CC1". -/
theorem c3_bond_indices_amended :
    (∀ s : String, ∀ b ∈ (ME.parseSMILES s).bonds,
      -1 ≤ b.fromIdx ∧ b.fromIdx < ((ME.parseSMILES s).atoms.length : Int) ∧
      -1 ≤ b.toIdx ∧ b.toIdx < ((ME.parseSMILES s).atoms.length : Int)) ∧
    (ME.parseSMILES ")C").bonds = [] := by
  refine ⟨fun s b hb => ?_, by decide⟩
  have hinit : Spec.PInv ME.initPState := by
    refine ⟨⟨le_refl _, by simp [ME.initPState]⟩, ?_, ?_, ?_⟩ <;>
      intro x hx <;> simp [ME.initPState] at hx
  have h := consume_inv (s.data.length + 1) ME.initPState s.data hinit
  obtain ⟨-, -, -, hbonds⟩ := h
  obtain ⟨⟨h1, h2⟩, h3, h4⟩ := hbonds b hb
  exact ⟨h1, h2, h3, h4⟩

/-- C3 (witness). -/
theorem c3_bond_indices_witness :
    -1 ≤ (ME.PBond.mk 0 1 1).fromIdx ∧
    (ME.PBond.mk 0 1 1).fromIdx < ((ME.parseSMILES "CC").atoms.length : Int) ∧
    -1 ≤ (ME.PBond.mk 0 1 1).toIdx ∧
    (ME.PBond.mk 0 1 1).toIdx < ((ME.parseSMILES "CC").atoms.length : Int) :=
  c3_bond_indices_amended.1 "CC" ⟨0, 1, 1⟩ (by decide)

/-- C3 (counterexample).  Parsing "1CC1" matches the second ring digit
against an opening recorded before any atom existed: the returned bond list
contains a bond with fromAtomIndex -1, which is not a valid index into the
two-atom list. -/
theorem c3_counterexample :
    (ME.parseSMILES "1CC1").bonds = [⟨0, 1, 1⟩, ⟨-1, 1, 1⟩] ∧
    ¬ Spec.validBondIndices (ME.parseSMILES "1CC1") := by
  refine ⟨by decide, by decide⟩

/-! C6: the validity check. -/

theorem scanParen_none_iff :
    ∀ (cs : List Char) (d : Int), 0 ≤ d →
      (SP.scanParen d cs = none ↔
        (∀ i ≤ cs.length, 0 ≤ Spec.depthBy '(' ')' d (cs.take i)) ∧
        Spec.depthBy '(' ')' d cs = 0) := by
  intro cs
  induction cs with
  | nil =>
    intro d hd
    constructor
    · intro h
      have hz : d = 0 := by
        by_contra hne
        rw [SP.scanParen, if_pos hne] at h
        exact Option.noConfusion h
      exact ⟨fun i _ => by simpa [Spec.depthBy] using hd, by simpa [Spec.depthBy]⟩
    · intro ⟨_, h2⟩
      have hz : d = 0 := by simpa [Spec.depthBy] using h2
      rw [SP.scanParen, if_neg (by simpa using hz)]
  | cons c rest ih =>
    intro d hd
    have hstep : Spec.depthBy '(' ')' d (c :: rest) =
        Spec.depthBy '(' ')' (if c == '(' then d + 1 else if c == ')' then d - 1 else d)
          rest := by
      simp [Spec.depthBy]
    by_cases hneg : (if c == '(' then d + 1 else if c == ')' then d - 1 else d) < 0
    · rw [SP.scanParen, if_pos hneg]
      constructor
      · intro h; exact Option.noConfusion h
      · intro ⟨h1, _⟩
        have := h1 1 (by simp)
        simp only [List.take_succ_cons, List.take_zero] at this
        have hdd : Spec.depthBy '(' ')' d [c] =
            (if c == '(' then d + 1 else if c == ')' then d - 1 else d) := by
          simp [Spec.depthBy]
        rw [hdd] at this
        omega
    · push_neg at hneg
      rw [SP.scanParen, if_neg (by omega)]
      rw [ih _ hneg, hstep]
      constructor
      · intro ⟨h1, h2⟩
        refine ⟨fun i hi => ?_, h2⟩
        cases i with
        | zero => simpa [Spec.depthBy] using hd
        | succ j =>
          simp only [List.take_succ_cons]
          have : Spec.depthBy '(' ')' d (c :: rest.take j) =
              Spec.depthBy '(' ')'
                (if c == '(' then d + 1 else if c == ')' then d - 1 else d)
                (rest.take j) := by
            simp [Spec.depthBy]
          rw [this]
          exact h1 j (by simpa using hi)
      · intro ⟨h1, h2⟩
        refine ⟨fun i hi => ?_, h2⟩
        have := h1 (i + 1) (by simpa using hi)
        simp only [List.take_succ_cons] at this
        have hdd : Spec.depthBy '(' ')' d (c :: rest.take i) =
            Spec.depthBy '(' ')'
              (if c == '(' then d + 1 else if c == ')' then d - 1 else d)
              (rest.take i) := by
          simp [Spec.depthBy]
        rw [hdd] at this
        exact this

theorem scanBracket_none_iff :
    ∀ (cs : List Char) (d : Int), 0 ≤ d →
      (SP.scanBracket d cs = none ↔
        (∀ i ≤ cs.length, 0 ≤ Spec.depthBy '[' ']' d (cs.take i)) ∧
        Spec.depthBy '[' ']' d cs = 0) := by
  intro cs
  induction cs with
  | nil =>
    intro d hd
    constructor
    · intro h
      have hz : d = 0 := by
        by_contra hne
        rw [SP.scanBracket, if_pos hne] at h
        exact Option.noConfusion h
      exact ⟨fun i _ => by simpa [Spec.depthBy] using hd, by simpa [Spec.depthBy]⟩
    · intro ⟨_, h2⟩
      have hz : d = 0 := by simpa [Spec.depthBy] using h2
      rw [SP.scanBracket, if_neg (by simpa using hz)]
  | cons c rest ih =>
    intro d hd
    have hstep : Spec.depthBy '[' ']' d (c :: rest) =
        Spec.depthBy '[' ']' (if c == '[' then d + 1 else if c == ']' then d - 1 else d)
          rest := by
      simp [Spec.depthBy]
    by_cases hneg : (if c == '[' then d + 1 else if c == ']' then d - 1 else d) < 0
    · rw [SP.scanBracket, if_pos hneg]
      constructor
      · intro h; exact Option.noConfusion h
      · intro ⟨h1, _⟩
        have := h1 1 (by simp)
        simp only [List.take_succ_cons, List.take_zero] at this
        have hdd : Spec.depthBy '[' ']' d [c] =
            (if c == '[' then d + 1 else if c == ']' then d - 1 else d) := by
          simp [Spec.depthBy]
        rw [hdd] at this
        omega
    · push_neg at hneg
      rw [SP.scanBracket, if_neg (by omega)]
      rw [ih _ hneg, hstep]
      constructor
      · intro ⟨h1, h2⟩
        refine ⟨fun i hi => ?_, h2⟩
        cases i with
        | zero => simpa [Spec.depthBy] using hd
        | succ j =>
          simp only [List.take_succ_cons]
          have : Spec.depthBy '[' ']' d (c :: rest.take j) =
              Spec.depthBy '[' ']'
                (if c == '[' then d + 1 else if c == ']' then d - 1 else d)
                (rest.take j) := by
            simp [Spec.depthBy]
          rw [this]
          exact h1 j (by simpa using hi)
      · intro ⟨h1, h2⟩
        refine ⟨fun i hi => ?_, h2⟩
        have := h1 (i + 1) (by simpa using hi)
        simp only [List.take_succ_cons] at this
        have hdd : Spec.depthBy '[' ']' d (c :: rest.take i) =
            Spec.depthBy '[' ']'
              (if c == '[' then d + 1 else if c == ']' then d - 1 else d)
              (rest.take i) := by
          simp [Spec.depthBy]
        rw [hdd] at this
        exact this

theorem scanParen_some :
    ∀ (cs : List Char) (d : Int) (e : String), SP.scanParen d cs = some e →
      e = "Unmatched closing parenthesis" ∨ e = "Unmatched opening parenthesis" := by
  intro cs
  induction cs with
  | nil =>
    intro d e h
    rw [SP.scanParen] at h
    split at h
    · exact Or.inr (Option.some_injective _ h).symm
    · exact Option.noConfusion h
  | cons c rest ih =>
    intro d e h
    rw [SP.scanParen] at h
    by_cases hneg : (if c == '(' then d + 1 else if c == ')' then d - 1 else d) < 0
    · rw [if_pos hneg] at h
      exact Or.inl (Option.some_injective _ h).symm
    · rw [if_neg hneg] at h
      exact ih _ e h

theorem scanBracket_some :
    ∀ (cs : List Char) (d : Int) (e : String), SP.scanBracket d cs = some e →
      e = "Unmatched closing bracket" ∨ e = "Unmatched opening bracket" := by
  intro cs
  induction cs with
  | nil =>
    intro d e h
    rw [SP.scanBracket] at h
    split at h
    · exact Or.inr (Option.some_injective _ h).symm
    · exact Option.noConfusion h
  | cons c rest ih =>
    intro d e h
    rw [SP.scanBracket] at h
    by_cases hneg : (if c == '[' then d + 1 else if c == ']' then d - 1 else d) < 0
    · rw [if_pos hneg] at h
      exact Or.inl (Option.some_injective _ h).symm
    · rw [if_neg hneg] at h
      exact ih _ e h

theorem ringToggle_mem (ts : List SP.Tok) :
    ∀ (m : List (Option Int)), m.Nodup →
      (SP.ringToggle m ts).Nodup ∧
      (∀ v, v ∈ SP.ringToggle m ts ↔
        (v ∈ m ↔ (Spec.ringValues ts).count v % 2 = 0)) := by
  induction ts with
  | nil =>
    intro m hm
    refine ⟨hm, fun v => ?_⟩
    simp [SP.ringToggle, Spec.ringValues]
  | cons t ts ih =>
    intro m hm
    cases t with
    | ring v' =>
      have hcnt : ∀ v : Option Int, (Spec.ringValues (SP.Tok.ring v' :: ts)).count v =
          (Spec.ringValues ts).count v + (if v = v' then 1 else 0) := by
        intro v
        simp only [Spec.ringValues, List.filterMap_cons]
        by_cases hv : v = v'
        · subst hv; simp [List.count_cons]
        · simp [List.count_cons, hv]
      by_cases hv' : v' ∈ m
      · have hm' : (m.erase v').Nodup := hm.erase v'
        obtain ⟨hnd, hmem⟩ := ih (m.erase v') hm'
        have hred : SP.ringToggle m (SP.Tok.ring v' :: ts) =
            SP.ringToggle (m.erase v') ts := by
          simp [SP.ringToggle, hv']
        refine ⟨hred ▸ hnd, fun v => ?_⟩
        rw [hred, hmem v, hcnt v]
        by_cases hv : v = v'
        · subst hv
          have h1 : v ∉ m.erase v := fun hc => (hm.mem_erase_iff.mp hc).1 rfl
          simp only [h1, hv', if_pos rfl, if_true, false_iff, true_iff, iff_true, iff_false]
          omega
        · have h1 : v ∈ m.erase v' ↔ v ∈ m := by
            rw [hm.mem_erase_iff]
            exact and_iff_right hv
          rw [h1, if_neg hv, Nat.add_zero]
      · have hm' : (m ++ [v']).Nodup := by
          simp [List.nodup_append, hm, hv']
        obtain ⟨hnd, hmem⟩ := ih (m ++ [v']) hm'
        have hred : SP.ringToggle m (SP.Tok.ring v' :: ts) =
            SP.ringToggle (m ++ [v']) ts := by
          simp [SP.ringToggle, hv']
        refine ⟨hred ▸ hnd, fun v => ?_⟩
        rw [hred, hmem v, hcnt v]
        by_cases hv : v = v'
        · subst hv
          have h1 : v ∈ m ++ [v] := by simp
          simp only [h1, hv', if_pos rfl, if_true, true_iff, false_iff, iff_true, iff_false]
          omega
        · have h1 : v ∈ m ++ [v'] ↔ v ∈ m := by simp [hv]
          rw [h1, if_neg hv, Nat.add_zero]
    | atom value bracket =>
      obtain ⟨hnd, hmem⟩ := ih m hm
      exact ⟨hnd, fun v => by
        show v ∈ SP.ringToggle m ts ↔ (v ∈ m ↔ (Spec.ringValues ts).count v % 2 = 0)
        exact hmem v⟩
    | bond c =>
      obtain ⟨hnd, hmem⟩ := ih m hm
      exact ⟨hnd, fun v => by
        show v ∈ SP.ringToggle m ts ↔ (v ∈ m ↔ (Spec.ringValues ts).count v % 2 = 0)
        exact hmem v⟩
    | branch_open =>
      obtain ⟨hnd, hmem⟩ := ih m hm
      exact ⟨hnd, fun v => by
        show v ∈ SP.ringToggle m ts ↔ (v ∈ m ↔ (Spec.ringValues ts).count v % 2 = 0)
        exact hmem v⟩
    | branch_close =>
      obtain ⟨hnd, hmem⟩ := ih m hm
      exact ⟨hnd, fun v => by
        show v ∈ SP.ringToggle m ts ↔ (v ∈ m ↔ (Spec.ringValues ts).count v % 2 = 0)
        exact hmem v⟩

theorem ringToggle_empty_iff (ts : List SP.Tok) :
    SP.ringToggle [] ts = [] ↔
      ∀ v ∈ Spec.ringValues ts, (Spec.ringValues ts).count v % 2 = 0 := by
  obtain ⟨-, hmem⟩ := ringToggle_mem ts [] List.nodup_nil
  constructor
  · intro h v hv
    by_contra hodd
    have : v ∈ SP.ringToggle [] ts := by
      rw [hmem v]
      simp only [List.not_mem_nil, false_iff]
      exact hodd
    rw [h] at this
    exact List.not_mem_nil v this
  · intro h
    rw [List.eq_nil_iff_forall_not_mem]
    intro v hv
    rw [hmem v] at hv
    simp only [List.not_mem_nil, false_iff] at hv
    by_cases hin : v ∈ Spec.ringValues ts
    · exact hv (h v hin)
    · exact hv (by simp [List.count_eq_zero_of_not_mem hin])

theorem unclosedRing_msg_ne_empty (x : String) :
    ("Unclosed ring digit(s): " ++ x) ≠ "" := by
  intro h
  have hlen := congrArg String.length h
  rw [String.length_append] at hlen
  have h24 : ("Unclosed ring digit(s): " : String).length = 24 := rfl
  have h0 : ("" : String).length = 0 := rfl
  omega

/-- C6.  validate is a total read-only function (never throws, never mutates
its string input); it returns valid exactly when the input is non-empty,
parentheses balance with running depth never negative and ending at zero,
square brackets balance the same way, every ring-closure token value occurs
an even number of times, and at least one atom token exists; on failure the
result carries a non-empty human-readable reason string. -/
theorem c6_validate (s : String) :
    ((SP.validate s).valid = true ↔ Spec.validSMILES s) ∧
    ((SP.validate s).valid = false → ∃ e, (SP.validate s).error = some e ∧ e ≠ "") := by
  simp only [SP.validate, Spec.validSMILES]
  by_cases h0 : s.data.length = 0
  · rw [if_pos h0]
    constructor
    · constructor
      · intro h; exact absurd h Bool.false_ne_true
      · intro ⟨h1, _⟩; exact absurd (List.length_eq_zero.mp h0) h1
    · intro _; exact ⟨"Empty SMILES string", rfl, by decide⟩
  · rw [if_neg h0]
    cases hp : SP.scanParen 0 s.data with
    | some e =>
      constructor
      · constructor
        · intro h; exact absurd h Bool.false_ne_true
        · intro ⟨_, h2, _⟩
          have := (scanParen_none_iff s.data 0 le_rfl).mpr h2
          rw [hp] at this; exact Option.noConfusion this
      · intro _
        refine ⟨e, rfl, ?_⟩
        rcases scanParen_some s.data 0 e hp with he | he <;> subst he <;> decide
    | none =>
      have hpb : Spec.balancedBy '(' ')' s.data :=
        (scanParen_none_iff s.data 0 le_rfl).mp hp
      cases hb : SP.scanBracket 0 s.data with
      | some e =>
        constructor
        · constructor
          · intro h; exact absurd h Bool.false_ne_true
          · intro ⟨_, _, h3, _⟩
            have := (scanBracket_none_iff s.data 0 le_rfl).mpr h3
            rw [hb] at this; exact Option.noConfusion this
        · intro _
          refine ⟨e, rfl, ?_⟩
          rcases scanBracket_some s.data 0 e hb with he | he <;> subst he <;> decide
      | none =>
        have hbb : Spec.balancedBy '[' ']' s.data :=
          (scanBracket_none_iff s.data 0 le_rfl).mp hb
        by_cases hr : SP.ringToggle [] (SP.tokenize s.data) = []
        · rw [if_neg (by simpa using hr)]
          by_cases ha : (SP.tokenize s.data).any SP.isAtomTok = true
          · rw [if_neg (by simpa using ha)]
            constructor
            · constructor
              · intro _
                refine ⟨fun hc => h0 (by simp [hc]), hpb, hbb,
                  (ringToggle_empty_iff _).mp hr, ?_⟩
                obtain ⟨t, ht, hat⟩ := List.any_eq_true.mp ha
                exact ⟨t, ht, hat⟩
              · intro _; rfl
            · intro h; exact absurd h (by simp)
          · rw [if_pos (by simpa using ha)]
            constructor
            · constructor
              · intro h; exact absurd h Bool.false_ne_true
              · intro ⟨_, _, _, _, t, ht, hat⟩
                exact absurd (List.any_eq_true.mpr ⟨t, ht, hat⟩) ha
            · intro _; exact ⟨"No atoms found", rfl, by decide⟩
        · rw [if_pos (by simpa using hr)]
          constructor
          · constructor
            · intro h; exact absurd h Bool.false_ne_true
            · intro ⟨_, _, _, h4, _⟩
              exact absurd ((ringToggle_empty_iff _).mpr h4) hr
          · intro _
            exact ⟨_, rfl, unclosedRing_msg_ne_empty _⟩

/-- C6 (witness). -/
theorem c6_validate_witness :
    ((SP.validate "CCO").valid = true ↔ Spec.validSMILES "CCO") ∧
    (∃ e, (SP.validate "C(").error = some e ∧ e ≠ "") :=
  ⟨(c6_validate "CCO").1, (c6_validate "C(").2 (by decide)⟩

/-! C1: hydrogen handling of bracket atoms. -/

theorem tally_fold (atoms : List SP.CAtom) :
    ∀ (c₀ : List (String × Nat)) (h₀ : Nat),
      atoms.foldl
        (fun (acc : List (String × Nat) × Nat) a =>
          (SP.tallyAdd acc.1 a.element 1, acc.2 + SP.hContrib a))
        (c₀, h₀) =
      (atoms.foldl (fun c a => SP.tallyAdd c a.element 1) c₀,
        h₀ + Spec.hydrogenTally atoms) := by
  induction atoms with
  | nil => intro c₀ h₀; simp [Spec.hydrogenTally]
  | cons a t ih =>
    intro c₀ h₀
    simp only [List.foldl_cons, ih, Spec.hydrogenTally, List.map_cons, List.sum_cons,
      Prod.mk.injEq]
    exact ⟨trivial, by omega⟩

theorem tallyCounts_eq (atoms : List SP.CAtom) :
    SP.tallyCounts atoms =
      (if Spec.hydrogenTally atoms > 0 then
        SP.tallyAdd (Spec.elementTally atoms) "H" (Spec.hydrogenTally atoms)
      else Spec.elementTally atoms) := by
  unfold SP.tallyCounts Spec.elementTally
  rw [tally_fold atoms [] 0]
  simp

theorem jsRound_milli (m : Nat) : jsRound ((m : ℚ) / 1000 * 1000) = m := by
  have h1 : ((m : ℚ) / 1000 * 1000) = (m : ℚ) := by
    field_simp
  have h2 : Rat.floor ((m : ℚ) + 1/2) = ⌊((m : ℚ) + 1/2)⌋ := rfl
  rw [jsRound, h1, h2, show ((m : ℚ) + 1/2) = ((m : ℤ) : ℚ) + 1/2 by push_cast; ring,
    Int.floor_int_add]
  norm_num

/-- The rounding step of molecularWeight is the identity on the exact
accumulated value (a multiple of 0.001). -/
theorem molecularWeight_eq (s : String) :
    ME.molecularWeight s =
      (ME.buildAdjacency (ME.parseSMILES s)).map
        (fun adj => (ME.molecularWeightMilli (ME.parseSMILES s) adj : ℚ) / 1000) := by
  simp only [ME.molecularWeight]
  cases h : ME.buildAdjacency (ME.parseSMILES s) with
  | none => rfl
  | some adj =>
    simp only [Option.map_some']
    rw [jsRound_milli]
    push_cast
    ring_nf

/-- C1 (amended).  The hydrogen tally of atomCount uses, for every bracket
atom, the explicit-hydrogen annotation of the bracket text (0 when none is
given) and valence inference only for non-bracket atoms, so atomCount("[C]")
is just C with no hydrogens; molecularWeight, by contrast, ignores bracket
annotations entirely and applies valence inference to every atom, so
"[C]" weighs 16.043 (carbon plus four inferred hydrogens), not 12.011. -/
theorem c1_bracket_hydrogen_amended :
    (∀ (s : String) (recs : List SP.CAtom), SP.atomRecords s = some recs →
      SP.atomCount s = some
        (if Spec.hydrogenTally recs > 0 then
          SP.tallyAdd (Spec.elementTally recs) "H" (Spec.hydrogenTally recs)
        else Spec.elementTally recs)) ∧
    SP.atomCount "[C]" = some [("C", 1)] ∧
    ME.molecularWeight "[C]" = some (16043 / 1000) := by
  refine ⟨fun s recs h => ?_, by decide, ?_⟩
  · unfold SP.atomCount
    rw [h, Option.map_some', tallyCounts_eq]
  · rw [molecularWeight_eq]
    have h1 : ME.buildAdjacency (ME.parseSMILES "[C]") = some [[]] := by decide
    have h2 : ME.molecularWeightMilli (ME.parseSMILES "[C]") [[]] = 16043 := by decide
    rw [h1, Option.map_some', h2]
    push_cast
    norm_num

/-- C1 (witness). -/
theorem c1_bracket_hydrogen_witness :
    SP.atomCount "[C]" = some
      (if Spec.hydrogenTally [⟨"C", false, 0, true, ['C']⟩] > 0 then
        SP.tallyAdd (Spec.elementTally [⟨"C", false, 0, true, ['C']⟩]) "H"
          (Spec.hydrogenTally [⟨"C", false, 0, true, ['C']⟩])
      else Spec.elementTally [⟨"C", false, 0, true, ['C']⟩]) :=
  c1_bracket_hydrogen_amended.1 "[C]" [⟨"C", false, 0, true, ['C']⟩] (by decide)

/-- C1 (counterexample).  The claim predicts molecularWeight("[C]") = 12.011
(the bare atomic weight of carbon); the code returns 16.043 because
molecularWeight applies valence-based implicit-hydrogen inference to the
bracket atom as well. -/
theorem c1_counterexample :
    ME.molecularWeight "[C]" = some (16043 / 1000) ∧
    (16043 / 1000 : ℚ) ≠ 12011 / 1000 := by
  constructor
  · rw [molecularWeight_eq]
    have h1 : ME.buildAdjacency (ME.parseSMILES "[C]") = some [[]] := by decide
    have h2 : ME.molecularWeightMilli (ME.parseSMILES "[C]") [[]] = 16043 := by decide
    rw [h1, Option.map_some', h2]
    push_cast
    norm_num
  · norm_num

/-! C7: aromatic bond classification in bondCount. -/

theorem foldl_bind_none {α β : Type} (f : β → α → Option β) (l : List α) :
    l.foldl (fun acc t => acc.bind (fun st => f st t)) none = none := by
  induction l with
  | nil => rfl
  | cons a t ih => simpa using ih

theorem bcStep_eq (st : SP.BCState) (t : SP.Tok) (st₁ : SP.BCState)
    (h : SP.bcStep st t = some st₁) :
    Spec.bcStepWith Spec.classifyAm st t = st₁ := by
  obtain ⟨res, prevA, pend, stk, rops, ai⟩ := st
  cases t with
  | atom value b =>
    cases prevA with
    | nullRef =>
      simp only [SP.bcStep] at h
      simp only [Spec.bcStepWith]
      exact Option.some_injective _ h
    | undefRef =>
      by_cases h1 : (pend == some '=') = true
      · simp only [SP.bcStep, h1, if_true] at h
        simp only [Spec.bcStepWith, Spec.classifyAm, h1, if_true]
        exact Option.some_injective _ h
      have hf1 : (pend == some '=') = false := by simpa using h1
      by_cases h2 : (pend == some '#') = true
      · simp only [SP.bcStep, hf1, h2, if_true] at h
        simp only [Spec.bcStepWith, Spec.classifyAm, hf1, h2, if_true]
        exact Option.some_injective _ h
      have hf2 : (pend == some '#') = false := by simpa using h2
      by_cases h3 : (pend == some ':') = true
      · simp only [SP.bcStep, hf1, hf2, h3, if_true] at h
        simp only [Spec.bcStepWith, Spec.classifyAm, hf1, hf2, h3, if_true]
        exact Option.some_injective _ h
      have hf3 : (pend == some ':') = false := by simpa using h3
      by_cases h4 : SP.isLowerSingle value = true
      · simp only [SP.bcStep, hf1, hf2, hf3, h4, if_true, if_false, Bool.false_eq_true] at h
        exact Option.noConfusion h
      · have hf4 : SP.isLowerSingle value = false := by simpa using h4
        simp only [SP.bcStep, hf1, hf2, hf3, hf4, if_false, Bool.false_eq_true,
          Bool.and_false] at h
        simp only [Spec.bcStepWith, Spec.classifyAm, Spec.prevArom, hf1, hf2, hf3, hf4,
          if_false, Bool.false_eq_true, Bool.and_false]
        exact Option.some_injective _ h
    | atomRef i a =>
      by_cases h1 : (pend == some '=') = true
      · simp only [SP.bcStep, h1, if_true] at h
        simp only [Spec.bcStepWith, Spec.classifyAm, h1, if_true]
        exact Option.some_injective _ h
      have hf1 : (pend == some '=') = false := by simpa using h1
      by_cases h2 : (pend == some '#') = true
      · simp only [SP.bcStep, hf1, h2, if_true] at h
        simp only [Spec.bcStepWith, Spec.classifyAm, hf1, h2, if_true]
        exact Option.some_injective _ h
      have hf2 : (pend == some '#') = false := by simpa using h2
      by_cases h3 : (pend == some ':') = true
      · simp only [SP.bcStep, hf1, hf2, h3, if_true] at h
        simp only [Spec.bcStepWith, Spec.classifyAm, hf1, hf2, h3, if_true]
        exact Option.some_injective _ h
      have hf3 : (pend == some ':') = false := by simpa using h3
      by_cases h4 : SP.isLowerSingle value = true
      · simp only [SP.bcStep, hf1, hf2, hf3, h4, if_true, if_false, Bool.false_eq_true] at h
        cases a with
        | true =>
          simp only [if_true] at h
          simp only [Spec.bcStepWith, Spec.classifyAm, Spec.prevArom, hf1, hf2, hf3, h4,
            if_true, Bool.true_and]
          exact Option.some_injective _ h
        | false =>
          simp only [if_false, Bool.false_eq_true] at h
          simp only [Spec.bcStepWith, Spec.classifyAm, Spec.prevArom, hf1, hf2, hf3, h4,
            if_true, Bool.false_and, if_false, Bool.false_eq_true]
          exact Option.some_injective _ h
      · have hf4 : SP.isLowerSingle value = false := by simpa using h4
        simp only [SP.bcStep, hf1, hf2, hf3, hf4, if_false, Bool.false_eq_true,
          Bool.and_false] at h
        simp only [Spec.bcStepWith, Spec.classifyAm, Spec.prevArom, hf1, hf2, hf3, hf4,
          if_false, Bool.false_eq_true, Bool.and_false]
        exact Option.some_injective _ h
  | bond c =>
    simp only [SP.bcStep] at h
    simp only [Spec.bcStepWith]
    exact Option.some_injective _ h
  | branch_open =>
    simp only [SP.bcStep] at h
    simp only [Spec.bcStepWith]
    exact Option.some_injective _ h
  | branch_close =>
    cases stk with
    | nil =>
      simp only [SP.bcStep] at h
      simp only [Spec.bcStepWith]
      exact Option.some_injective _ h
    | cons p s =>
      simp only [SP.bcStep] at h
      simp only [Spec.bcStepWith]
      exact Option.some_injective _ h
  | ring v =>
    cases hget : mapGet rops v with
    | none =>
      simp only [SP.bcStep, hget] at h
      simp only [Spec.bcStepWith, hget]
      exact Option.some_injective _ h
    | some openAtom =>
      by_cases h1 : (pend == some '=') = true
      · simp only [SP.bcStep, hget, h1, if_true] at h
        simp only [Spec.bcStepWith, Spec.classifyAm, hget, h1, if_true]
        exact Option.some_injective _ h
      have hf1 : (pend == some '=') = false := by simpa using h1
      by_cases h2 : (pend == some '#') = true
      · simp only [SP.bcStep, hget, hf1, h2, if_true] at h
        simp only [Spec.bcStepWith, Spec.classifyAm, hget, hf1, h2, if_true]
        exact Option.some_injective _ h
      have hf2 : (pend == some '#') = false := by simpa using h2
      by_cases h3 : (pend == some ':') = true
      · simp only [SP.bcStep, hget, hf1, hf2, h3, if_true] at h
        simp only [Spec.bcStepWith, Spec.classifyAm, hget, hf1, hf2, h3, if_true]
        exact Option.some_injective _ h
      have hf3 : (pend == some ':') = false := by simpa using h3
      cases prevA with
      | nullRef =>
        simp only [SP.bcStep, hget, hf1, hf2, hf3, if_false, Bool.false_eq_true] at h
        simp only [Spec.bcStepWith, Spec.classifyAm, Spec.prevArom, hget, hf1, hf2, hf3,
          if_false, Bool.false_eq_true, Bool.false_and]
        exact Option.some_injective _ h
      | undefRef =>
        simp only [SP.bcStep, hget, hf1, hf2, hf3, if_false, Bool.false_eq_true] at h
        simp only [Spec.bcStepWith, Spec.classifyAm, Spec.prevArom, hget, hf1, hf2, hf3,
          if_false, Bool.false_eq_true, Bool.false_and]
        exact Option.some_injective _ h
      | atomRef i a =>
        cases a with
        | false =>
          simp only [SP.bcStep, hget, hf1, hf2, hf3, if_false, Bool.false_eq_true] at h
          simp only [Spec.bcStepWith, Spec.classifyAm, Spec.prevArom, hget, hf1, hf2, hf3,
            if_false, Bool.false_eq_true, Bool.false_and]
          exact Option.some_injective _ h
        | true =>
          cases openAtom with
          | nullRef =>
            simp only [SP.bcStep, hget, hf1, hf2, hf3, if_true] at h
            exact Option.noConfusion h
          | undefRef =>
            simp only [SP.bcStep, hget, hf1, hf2, hf3, if_true] at h
            exact Option.noConfusion h
          | atomRef j bb =>
            cases bb with
            | true =>
              simp only [SP.bcStep, hget, hf1, hf2, hf3, if_true] at h
              simp only [Spec.bcStepWith, Spec.classifyAm, Spec.prevArom, hget, hf1, hf2, hf3,
                if_true, Bool.true_and]
              exact Option.some_injective _ h
            | false =>
              simp only [SP.bcStep, hget, hf1, hf2, hf3, if_true, if_false,
                Bool.false_eq_true] at h
              simp only [Spec.bcStepWith, Spec.classifyAm, Spec.prevArom, hget, hf1, hf2, hf3,
                if_true, Bool.true_and, if_false, Bool.false_eq_true]
              exact Option.some_injective _ h

theorem bondCount_foldl_eq :
    ∀ (ts : List SP.Tok) (st st' : SP.BCState),
      ts.foldl (fun acc t => acc.bind (fun s => SP.bcStep s t)) (some st) = some st' →
      ts.foldl (Spec.bcStepWith Spec.classifyAm) st = st' := by
  intro ts
  induction ts with
  | nil =>
    intro st st' h
    exact Option.some_injective _ h
  | cons t ts ih =>
    intro st st' h
    simp only [List.foldl_cons, Option.some_bind] at h
    cases h1 : SP.bcStep st t with
    | none =>
      rw [h1, foldl_bind_none] at h
      exact Option.noConfusion h
    | some st₁ =>
      rw [h1] at h
      simp only [List.foldl_cons]
      rw [bcStep_eq st t st₁ h1]
      exact ih st₁ st' h

/-- C7 (amended).  Whenever bondCount returns, each bond was tallied
aromatic iff it was explicitly marked ':' or both its endpoints are aromatic
and the explicit symbol, if any, was '-': an explicit '-' single bond
between two aromatic atoms is still tallied as aromatic, not single (only
'=' and '#' override endpoint aromaticity). -/
theorem c7_bond_aromatic_amended (s : String) (t : SP.BondTally)
    (h : SP.bondCount s = some t) : t = Spec.bondCountAm s := by
  unfold SP.bondCount at h
  cases hf : (SP.tokenize s.data).foldl
      (fun acc t => acc.bind (fun st => SP.bcStep st t))
      (some ⟨⟨0, 0, 0, 0⟩, .nullRef, none, [], [], -1⟩) with
  | none => rw [hf] at h; exact Option.noConfusion h
  | some stf =>
    rw [hf] at h
    simp only [Option.map_some'] at h
    unfold Spec.bondCountAm Spec.bondCountWith
    rw [bondCount_foldl_eq _ _ _ hf]
    exact (Option.some_injective _ h).symm

/-- C7 (witness). -/
theorem c7_bond_aromatic_witness :
    (⟨0, 0, 0, 13⟩ : SP.BondTally) = Spec.bondCountAm "c1ccccc1-c1ccccc1" :=
  c7_bond_aromatic_amended "c1ccccc1-c1ccccc1" ⟨0, 0, 0, 13⟩ (by decide)

/-- C7 (counterexample).  For "c1ccccc1-c1ccccc1" (two benzene rings joined
by an explicit '-' bond) the code tallies 13 aromatic and 0 single bonds:
the explicit '-' between two aromatic atoms is tallied aromatic, while the
claim predicts 1 single and 12 aromatic. -/
theorem c7_counterexample :
    SP.bondCount "c1ccccc1-c1ccccc1" = some ⟨0, 0, 0, 13⟩ ∧
    Spec.bondCountCl "c1ccccc1-c1ccccc1" = ⟨1, 0, 0, 12⟩ ∧
    SP.bondCount "c1ccccc1-c1ccccc1" ≠
      some (Spec.bondCountCl "c1ccccc1-c1ccccc1") := by
  refine ⟨by decide, by decide, by decide⟩

/-! C5: rotatable bond counting. -/

theorem replicate_getD_zero (n v : Nat) : (List.replicate n (0 : Nat)).getD v 0 = 0 := by
  induction n generalizing v with
  | zero => cases v <;> rfl
  | succ m ih =>
    cases v with
    | zero => rfl
    | succ w => simpa [List.replicate] using ih w

theorem length_degree_step (acc : List Nat) (b : ME.PBond) :
    ((acc.set b.fromIdx.toNat (acc.getD b.fromIdx.toNat 0 + 1)).set b.toIdx.toNat
      ((acc.set b.fromIdx.toNat (acc.getD b.fromIdx.toNat 0 + 1)).getD b.toIdx.toNat 0 + 1)).length =
    acc.length := by
  simp

theorem degree_fold (bonds : List ME.PBond) (n : Nat) :
    ∀ acc : List Nat, acc.length = n → (∀ b ∈ bonds, DL.bondOK n b = true) →
    ∀ v, v < n →
      (bonds.foldl
        (fun deg b =>
          let d₁ := deg.set b.fromIdx.toNat (deg.getD b.fromIdx.toNat 0 + 1)
          d₁.set b.toIdx.toNat (d₁.getD b.toIdx.toNat 0 + 1))
        acc).getD v 0 = acc.getD v 0 + Spec.totalDegree bonds v := by
  induction bonds with
  | nil =>
    intro acc _ _ v _
    simp [Spec.totalDegree]
  | cons b bs ih =>
    intro acc hlen hok v hv
    have hbok := hok b (List.mem_cons_self b bs)
    unfold DL.bondOK at hbok
    have h0f : 0 ≤ b.fromIdx := by
      simp only [Bool.and_eq_true, decide_eq_true_eq] at hbok
      exact hbok.1.1.1
    have hf : b.fromIdx.toNat < n := by
      simp only [Bool.and_eq_true, decide_eq_true_eq] at hbok
      omega
    have h0t : 0 ≤ b.toIdx := by
      simp only [Bool.and_eq_true, decide_eq_true_eq] at hbok
      exact hbok.1.2
    have ht : b.toIdx.toNat < n := by
      simp only [Bool.and_eq_true, decide_eq_true_eq] at hbok
      omega
    have hfeq : (b.fromIdx = (v : Int)) ↔ b.fromIdx.toNat = v := by omega
    have hteq : (b.toIdx = (v : Int)) ↔ b.toIdx.toNat = v := by omega
    simp only [List.foldl_cons]
    set acc₁ := acc.set b.fromIdx.toNat (acc.getD b.fromIdx.toNat 0 + 1) with hacc₁
    set acc₂ := acc₁.set b.toIdx.toNat (acc₁.getD b.toIdx.toNat 0 + 1) with hacc₂
    have hlen₁ : acc₁.length = n := by rw [hacc₁, List.length_set, hlen]
    have hlen₂ : acc₂.length = n := by rw [hacc₂, List.length_set, hlen₁]
    have hstep := ih acc₂ hlen₂ (fun b' hb' => hok b' (List.mem_cons_of_mem b hb')) v hv
    rw [hstep]
    have hTD : Spec.totalDegree (b :: bs) v =
        ((if b.fromIdx = (v : Int) ∧ True then 1 else 0) +
         (if b.toIdx = (v : Int) ∧ True then 1 else 0)) + Spec.totalDegree bs v := by
      simp [Spec.totalDegree]
    have hacc₂v : acc₂.getD v 0 = acc.getD v 0 +
        ((if b.fromIdx = (v : Int) then 1 else 0) +
         (if b.toIdx = (v : Int) then 1 else 0)) := by
      by_cases hvt : b.toIdx.toNat = v
      · have hITt : b.toIdx = (v : Int) := hteq.mpr hvt
        rw [hacc₂, ← hvt, listGetD_set_eq _ _ _ _ (by rw [hlen₁]; exact hvt ▸ ht)]
        by_cases hvf : b.fromIdx.toNat = b.toIdx.toNat
        · have hITf : b.fromIdx = (v : Int) := hfeq.mpr (by omega)
          rw [hacc₁, hvf, listGetD_set_eq _ _ _ _ (by rw [hlen]; exact hvt ▸ ht)]
          simp [hITf, hITt, hvt]
        · have hnf : ¬ (b.fromIdx = (v : Int)) := fun hc => hvf (by omega)
          rw [hacc₁, listGetD_set_ne _ _ _ _ _ (by omega)]
          simp [hITt, hnf, hvt]
      · have hnt : ¬ (b.toIdx = (v : Int)) := fun hc => hvt (hteq.mp hc)
        rw [hacc₂, listGetD_set_ne _ _ _ _ _ (by omega)]
        by_cases hvf : b.fromIdx.toNat = v
        · have hITf : b.fromIdx = (v : Int) := hfeq.mpr hvf
          rw [hacc₁, ← hvf, listGetD_set_eq _ _ _ _ (by rw [hlen]; exact hvf ▸ hv)]
          simp [hITf, hnt]
        · have hnf : ¬ (b.fromIdx = (v : Int)) := fun hc => hvf (hfeq.mp hc)
          rw [hacc₁, listGetD_set_ne _ _ _ _ _ (by omega)]
          simp [hnf, hnt]
    rw [hacc₂v]
    simp only [Spec.totalDegree, List.map_cons, List.sum_cons]
    omega

/-- C5 (amended).  countRotatableBonds counts exactly the bonds of order 1
that the bridge-finding pass does not classify as ring bonds and whose two
endpoints have total degree above 1 in the parsed graph, where the total
degree counts every incident bond, including bonds to explicit [H] hydrogen
atoms; n-butane "CCCC" has exactly 1 rotatable bond. -/
theorem c5_rotatable_amended :
    (∀ (s : String) (rb : List Nat),
      DL._findRingBonds (ME.parseSMILES s).bonds (ME.parseSMILES s).atoms.length =
        some rb →
      DL.countRotatableBonds s = some
        ((ME.parseSMILES s).bonds.enum.countP (fun q =>
          q.2.order == 1 && !(rb.contains q.1) &&
          decide (Spec.totalDegree (ME.parseSMILES s).bonds q.2.fromIdx.toNat > 1) &&
          decide (Spec.totalDegree (ME.parseSMILES s).bonds q.2.toIdx.toNat > 1)))) ∧
    DL.countRotatableBonds "CCCC" = some 1 := by
  refine ⟨fun s rb h => ?_, by decide⟩
  have hall : (ME.parseSMILES s).bonds.all
      (DL.bondOK (ME.parseSMILES s).atoms.length) = true := by
    by_contra hc
    unfold DL._findRingBonds at h
    rw [if_neg hc] at h
    exact Option.noConfusion h
  simp only [DL.countRotatableBonds]
  rw [h, Option.map_some']
  congr 1
  apply List.countP_congr
  intro q hq
  have hqb : q.2 ∈ (ME.parseSMILES s).bonds := List.snd_mem_of_mem_enum hq
  have hqok := List.all_eq_true.mp hall q.2 hqb
  unfold DL.bondOK at hqok
  simp only [Bool.and_eq_true, decide_eq_true_eq] at hqok
  have hdegf : (DL.degreeArray (ME.parseSMILES s).bonds
      (ME.parseSMILES s).atoms.length).getD q.2.fromIdx.toNat 0 =
      Spec.totalDegree (ME.parseSMILES s).bonds q.2.fromIdx.toNat := by
    unfold DL.degreeArray
    rw [degree_fold _ _ _ (by simp) (fun b hb => List.all_eq_true.mp hall b hb) _
      (by omega), replicate_getD_zero]
    omega
  have hdegt : (DL.degreeArray (ME.parseSMILES s).bonds
      (ME.parseSMILES s).atoms.length).getD q.2.toIdx.toNat 0 =
      Spec.totalDegree (ME.parseSMILES s).bonds q.2.toIdx.toNat := by
    unfold DL.degreeArray
    rw [degree_fold _ _ _ (by simp) (fun b hb => List.all_eq_true.mp hall b hb) _
      (by omega), replicate_getD_zero]
    omega
  rw [hdegf, hdegt]

/-- C5 (witness). -/
theorem c5_rotatable_witness :
    DL.countRotatableBonds "CCCC" = some
      ((ME.parseSMILES "CCCC").bonds.enum.countP (fun q =>
        q.2.order == 1 && !(([] : List Nat).contains q.1) &&
        decide (Spec.totalDegree (ME.parseSMILES "CCCC").bonds q.2.fromIdx.toNat > 1) &&
        decide (Spec.totalDegree (ME.parseSMILES "CCCC").bonds q.2.toIdx.toNat > 1))) :=
  c5_rotatable_amended.1 "CCCC" [] (by decide)

/-- C5 (counterexample).  For "CC(C)O[H]" the oxygen has heavy-atom degree 1
(its only heavy neighbour is the carbon; the explicit [H] atom is not
heavy), so under the claimed heavy-atom-degree rule the count is 0; the code
counts the C-O bond because it uses the total parsed degree, which includes
the bond to the explicit hydrogen atom, and returns 1. -/
theorem c5_counterexample :
    DL.countRotatableBonds "CC(C)O[H]" = some 1 ∧
    Spec.claimRotatableBonds "CC(C)O[H]" = 0 ∧
    DL.countRotatableBonds "CC(C)O[H]" ≠
      some (Spec.claimRotatableBonds "CC(C)O[H]") := by
  refine ⟨by decide, by decide, by decide⟩

/-! C8 and C9: fingerprint self-similarity and radius monotonicity. -/

theorem setBit_preserves_one :
    ∀ (l : List ℚ) (p q : Nat), l.getD p 0 = 1 → (ME.setBit l q).getD p 0 = 1 := by
  intro l
  induction l with
  | nil => intro p q h; exact h
  | cons a t ih =>
    intro p q h
    cases q with
    | zero =>
      cases p with
      | zero => rfl
      | succ p' => exact h
    | succ q' =>
      cases p with
      | zero => exact h
      | succ p' => exact ih p' q' h

theorem setBits_preserves_one (ids : List Nat) (nBits : Nat) (l : List ℚ) (p : Nat)
    (h : l.getD p 0 = 1) : (ME.setBits l ids nBits).getD p 0 = 1 :=
  foldl_preserve _ (fun fp => fp.getD p 0 = 1)
    (fun fp id hfp => setBit_preserves_one fp p (id % nBits) hfp) ids l h

theorem setBit_length (l : List ℚ) (q : Nat) : (ME.setBit l q).length = l.length := by
  simp [ME.setBit]

theorem setBits_hits :
    ∀ (ids : List Nat) (id : Nat), id ∈ ids → ∀ (l : List ℚ) (nBits : Nat),
      0 < nBits → l.length = nBits →
      (ME.setBits l ids nBits).getD (id % nBits) 0 = 1 := by
  intro ids
  induction ids with
  | nil => intro id h; exact absurd h (List.not_mem_nil id)
  | cons i t ih =>
    intro id hmem l nBits hn hlen
    rcases List.mem_cons.mp hmem with he | ht
    · subst he
      have h1 : (ME.setBit l (id % nBits)).getD (id % nBits) 0 = 1 := by
        unfold ME.setBit
        exact listGetD_set_eq _ _ _ _ (by rw [hlen]; exact Nat.mod_lt _ hn)
      exact setBits_preserves_one t nBits _ _ h1
    · exact ih id ht (ME.setBit l (i % nBits)) nBits hn
        (by rw [setBit_length, hlen])

theorem getD_one_mem : ∀ (l : List ℚ) (p : Nat), l.getD p 0 = 1 → (1 : ℚ) ∈ l := by
  intro l
  induction l with
  | nil =>
    intro p h
    exact absurd h (by cases p <;> norm_num)
  | cons a t ih =>
    intro p h
    cases p with
    | zero => exact h ▸ List.mem_cons_self a t
    | succ p' => exact List.mem_cons_of_mem a (ih p' h)

theorem mem_zip_self : ∀ (l : List ℚ) (x : ℚ), x ∈ l → (x, x) ∈ l.zip l := by
  intro l
  induction l with
  | nil => intro x h; exact absurd h (List.not_mem_nil x)
  | cons a t ih =>
    intro x h
    rcases List.mem_cons.mp h with he | ht
    · subst he; exact List.mem_cons_self _ _
    · exact List.mem_cons_of_mem _ (ih x ht)

theorem zip_self_diag : ∀ (l : List ℚ) (p : ℚ × ℚ), p ∈ l.zip l → p.1 = p.2 := by
  intro l
  induction l with
  | nil => intro p h; exact absurd h (List.not_mem_nil p)
  | cons a t ih =>
    intro p h
    rcases List.mem_cons.mp h with he | ht
    · subst he; rfl
    · exact ih p ht

theorem tanimoto_self_eq_one (v : List ℚ) (h : (1 : ℚ) ∈ v) :
    ME.tanimotoSimilarity v v = 1 := by
  simp only [ME.tanimotoSimilarity]
  have hco : (v.zip v).countP (fun p => decide (p.1 ≠ 0 ∧ p.2 ≠ 0)) =
      (v.zip v).countP (fun p => decide (p.1 ≠ 0 ∨ p.2 ≠ 0)) := by
    apply List.countP_congr
    intro p hp
    have := zip_self_diag v p hp
    simp only [decide_eq_true_eq, this]
    tauto
  have hpos : 0 < (v.zip v).countP (fun p => decide (p.1 ≠ 0 ∨ p.2 ≠ 0)) := by
    rw [List.countP_pos_iff]
    exact ⟨(1, 1), mem_zip_self v 1 h, by norm_num⟩
  rw [hco, if_neg (by omega)]
  rw [div_self]
  exact Nat.cast_ne_zero.mpr (by omega)

theorem fingerprint_has_one (p : ME.Parsed) (adj : List (List (Nat × Nat)))
    (radius nBits : Nat) (hn : 0 < nBits) (ha : p.atoms ≠ []) :
    (1 : ℚ) ∈ ME.fingerprintOf p adj radius nBits := by
  unfold ME.fingerprintOf
  have hlen : (ME.initialIds p adj).length = p.atoms.length := by
    simp [ME.initialIds]
  have hne : ME.initialIds p adj ≠ [] := by
    intro hc
    rw [hc] at hlen
    exact ha (List.length_eq_zero.mp hlen.symm)
  set ids₀ := ME.initialIds p adj with hids
  set pos := ids₀.head hne % nBits with hpos
  have h₀ : (ME.setBits (List.replicate nBits 0) ids₀ nBits).getD pos 0 = 1 :=
    setBits_hits ids₀ (ids₀.head hne) (List.head_mem hne) _ nBits hn (by simp)
  have hfold := foldl_preserve
    (fun (acc : List ℚ × List Nat) r =>
      (ME.setBits acc.1 (ME.nextIds p adj acc.2 r) nBits, ME.nextIds p adj acc.2 r))
    (fun acc => acc.1.getD pos 0 = 1)
    (fun acc r hacc => setBits_preserves_one _ nBits _ _ hacc)
    (List.range' 1 radius)
    (ME.setBits (List.replicate nBits 0) ids₀ nBits, ids₀) h₀
  exact getD_one_mem _ pos hfold

/-- C8 (amended).  For every SMILES string whose parse has at least one atom
and valid bond endpoints (so the fingerprint computation returns), every
radius, and every positive bit-length, the Tanimoto similarity of the
fingerprint with itself is exactly 1 (and the function is pure, so repeated
invocations give the identical vector). -/
theorem c8_self_similarity_amended (s : String) (radius nBits : Nat) (v : List ℚ)
    (hn : 0 < nBits) (hv : ME.morganFingerprint s radius nBits = some v)
    (ha : (ME.parseSMILES s).atoms ≠ []) :
    ME.tanimotoSimilarity v v = 1 := by
  simp only [ME.morganFingerprint] at hv
  cases hadj : ME.buildAdjacency (ME.parseSMILES s) with
  | none => rw [hadj] at hv; exact Option.noConfusion hv
  | some adj =>
    rw [hadj, Option.map_some'] at hv
    have hv' := Option.some_injective _ hv
    rw [← hv']
    exact tanimoto_self_eq_one _ (fingerprint_has_one _ adj radius nBits hn ha)

/-- C8 (witness). -/
theorem c8_self_similarity_witness :
    ME.tanimotoSimilarity [0, 0, 1, 1, 0, 0, 0, 1] [0, 0, 1, 1, 0, 0, 0, 1] = 1 :=
  c8_self_similarity_amended "C" 2 8 [0, 0, 1, 1, 0, 0, 0, 1] (by decide)
    (by decide) (by decide)

/-- C8 (counterexample).  The claim quantifies over every bit-length: at
bit-length 0 the fingerprint is the empty vector and the self-similarity is
0, not 1 (the union of set bits is empty); and for "1CC1" (an input whose
parse records a -1 bond endpoint) the fingerprint computation throws, so no
bit vector is produced at all. -/
theorem c8_counterexample :
    ME.morganFingerprint "C" 2 0 = some [] ∧
    ME.tanimotoSimilarity [] [] = 0 ∧
    (0 : ℚ) ≠ 1 ∧
    ME.morganFingerprint "1CC1" 2 128 = none := by
  refine ⟨by decide, by decide, by norm_num, by decide⟩

theorem fingerprintOf_mono (p : ME.Parsed) (adj : List (List (Nat × Nat)))
    (nBits r r' : Nat) (hr : r ≤ r') (i : Nat)
    (hi : (ME.fingerprintOf p adj r nBits).getD i 0 = 1) :
    (ME.fingerprintOf p adj r' nBits).getD i 0 = 1 := by
  simp only [ME.fingerprintOf] at hi ⊢
  have hsplit : List.range' 1 r' =
      List.range' 1 r ++ List.range' (1 + 1 * r) (r' - r) := by
    rw [List.range'_append 1 r (r' - r) 1]
    congr 1
    omega
  rw [hsplit, List.foldl_append]
  exact foldl_preserve _ (fun acc : List ℚ × List Nat => acc.1.getD i 0 = 1)
    (fun acc rr hacc => setBits_preserves_one _ nBits _ _ hacc) _ _ hi

/-- C9.  Fingerprint bits are only ever set, never cleared: for a fixed
parse and bit-length, every bit set at radius r is also set at any radius
r' ≥ r — the final vector is the union of the bits set at all levels. -/
theorem c9_radius_monotone (s : String) (nBits r r' : Nat) (v : List ℚ)
    (hr : r ≤ r') (hv : ME.morganFingerprint s r nBits = some v) :
    ∃ v', ME.morganFingerprint s r' nBits = some v' ∧
      ∀ i, v.getD i 0 = 1 → v'.getD i 0 = 1 := by
  simp only [ME.morganFingerprint] at hv ⊢
  cases hadj : ME.buildAdjacency (ME.parseSMILES s) with
  | none => rw [hadj] at hv; exact Option.noConfusion hv
  | some adj =>
    rw [hadj] at hv
    simp only [Option.map_some'] at hv ⊢
    have hv' := Option.some_injective _ hv
    refine ⟨ME.fingerprintOf (ME.parseSMILES s) adj r' nBits, rfl, fun i hi => ?_⟩
    rw [← hv'] at hi
    exact fingerprintOf_mono (ME.parseSMILES s) adj nBits r r' hr i hi

/-- C9 (witness). -/
theorem c9_radius_monotone_witness :
    ∃ v', ME.morganFingerprint "C" 2 8 = some v' ∧
      ∀ i, ([0, 0, 1, 0, 0, 0, 0, 0] : List ℚ).getD i 0 = 1 → v'.getD i 0 = 1 :=
  c9_radius_monotone "C" 8 0 2 [0, 0, 1, 0, 0, 0, 0, 0] (by omega) (by decide)

/-! C4 helper lemmas: connectivity utilities, the ghost erasure, and the
termination measure. -/

theorem getD_replicate_self {α : Type} (a : α) :
    ∀ (n i : Nat), (List.replicate n a).getD i a = a := by
  intro n
  induction n with
  | zero => intro i; rfl
  | succ n ih =>
    intro i
    cases i with
    | zero => rfl
    | succ i => simpa [List.replicate] using ih i

theorem edgeJoins_symm {bonds : List ME.PBond} {i a b : Nat}
    (h : C4.edgeJoins bonds i a b) : C4.edgeJoins bonds i b a := by
  obtain ⟨bd, hbd, hor⟩ := h
  exact ⟨bd, hbd, hor.symm⟩

theorem edgeJoins_pair {bonds : List ME.PBond} {i a b x y : Nat}
    (h1 : C4.edgeJoins bonds i a b) (h2 : C4.edgeJoins bonds i x y) :
    (x = a ∧ y = b) ∨ (x = b ∧ y = a) := by
  obtain ⟨bd, hbd, hor1⟩ := h1
  obtain ⟨bd2, hbd2, hor2⟩ := h2
  rw [hbd] at hbd2
  injection hbd2 with he
  subst he
  rcases hor1 with ⟨hf, ht⟩ | ⟨hf, ht⟩ <;> rcases hor2 with ⟨hf2, ht2⟩ | ⟨hf2, ht2⟩ <;>
    omega

theorem connIn_mono {bonds : List ME.PBond} {T T2 : List Nat} {a b : Nat}
    (hsub : ∀ i ∈ T, i ∈ T2) (h : C4.ConnIn bonds T a b) :
    C4.ConnIn bonds T2 a b := by
  induction h with
  | refl => exact Relation.ReflTransGen.refl
  | tail hxy hstep ih =>
    obtain ⟨i, hi, hj⟩ := hstep
    exact Relation.ReflTransGen.tail ih ⟨i, hsub i hi, hj⟩

theorem connIn_symm {bonds : List ME.PBond} {T : List Nat} {a b : Nat}
    (h : C4.ConnIn bonds T a b) : C4.ConnIn bonds T b a := by
  refine Relation.ReflTransGen.symmetric ?_ h
  intro x y hxy
  obtain ⟨i, hi, hj⟩ := hxy
  exact ⟨i, hi, edgeJoins_symm hj⟩

theorem connIn_minus {bonds : List ME.PBond} {T : List Nat} {skip a b : Nat}
    (hT : ∀ i ∈ T, i ≠ skip) (h : C4.ConnIn bonds T a b) :
    C4.ConnMinus bonds skip a b := by
  induction h with
  | refl => exact Relation.ReflTransGen.refl
  | tail hxy hstep ih =>
    obtain ⟨i, hi, hj⟩ := hstep
    exact Relation.ReflTransGen.tail ih ⟨i, hT i hi, hj⟩

theorem connMinus_symm {bonds : List ME.PBond} {skip a b : Nat}
    (h : C4.ConnMinus bonds skip a b) : C4.ConnMinus bonds skip b a := by
  refine Relation.ReflTransGen.symmetric ?_ h
  intro x y hxy
  obtain ⟨i, hi, hj⟩ := hxy
  exact ⟨i, hi, edgeJoins_symm hj⟩

theorem connMinus_single {bonds : List ME.PBond} {skip i a b : Nat}
    (hne : i ≠ skip) (hj : C4.edgeJoins bonds i a b) :
    C4.ConnMinus bonds skip a b :=
  Relation.ReflTransGen.single ⟨i, hne, hj⟩

theorem connMinus_cut {bonds : List ME.PBond} {skip u v : Nat} (S : Nat → Prop)
    (hcross : ∀ j a b, j ≠ skip → C4.edgeJoins bonds j a b → S a → S b)
    (hu : ¬ S u) (hv : S v) : ¬ C4.ConnMinus bonds skip u v := by
  intro hConn
  have key : ∀ x, C4.ConnMinus bonds skip u x → ¬ S x := by
    intro x hx
    induction hx with
    | refl => exact hu
    | tail hum hstep ih =>
      obtain ⟨j, hj, hjoin⟩ := hstep
      intro hSx
      exact ih (hcross j _ _ hj (edgeJoins_symm hjoin) hSx)
  exact key v hConn hv

theorem uc_pos {st : DL.DState} {u : Nat} (hlen : u < st.visited.length)
    (hu : ¬ C4.vis st u) : 0 < C4.uc st := by
  have hgd : st.visited.getD u false = false := by
    simp only [C4.vis, Bool.not_eq_true] at hu
    exact hu
  rw [List.getD_eq_get _ _ hlen] at hgd
  refine List.countP_pos_iff.mpr ⟨st.visited.get ⟨u, hlen⟩, List.get_mem _ _ _, ?_⟩
  rw [hgd]
  rfl

theorem countP_set_true_lt :
    ∀ (l : List Bool) (u : Nat), u < l.length → l.getD u false = false →
      (l.set u true).countP (fun b => !b) < l.countP (fun b => !b) := by
  intro l
  induction l with
  | nil => intro u hu; simp at hu
  | cons a l ih =>
    intro u hu hgd
    cases u with
    | zero =>
      simp only [List.getD_cons_zero] at hgd
      subst hgd
      simp [List.countP_cons]
    | succ u =>
      simp only [List.getD_cons_succ] at hgd
      simp only [List.length_cons, Nat.succ_lt_succ_iff] at hu
      show (a :: l.set u true).countP (fun b => !b) < (a :: l).countP (fun b => !b)
      simp only [List.countP_cons]
      have := ih u hu hgd
      cases a <;> simp <;> omega

theorem foldl_proj {α β γ : Type} (f : α → γ → α) (fg : β → γ → β) (proj : β → α)
    (hstep : ∀ b c, proj (fg b c) = f (proj b) c) :
    ∀ (es : List γ) (b : β), proj (es.foldl fg b) = es.foldl f (proj b) := by
  intro es
  induction es with
  | nil => intro b; rfl
  | cons e es ih => intro b; rw [List.foldl_cons, List.foldl_cons, ih, hstep]

theorem dfsGoT_ds (adj : List (List (Nat × Nat))) :
    ∀ (fuel u : Nat) (pe : Int) (g : C4.GState),
      (C4.dfsGoT adj fuel u pe g).ds = DL.dfsGo adj fuel u pe g.ds := by
  intro fuel
  induction fuel with
  | zero => intro u pe g; rfl
  | succ fuel ih =>
    intro u pe g
    simp only [C4.dfsGoT, DL.dfsGo, C4.markState]
    refine foldl_proj _ _ _ ?_ _ _
    intro b c
    simp only [C4.edgeStep]
    by_cases h1 : ((c.2 : Int) == pe) = true
    · rw [if_pos h1, if_pos h1]
    · rw [if_neg h1, if_neg h1]
      by_cases h2 : b.ds.visited.getD c.1 false = true
      · rw [if_pos h2, if_pos h2]
      · rw [if_neg h2, if_neg h2]
        simp only [ih]
        split <;> rfl

theorem rootsT_ds (adj : List (List (Nat × Nat))) (n : Nat) :
    (C4.rootsT adj n).ds = (List.range n).foldl
      (fun st i => if st.visited.getD i false then st else DL.dfsGo adj (n + 1) i (-1) st)
      ⟨List.replicate n false, List.replicate n (-1), List.replicate n (-1), 0, []⟩ := by
  simp only [C4.rootsT]
  refine foldl_proj _ _ _ ?_ _ _
  intro b c
  by_cases h : b.ds.visited.getD c false = true
  · rw [if_pos h, if_pos h]
  · rw [if_neg h, if_neg h]
    exact dfsGoT_ds adj (n + 1) c (-1) b

theorem adjStep_mem (n : Nat) (acc : List (List (Nat × Nat))) (f t i : Nat)
    (hlen : acc.length = n) (hf : f < n) (ht : t < n) :
    ((acc.set f (acc.getD f [] ++ [(t, i)])).set t
      ((acc.set f (acc.getD f [] ++ [(t, i)])).getD t [] ++ [(f, i)])).length = n ∧
    ∀ (u : Nat) (p : Nat × Nat),
      p ∈ ((acc.set f (acc.getD f [] ++ [(t, i)])).set t
        ((acc.set f (acc.getD f [] ++ [(t, i)])).getD t [] ++ [(f, i)])).getD u [] ↔
      p ∈ acc.getD u [] ∨ (u = f ∧ p = (t, i)) ∨ (u = t ∧ p = (f, i)) := by
  have hlen1 : (acc.set f (acc.getD f [] ++ [(t, i)])).length = n := by
    rw [List.length_set, hlen]
  refine ⟨by rw [List.length_set, hlen1], ?_⟩
  intro u p
  by_cases hut : u = t
  · subst hut
    rw [listGetD_set_eq _ _ _ _ (by rw [hlen1]; exact ht)]
    by_cases htf : u = f
    · subst htf
      rw [listGetD_set_eq _ _ _ _ (by rw [hlen]; exact hf)]
      simp only [List.mem_append, List.mem_singleton, true_and]
      tauto
    · rw [listGetD_set_ne _ _ _ _ _ (by omega)]
      simp only [List.mem_append, List.mem_singleton]
      have : ¬ (u = f) := htf
      tauto
  · rw [listGetD_set_ne _ _ _ _ _ (by omega)]
    by_cases huf : u = f
    · subst huf
      rw [listGetD_set_eq _ _ _ _ (by rw [hlen]; exact hf)]
      simp only [List.mem_append, List.mem_singleton, true_and]
      have : ¬ (u = t) := hut
      tauto
    · rw [listGetD_set_ne _ _ _ _ _ (by omega)]
      have h1 : ¬ (u = t) := hut
      have h2 : ¬ (u = f) := huf
      tauto

theorem ringAdj_mem (n : Nat) :
    ∀ (l : List (Nat × ME.PBond)) (acc : List (List (Nat × Nat))),
      acc.length = n → (∀ q ∈ l, q.2.fromIdx.toNat < n ∧ q.2.toIdx.toNat < n) →
      (l.foldl
        (fun adj (p : Nat × ME.PBond) =>
          let f := p.2.fromIdx.toNat
          let t := p.2.toIdx.toNat
          let adj₁ := adj.set f (adj.getD f [] ++ [(t, p.1)])
          adj₁.set t (adj₁.getD t [] ++ [(f, p.1)])) acc).length = n ∧
      ∀ (u : Nat) (p : Nat × Nat),
        p ∈ (l.foldl
          (fun adj (p : Nat × ME.PBond) =>
            let f := p.2.fromIdx.toNat
            let t := p.2.toIdx.toNat
            let adj₁ := adj.set f (adj.getD f [] ++ [(t, p.1)])
            adj₁.set t (adj₁.getD t [] ++ [(f, p.1)])) acc).getD u [] ↔
        p ∈ acc.getD u [] ∨ ∃ q ∈ l,
          (u = q.2.fromIdx.toNat ∧ p = (q.2.toIdx.toNat, q.1)) ∨
          (u = q.2.toIdx.toNat ∧ p = (q.2.fromIdx.toNat, q.1)) := by
  intro l
  induction l with
  | nil =>
    intro acc hlen _
    refine ⟨hlen, ?_⟩
    intro u p
    simp
  | cons q l ih =>
    intro acc hlen hq
    have hf : q.2.fromIdx.toNat < n := (hq q (List.mem_cons_self _ _)).1
    have ht : q.2.toIdx.toNat < n := (hq q (List.mem_cons_self _ _)).2
    obtain ⟨hlen2, hstep⟩ := adjStep_mem n acc q.2.fromIdx.toNat q.2.toIdx.toNat q.1 hlen hf ht
    have hrest := ih _ hlen2 (fun r hr => hq r (List.mem_cons_of_mem _ hr))
    rw [List.foldl_cons]
    refine ⟨hrest.1, ?_⟩
    intro u p
    refine Iff.trans (hrest.2 u p) ?_
    constructor
    · rintro (hp | ⟨r, hr, hc⟩)
      · rcases (hstep u p).mp hp with hp0 | hc
        · exact Or.inl hp0
        · exact Or.inr ⟨q, List.mem_cons_self _ _, hc⟩
      · exact Or.inr ⟨r, List.mem_cons_of_mem _ hr, hc⟩
    · rintro (hp0 | ⟨r, hr, hc⟩)
      · exact Or.inl ((hstep u p).mpr (Or.inl hp0))
      · rcases List.mem_cons.mp hr with hrq | hrl
        · subst hrq
          exact Or.inl ((hstep u p).mpr (Or.inr hc))
        · exact Or.inr ⟨r, hrl, hc⟩

theorem enum_get {bonds : List ME.PBond} {q : Nat × ME.PBond} (hq : q ∈ bonds.enum) :
    bonds.get? q.1 = some q.2 := by
  rw [List.get?_eq_getElem?]
  exact List.mem_enum_iff_getElem?.mp hq

theorem get_enum {bonds : List ME.PBond} {i : Nat} {bd : ME.PBond}
    (h : bonds.get? i = some bd) : (i, bd) ∈ bonds.enum := by
  rw [List.get?_eq_getElem?] at h
  exact List.mem_enum_iff_getElem?.mpr h

theorem ringAdj_ok (bonds : List ME.PBond) (n : Nat)
    (hok : ∀ q ∈ bonds.enum, q.2.fromIdx.toNat < n ∧ q.2.toIdx.toNat < n) :
    C4.AdjOK bonds n (DL.ringAdj bonds n) := by
  obtain ⟨hlen, hmem⟩ := ringAdj_mem n bonds.enum (List.replicate n [])
    (by rw [List.length_replicate]) hok
  refine ⟨hlen, ?_, ?_⟩
  · intro u p hp
    have hp2 := (hmem u p).mp hp
    rcases hp2 with hp0 | ⟨q, hq, hc⟩
    · rw [getD_replicate_self] at hp0
      simp at hp0
    · have hget : bonds.get? q.1 = some q.2 := enum_get hq
      have hqlen : q.1 < bonds.length := (List.get?_eq_some.mp hget).1
      rcases hc with ⟨hu, hpv⟩ | ⟨hu, hpv⟩
      · subst hpv
        exact ⟨(hok q hq).2, hqlen, q.2, hget, Or.inl ⟨hu.symm, rfl⟩⟩
      · subst hpv
        exact ⟨(hok q hq).1, hqlen, q.2, hget, Or.inr ⟨rfl, hu.symm⟩⟩
  · intro i a b hj _
    obtain ⟨bd, hbd, horient⟩ := hj
    have henum : (i, bd) ∈ bonds.enum := get_enum hbd
    refine (hmem a (b, i)).mpr (Or.inr ⟨(i, bd), henum, ?_⟩)
    rcases horient with ⟨hfa, htb⟩ | ⟨hfb, hta⟩
    · exact Or.inl ⟨hfa.symm, by rw [htb]⟩
    · exact Or.inr ⟨hta.symm, by rw [hfb]⟩

theorem closed_mono {bonds : List ME.PBond} {st st2 : DL.DState} {x : Nat}
    (hmono : ∀ y, C4.vis st y → C4.vis st2 y) (h : C4.Closed bonds st x) :
    C4.Closed bonds st2 x := by
  intro i y hj
  exact hmono y (h i y hj)

theorem peL_mem {pe : Int} {i : Nat} (h : i ∈ C4.peL pe) :
    0 ≤ pe ∧ i = pe.toNat := by
  by_cases hpe : 0 ≤ pe
  · simp only [C4.peL, if_pos hpe, List.mem_singleton] at h
    exact ⟨hpe, h⟩
  · simp only [C4.peL, if_neg hpe, List.not_mem_nil] at h

theorem mid_init (bonds : List ME.PBond) (n : Nat) (adj : List (List (Nat × Nat)))
    (A : List Nat) (pe : Int) (u : Nat) (g₀ : C4.GState)
    (hpre : C4.Pre bonds n A pe u g₀) :
    C4.Mid bonds n adj A pe u g₀ (adj.getD u [])
      ⟨C4.markState u g₀.ds, g₀.tree ++ C4.peL pe⟩ [] [] := by
  have hvlen : u < g₀.ds.visited.length := by rw [hpre.wf.hvlen]; exact hpre.hun
  have hdlen : u < g₀.ds.disc.length := by rw [hpre.wf.hdlen]; exact hpre.hun
  have hllen : u < g₀.ds.low.length := by rw [hpre.wf.hllen]; exact hpre.hun
  have hgd0 : g₀.ds.visited.getD u false = false := by
    have := hpre.hunvis
    simp only [C4.vis, Bool.not_eq_true] at this
    exact this
  have hmono : ∀ x, C4.vis g₀.ds x → C4.vis (C4.markState u g₀.ds) x := by
    intro x hx
    simp only [C4.vis, C4.markState] at hx ⊢
    by_cases hxu : x = u
    · subst hxu
      rw [listGetD_set_eq _ _ _ _ hvlen]
    · rw [listGetD_set_ne _ _ _ _ _ hxu]
      exact hx
  have hvisM : ∀ x, C4.vis (C4.markState u g₀.ds) x → x = u ∨ C4.vis g₀.ds x := by
    intro x hx
    simp only [C4.vis, C4.markState] at hx
    by_cases hxu : x = u
    · exact Or.inl hxu
    · rw [listGetD_set_ne _ _ _ _ _ hxu] at hx
      exact Or.inr hx
  have hvu : C4.vis (C4.markState u g₀.ds) u := by
    simp only [C4.vis, C4.markState]
    rw [listGetD_set_eq _ _ _ _ hvlen]
  have hdiscu : C4.discOf (C4.markState u g₀.ds) u = (g₀.ds.timer : Int) := by
    simp only [C4.discOf, C4.markState]
    rw [listGetD_set_eq _ _ _ _ hdlen]
  have hlowu : C4.lowOf (C4.markState u g₀.ds) u = (g₀.ds.timer : Int) := by
    simp only [C4.lowOf, C4.markState]
    rw [listGetD_set_eq _ _ _ _ hllen]
  have hdstable : ∀ x, C4.vis g₀.ds x →
      C4.discOf (C4.markState u g₀.ds) x = C4.discOf g₀.ds x := by
    intro x hx
    have hxu : x ≠ u := by intro hc; subst hc; exact hpre.hunvis hx
    simp only [C4.discOf, C4.markState]
    rw [listGetD_set_ne _ _ _ _ _ hxu]
  have hlstable : ∀ x, C4.vis g₀.ds x →
      C4.lowOf (C4.markState u g₀.ds) x = C4.lowOf g₀.ds x := by
    intro x hx
    have hxu : x ≠ u := by intro hc; subst hc; exact hpre.hunvis hx
    simp only [C4.lowOf, C4.markState]
    rw [listGetD_set_ne _ _ _ _ _ hxu]
  have htimer : (C4.markState u g₀.ds).timer = g₀.ds.timer + 1 := rfl
  refine ⟨?_, hvu, hmono, hdstable, hlstable, ?_, hdiscu, ?_, ?_, ?_, ?_, ?_, ?_, ?_,
    ?_, ?_, ?_, ?_, ?_, ?_, ?_, ?_⟩
  · -- wf
    refine ⟨?_, ?_, ?_, ?_⟩
    · simp only [C4.markState, List.length_set]; exact hpre.wf.hvlen
    · simp only [C4.markState, List.length_set]; exact hpre.wf.hdlen
    · simp only [C4.markState, List.length_set]; exact hpre.wf.hllen
    · intro x hx
      rw [htimer]
      rcases hvisM x hx with hxu | hxv
      · subst hxu
        rw [hdiscu]
        constructor
        · exact Int.natCast_nonneg _
        · push_cast
          omega
      · rw [hdstable x hxv]
        have := hpre.wf.hdisc x hxv
        constructor
        · exact this.1
        · have h2 := this.2
          push_cast at h2 ⊢
          omega
  · -- timer_gt
    rw [htimer]
    omega
  · -- new_disc
    intro x hx hnx
    rcases hvisM x hx with hxu | hxv
    · subst hxu
      rw [hdiscu]
    · exact absurd hxv hnx
  · -- frame
    intro x hx hxA hxu
    rcases hvisM x hx with hxu2 | hxv
    · exact absurd hxu2 hxu
    · exact closed_mono hmono (hpre.hframe x hxv hxA)
  · -- tree_eq
    simp
  · -- tree_new
    intro i hi
    simp at hi
  · -- treevis
    intro i hi a b hj
    rcases List.mem_append.mp hi with hold | hpe
    · have := hpre.htree i hold a b hj
      exact ⟨hmono a this.1, hmono b this.2⟩
    · obtain ⟨hpe0, hieq⟩ := peL_mem hpe
      obtain ⟨c, hjc, hvc⟩ := hpre.hpe hpe0
      rw [← hieq] at hjc
      rcases edgeJoins_pair hjc hj with ⟨hau, hbc⟩ | ⟨hac, hbu⟩
      · refine ⟨by rw [hau]; exact hvu, by rw [hbc]; exact hmono c hvc⟩
      · refine ⟨by rw [hac]; exact hmono c hvc, by rw [hbu]; exact hvu⟩
  · -- tconn
    intro x hx hnx
    rcases hvisM x hx with hxu | hxv
    · subst hxu
      exact Relation.ReflTransGen.refl
    · exact absurd hxv hnx
  · -- uc_lt
    exact countP_set_true_lt _ _ hvlen hgd0
  · -- bridges_eq
    simp [C4.markState]
  · -- low_ub
    rw [hlowu, hdiscu]
  · -- low_sound
    intro gi z w hj hz hnz hzu hw hgpe
    rcases hvisM z hz with hzu2 | hzv
    · exact absurd hzu2 hzu
    · exact absurd hzv hnz
  · -- scan_vis
    intro p hp
    exact Or.inl hp
  · -- scan_low
    intro p hp
    exact Or.inl hp
  · -- low_complete
    left
    rw [hlowu, hdiscu]
  · -- verdict_b
    intro i hi
    simp at hi
  · -- verdict_t
    intro i hi
    simp at hi

theorem mid_step_pe {bonds : List ME.PBond} {n : Nat} {adj : List (List (Nat × Nat))}
    {A : List Nat} {pe : Int} {u : Nat} {g₀ : C4.GState} {p : Nat × Nat}
    {es : List (Nat × Nat)} {g : C4.GState} {Δ newB : List Nat}
    (hmid : C4.Mid bonds n adj A pe u g₀ (p :: es) g Δ newB)
    (hpe : (p.2 : Int) = pe) :
    C4.Mid bonds n adj A pe u g₀ es g Δ newB := by
  obtain ⟨wf, hu, mono, sd, sl, tg, du, nd, fr, te, tn, tv, tc, ul, be, lb, ls, sv,
    slo, lc, vb, vt⟩ := hmid
  refine ⟨wf, hu, mono, sd, sl, tg, du, nd, fr, te, tn, tv, tc, ul, be, lb, ls,
    ?_, ?_, lc, vb, vt⟩
  · intro q hq
    rcases sv q hq with hq2 | hc
    · rcases List.mem_cons.mp hq2 with hqp | hqe
      · subst hqp
        exact Or.inr (fun hne => absurd hpe hne)
      · exact Or.inl hqe
    · exact Or.inr hc
  · intro q hq
    rcases slo q hq with hq2 | hc
    · rcases List.mem_cons.mp hq2 with hqp | hqe
      · subst hqp
        exact Or.inr (fun hne => absurd hpe hne)
      · exact Or.inl hqe
    · exact Or.inr hc

theorem mid_step_back {bonds : List ME.PBond} {n : Nat} {adj : List (List (Nat × Nat))}
    {A : List Nat} {pe : Int} {u : Nat} {g₀ : C4.GState} {p : Nat × Nat}
    {es : List (Nat × Nat)} {g : C4.GState} {Δ newB : List Nat}
    (hadj : C4.AdjOK bonds n adj)
    (hpre : C4.Pre bonds n A pe u g₀)
    (hmid : C4.Mid bonds n adj A pe u g₀ (p :: es) g Δ newB)
    (hrow : p ∈ adj.getD u [])
    (hpne : (p.2 : Int) ≠ pe)
    (hvis : C4.vis g.ds p.1) :
    C4.Mid bonds n adj A pe u g₀ es
      { g with ds := { g.ds with
          low := g.ds.low.set u (min (g.ds.low.getD u 0) (g.ds.disc.getD p.1 0)) } }
      Δ newB := by
  have hllen : u < g.ds.low.length := by rw [hmid.wf.hllen]; exact hpre.hun
  have hlow : C4.lowOf { g.ds with
      low := g.ds.low.set u (min (g.ds.low.getD u 0) (g.ds.disc.getD p.1 0)) } u
      = min (C4.lowOf g.ds u) (C4.discOf g.ds p.1) := by
    simp only [C4.lowOf, C4.discOf]
    rw [listGetD_set_eq _ _ _ _ hllen]
  have hlowx : ∀ x, x ≠ u → C4.lowOf { g.ds with
      low := g.ds.low.set u (min (g.ds.low.getD u 0) (g.ds.disc.getD p.1 0)) } x
      = C4.lowOf g.ds x := by
    intro x hx
    simp only [C4.lowOf]
    rw [listGetD_set_ne _ _ _ _ _ hx]
  have hle : C4.lowOf { g.ds with
      low := g.ds.low.set u (min (g.ds.low.getD u 0) (g.ds.disc.getD p.1 0)) } u
      ≤ C4.lowOf g.ds u := by
    rw [hlow]; exact min_le_left _ _
  obtain ⟨wf, hu, mono, sd, sl, tg, du, nd, fr, te, tn, tv, tc, ul, be, lb, ls, sv,
    slo, lc, vb, vt⟩ := hmid
  have hxnu : ∀ x, C4.vis g₀.ds x → x ≠ u := by
    intro x hx hc
    subst hc
    exact hpre.hunvis hx
  refine ⟨⟨by simpa using wf.hvlen, by simpa using wf.hdlen,
      by simp only [List.length_set]; exact wf.hllen, wf.hdisc⟩,
    hu, mono, sd, ?_, tg, du, nd, fr, te, tn, tv, tc, ul, be, ?_, ?_, ?_, ?_, ?_, vb, vt⟩
  · -- stable_low
    intro x hx
    rw [hlowx x (hxnu x hx)]
    exact sl x hx
  · -- low_ub
    exact le_trans hle lb
  · -- low_sound
    intro gi z w hj hz hnz hzu hw hgpe
    exact le_trans hle (ls gi z w hj hz hnz hzu hw hgpe)
  · -- scan_vis
    intro q hq
    rcases sv q hq with hq2 | hc
    · rcases List.mem_cons.mp hq2 with hqp | hqe
      · rw [hqp]
        exact Or.inr (fun _ => hvis)
      · exact Or.inl hqe
    · exact Or.inr hc
  · -- scan_low
    intro q hq
    rcases slo q hq with hq2 | hc
    · rcases List.mem_cons.mp hq2 with hqp | hqe
      · rw [hqp]
        refine Or.inr (fun hne h0 => ?_)
        rw [hlow]
        calc min (C4.lowOf g.ds u) (C4.discOf g.ds p.1) ≤ C4.discOf g.ds p.1 :=
              min_le_right _ _
          _ = C4.discOf g₀.ds p.1 := sd p.1 h0
      · exact Or.inl hqe
    · refine Or.inr (fun hne h0 => le_trans hle (hc hne h0))
  · -- low_complete
    by_cases hcmp : C4.lowOf g.ds u ≤ C4.discOf g.ds p.1
    · rw [hlow, min_eq_left hcmp]
      rcases lc with hl | ⟨gi, z, w, hgpe, hj, hz, hnz, hw, hd⟩
      · exact Or.inl hl
      · exact Or.inr ⟨gi, z, w, hgpe, hj, hz, hnz, hw, hd⟩
    · rw [hlow, min_eq_right (le_of_not_le hcmp)]
      have hj : C4.edgeJoins bonds p.2 u p.1 := (hadj.sound u p hrow).2.2
      exact Or.inr ⟨p.2, u, p.1, hpne, hj, hu, hpre.hunvis, hvis, rfl⟩

theorem natCast_ne_of_ne {a b : Nat} (h : a ≠ b) : (a : Int) ≠ (b : Int) := by
  intro hc
  exact h (Int.ofNat.inj hc)

theorem ne_of_natCast_ne {a b : Nat} (h : (a : Int) ≠ (b : Int)) : a ≠ b := by
  intro hc
  subst hc
  exact h rfl

theorem peL_natCast (i : Nat) : C4.peL (i : Int) = [i] := by
  simp [C4.peL]

theorem mid_step_descend {bonds : List ME.PBond} {n : Nat}
    {adj : List (List (Nat × Nat))}
    {A : List Nat} {pe : Int} {u : Nat} {g₀ : C4.GState} {p : Nat × Nat}
    {es : List (Nat × Nat)} {g : C4.GState} {Δ newB : List Nat}
    {gch : C4.GState} {Δc newBc : List Nat}
    (hadj : C4.AdjOK bonds n adj)
    (hpre : C4.Pre bonds n A pe u g₀)
    (hmid : C4.Mid bonds n adj A pe u g₀ (p :: es) g Δ newB)
    (hrow : p ∈ adj.getD u [])
    (hpne : (p.2 : Int) ≠ pe)
    (hnvis : ¬ C4.vis g.ds p.1)
    (hpost : C4.Post bonds n (p.2 : Int) p.1 g gch Δc newBc)
    (br : Bool)
    (hbr : br = true → C4.discOf g.ds u < C4.lowOf gch.ds p.1)
    (hnbr : br = false → C4.lowOf gch.ds p.1 ≤ C4.discOf g.ds u) :
    C4.Mid bonds n adj A pe u g₀ es
      ⟨{ gch.ds with
          low := gch.ds.low.set u (min (gch.ds.low.getD u 0) (gch.ds.low.getD p.1 0)),
          bridges := gch.ds.bridges ++ (if br then [p.2] else []) }, gch.tree⟩
      (Δ ++ p.2 :: Δc) (newB ++ newBc ++ (if br then [p.2] else [])) := by
  have hvn : p.1 < n := (hadj.sound u p hrow).1
  have hj_uv : C4.edgeJoins bonds p.2 u p.1 := (hadj.sound u p hrow).2.2
  have hvune : p.1 ≠ u := by
    intro hc
    rw [hc] at hnvis
    exact hnvis hmid.hu
  have hllen : u < gch.ds.low.length := by rw [hpost.wf.hllen]; exact hpre.hun
  have hnv0 : ¬ C4.vis g₀.ds p.1 := fun hc => hnvis (hmid.mono p.1 hc)
  have hmonoc : ∀ x, C4.vis g₀.ds x → C4.vis gch.ds x :=
    fun x hx => hpost.mono x (hmid.mono x hx)
  -- the merged low value at u, and stability elsewhere
  have hlowu : ({ gch.ds with
      low := gch.ds.low.set u (min (gch.ds.low.getD u 0) (gch.ds.low.getD p.1 0)),
      bridges := gch.ds.bridges ++ (if br then [p.2] else []) } : DL.DState).low.getD u 0
      = min (C4.lowOf g.ds u) (C4.lowOf gch.ds p.1) := by
    show (gch.ds.low.set u (min (gch.ds.low.getD u 0) (gch.ds.low.getD p.1 0))).getD u 0
      = min (C4.lowOf g.ds u) (C4.lowOf gch.ds p.1)
    rw [listGetD_set_eq _ _ _ _ hllen]
    have : gch.ds.low.getD u 0 = C4.lowOf g.ds u := hpost.stable_low u hmid.hu
    rw [this]
    rfl
  have hlowx : ∀ x, x ≠ u → ({ gch.ds with
      low := gch.ds.low.set u (min (gch.ds.low.getD u 0) (gch.ds.low.getD p.1 0)),
      bridges := gch.ds.bridges ++ (if br then [p.2] else []) } : DL.DState).low.getD x 0
      = C4.lowOf gch.ds x := by
    intro x hx
    show (gch.ds.low.set u (min (gch.ds.low.getD u 0) (gch.ds.low.getD p.1 0))).getD x 0
      = C4.lowOf gch.ds x
    rw [listGetD_set_ne _ _ _ _ _ hx]
    rfl
  have hdiscg_u : C4.discOf g.ds u = (g₀.ds.timer : Int) := hmid.disc_u
  have hdiscch_u : C4.discOf gch.ds u = C4.discOf g.ds u := hpost.stable_disc u hmid.hu
  -- the new tree edge set
  have htree_ch : gch.tree = g.tree ++ p.2 :: Δc := by
    have := hpost.tree_eq
    rw [peL_natCast] at this
    simpa using this
  have hinotg : p.2 ∉ g.tree := by
    intro hc
    exact hnvis (hmid.treevis p.2 hc u p.1 hj_uv).2
  -- edges in the old frame tree are distinct from p.2
  have holdtree_ne : ∀ j ∈ g₀.tree ++ C4.peL pe, j ≠ p.2 := by
    intro j hj hc
    subst hc
    rcases List.mem_append.mp hj with h0 | hp
    · exact hnv0 (hpre.htree _ h0 u p.1 hj_uv).2
    · obtain ⟨hpe0, hieq⟩ := peL_mem hp
      apply hpne
      rw [hieq]
      exact Int.toNat_of_nonneg hpe0
  -- edges descended inside the child are distinct from p.2
  have hΔc_ne : ∀ j ∈ Δc, j ≠ p.2 := by
    intro j hj hc
    subst hc
    exact (hpost.tree_new _ hj u p.1 hj_uv).1.2 hmid.hu
  -- the bridge verdict: with the low link above the parent discovery time,
  -- the child subtree is a cut set and removing the edge disconnects it
  have hcut : br = true → ∀ a b, C4.edgeJoins bonds p.2 a b →
      ¬ C4.ConnMinus bonds p.2 a b := by
    intro hbtrue a b hj
    have hLv := hbr hbtrue
    have hnc : ¬ C4.ConnMinus bonds p.2 u p.1 := by
      refine connMinus_cut (fun x => C4.vis gch.ds x ∧ ¬ C4.vis g.ds x) ?_ ?_
        ⟨hpost.hu, hnvis⟩
      · intro j a2 b2 hjne hjoin hSa
        obtain ⟨hva2, hnva2⟩ := hSa
        have hvb2 : C4.vis gch.ds b2 := hpost.closed_new a2 hva2 hnva2 j b2 hjoin
        refine ⟨hvb2, ?_⟩
        intro hvgb2
        have hjneInt : (j : Int) ≠ (p.2 : Int) := natCast_ne_of_ne hjne
        have hbound : C4.lowOf gch.ds p.1 ≤ C4.discOf g.ds b2 :=
          hpost.low_sound j a2 b2 hjoin hva2 hnva2 hvgb2 hjneInt
        have hbA : b2 ∈ A ∨ b2 = u := by
          by_contra hcon
          push_neg at hcon
          have hcl := hmid.frame b2 hvgb2 hcon.1 hcon.2
          exact hnva2 (hcl j a2 (edgeJoins_symm hjoin))
        rcases hbA with hbA | hbu
        · have hv0 : C4.vis g₀.ds b2 := hpre.hAvis b2 hbA
          have hd : C4.discOf g.ds b2 = C4.discOf g₀.ds b2 := hmid.stable_disc b2 hv0
          have hdlt := (hpre.wf.hdisc b2 hv0).2
          rw [hd] at hbound
          rw [hdiscg_u] at hLv
          omega
        · rw [hbu] at hbound
          omega
      · intro hSu
        exact hSu.2 hmid.hu
    rcases edgeJoins_pair hj_uv hj with ⟨hau, hbv⟩ | ⟨hav, hbu⟩
    · rw [hau, hbv]; exact hnc
    · rw [hav, hbu]
      intro hcon
      exact hnc (connMinus_symm hcon)
  -- the ring verdict: with the low link at or below the parent discovery
  -- time, a justifying edge gives a path avoiding the tree edge
  have hconn : br = false → ∀ a b, C4.edgeJoins bonds p.2 a b →
      C4.ConnMinus bonds p.2 a b := by
    intro hbfalse a b hj
    have hLv := hnbr hbfalse
    have hcore : C4.ConnMinus bonds p.2 u p.1 := by
      rcases hpost.low_complete with hl | ⟨gi, z, w, hgne, hjz, hvz, hnvz, hvw, hdw⟩
      · exfalso
        rw [hpost.disc_u] at hl
        rw [hl] at hLv
        rw [hdiscg_u] at hLv
        have := hmid.timer_gt
        omega
      · have hvgw : C4.vis g.ds w := by
          by_contra hnw
          have hnd := hpost.new_disc w hvw hnw
          rw [hdw] at hnd
          have h2 := hmid.timer_gt
          rw [hdiscg_u] at hLv
          omega
        have hdgw : C4.discOf gch.ds w = C4.discOf g.ds w := hpost.stable_disc w hvgw
        have hwA : w ∈ A ∨ w = u := by
          by_contra hcon
          push_neg at hcon
          have hcl := hmid.frame w hvgw hcon.1 hcon.2
          exact hnvz (hcl gi z (edgeJoins_symm hjz))
        have hgiv : gi ≠ p.2 := ne_of_natCast_ne hgne
        have path1 : C4.ConnMinus bonds p.2 u w := by
          rcases hwA with hwA | hwu
          · exact connMinus_symm (connIn_minus holdtree_ne (hpre.hAconn w hwA))
          · rw [hwu]
            exact Relation.ReflTransGen.refl
        have step2 : C4.ConnMinus bonds p.2 w z :=
          connMinus_single hgiv (edgeJoins_symm hjz)
        have path3 : C4.ConnMinus bonds p.2 z p.1 :=
          connIn_minus hΔc_ne (hpost.tconn z hvz hnvz)
        exact (path1.trans step2).trans path3
    rcases edgeJoins_pair hj_uv hj with ⟨hau, hbv⟩ | ⟨hav, hbu⟩
    · rw [hau, hbv]; exact hcore
    · rw [hav, hbu]; exact connMinus_symm hcore
  refine ⟨?_, ?_, ?_, ?_, ?_, ?_, ?_, ?_, ?_, ?_, ?_, ?_, ?_, ?_, ?_, ?_, ?_, ?_,
    ?_, ?_, ?_, ?_⟩
  · -- wf
    refine ⟨hpost.wf.hvlen, hpost.wf.hdlen, ?_, hpost.wf.hdisc⟩
    show (gch.ds.low.set u (min (gch.ds.low.getD u 0) (gch.ds.low.getD p.1 0))).length = n
    rw [List.length_set]
    exact hpost.wf.hllen
  · -- hu
    exact hpost.mono u hmid.hu
  · -- mono
    exact fun x hx => hmonoc x hx
  · -- stable_disc
    exact fun x hx => (hpost.stable_disc x (hmid.mono x hx)).trans (hmid.stable_disc x hx)
  · -- stable_low
    intro x hx
    have hxu : x ≠ u := by
      intro hc; rw [hc] at hx; exact hpre.hunvis hx
    show (gch.ds.low.set u (min (gch.ds.low.getD u 0) (gch.ds.low.getD p.1 0))).getD x 0
      = C4.lowOf g₀.ds x
    rw [listGetD_set_ne _ _ _ _ _ hxu]
    exact (hpost.stable_low x (hmid.mono x hx)).trans (hmid.stable_low x hx)
  · -- timer_gt
    show g₀.ds.timer < gch.ds.timer
    have h1 := hmid.timer_gt
    have h2 := hpost.timer_gt
    omega
  · -- disc_u
    show C4.discOf gch.ds u = (g₀.ds.timer : Int)
    rw [hdiscch_u, hdiscg_u]
  · -- new_disc
    intro x hx hnx
    show (g₀.ds.timer : Int) ≤ C4.discOf gch.ds x
    by_cases hvg : C4.vis g.ds x
    · rw [hpost.stable_disc x hvg]
      exact hmid.new_disc x hvg hnx
    · have h1 := hpost.new_disc x hx hvg
      have h2 := hmid.timer_gt
      omega
  · -- frame
    intro x hx hxA hxu
    by_cases hvg : C4.vis g.ds x
    · exact closed_mono (fun y hy => hpost.mono y hy) (hmid.frame x hvg hxA hxu)
    · exact hpost.closed_new x hx hvg
  · -- tree_eq
    show gch.tree = g₀.tree ++ C4.peL pe ++ (Δ ++ p.2 :: Δc)
    rw [htree_ch, hmid.tree_eq]
    simp [List.append_assoc]
  · -- tree_new
    intro j hj a b hjab
    rcases List.mem_append.mp hj with hjΔ | hjc
    · have hthis := hmid.tree_new j hjΔ a b hjab
      exact ⟨⟨hpost.mono a hthis.1.1, hthis.1.2⟩, ⟨hpost.mono b hthis.2.1, hthis.2.2⟩⟩
    · rcases List.mem_cons.mp hjc with hje | hjc2
      · subst hje
        rcases edgeJoins_pair hj_uv hjab with ⟨hau, hbv⟩ | ⟨hav, hbu⟩
        · exact ⟨⟨by rw [hau]; exact hpost.mono u hmid.hu, by rw [hau]; exact hpre.hunvis⟩,
                 ⟨by rw [hbv]; exact hpost.hu, by rw [hbv]; exact hnv0⟩⟩
        · exact ⟨⟨by rw [hav]; exact hpost.hu, by rw [hav]; exact hnv0⟩,
                 ⟨by rw [hbu]; exact hpost.mono u hmid.hu, by rw [hbu]; exact hpre.hunvis⟩⟩
      · have hthis := hpost.tree_new j hjc2 a b hjab
        exact ⟨⟨hthis.1.1, fun h0 => hthis.1.2 (hmid.mono a h0)⟩,
               ⟨hthis.2.1, fun h0 => hthis.2.2 (hmid.mono b h0)⟩⟩
  · -- treevis
    intro j hj a b hjab
    exact hpost.treevis j hj a b hjab
  · -- tconn
    intro x hx hnx
    by_cases hvg : C4.vis g.ds x
    · exact connIn_mono (fun i hi => List.mem_append.mpr (Or.inl hi)) (hmid.tconn x hvg hnx)
    · have h1 := hpost.tconn x hx hvg
      have h2 : C4.ConnIn bonds (Δ ++ p.2 :: Δc) x p.1 :=
        connIn_mono (fun i hi =>
          List.mem_append.mpr (Or.inr (List.mem_cons_of_mem _ hi))) h1
      exact Relation.ReflTransGen.tail h2
        ⟨p.2, List.mem_append.mpr (Or.inr (List.mem_cons_self _ _)), edgeJoins_symm hj_uv⟩
  · -- uc_lt
    show C4.uc gch.ds < C4.uc g₀.ds
    have h1 := hpost.uc_lt
    have h2 := hmid.uc_lt
    omega
  · -- bridges_eq
    show gch.ds.bridges ++ (if br then [p.2] else []) =
      g₀.ds.bridges ++ (newB ++ newBc ++ (if br then [p.2] else []))
    rw [hpost.bridges_eq, hmid.bridges_eq]
    simp [List.append_assoc]
  · -- low_ub
    show (gch.ds.low.set u (min (gch.ds.low.getD u 0) (gch.ds.low.getD p.1 0))).getD u 0
      ≤ C4.discOf gch.ds u
    rw [show (gch.ds.low.set u (min (gch.ds.low.getD u 0) (gch.ds.low.getD p.1 0))).getD u 0
        = min (C4.lowOf g.ds u) (C4.lowOf gch.ds p.1) from hlowu, hdiscch_u]
    exact le_trans (min_le_left _ _) hmid.low_ub
  · -- low_sound
    intro gi z w hjz hz hnz hzu hw hgipe
    show (gch.ds.low.set u (min (gch.ds.low.getD u 0) (gch.ds.low.getD p.1 0))).getD u 0
      ≤ C4.discOf g₀.ds w
    rw [show (gch.ds.low.set u (min (gch.ds.low.getD u 0) (gch.ds.low.getD p.1 0))).getD u 0
        = min (C4.lowOf g.ds u) (C4.lowOf gch.ds p.1) from hlowu]
    by_cases hvgz : C4.vis g.ds z
    · exact le_trans (min_le_left _ _) (hmid.low_sound gi z w hjz hvgz hnz hzu hw hgipe)
    · have hgii : (gi : Int) ≠ (p.2 : Int) := by
        intro hc
        have hge : gi = p.2 := Int.ofNat.inj hc
        subst hge
        rcases edgeJoins_pair hj_uv hjz with ⟨hzu2, hwv⟩ | ⟨hzv, hwu⟩
        · exact hzu hzu2
        · rw [hwu] at hw
          exact hpre.hunvis hw
      have hb := hpost.low_sound gi z w hjz hz hvgz (hmid.mono w hw) hgii
      rw [hmid.stable_disc w hw] at hb
      exact le_trans (min_le_right _ _) hb
  · -- scan_vis
    intro q hq
    rcases hmid.scan_vis q hq with hq2 | hc
    · rcases List.mem_cons.mp hq2 with hqp | hqe
      · rw [hqp]
        exact Or.inr (fun _ => hpost.hu)
      · exact Or.inl hqe
    · exact Or.inr (fun hne => hpost.mono _ (hc hne))
  · -- scan_low
    intro q hq
    rcases hmid.scan_low q hq with hq2 | hc
    · rcases List.mem_cons.mp hq2 with hqp | hqe
      · rw [hqp]
        exact Or.inr (fun hne h0 => absurd h0 hnv0)
      · exact Or.inl hqe
    · refine Or.inr (fun hne h0 => ?_)
      have hb := hc hne h0
      show (gch.ds.low.set u (min (gch.ds.low.getD u 0) (gch.ds.low.getD p.1 0))).getD u 0
        ≤ C4.discOf g₀.ds q.1
      rw [show (gch.ds.low.set u (min (gch.ds.low.getD u 0) (gch.ds.low.getD p.1 0))).getD u 0
          = min (C4.lowOf g.ds u) (C4.lowOf gch.ds p.1) from hlowu]
      exact le_trans (min_le_left _ _) hb
  · -- low_complete
    by_cases hm : C4.lowOf g.ds u ≤ C4.lowOf gch.ds p.1
    · rcases hmid.low_complete with hl | ⟨gi, z, w, hgipe, hjz, hvz, hnvz, hvw, hdw⟩
      · left
        show (gch.ds.low.set u
            (min (gch.ds.low.getD u 0) (gch.ds.low.getD p.1 0))).getD u 0
          = C4.discOf gch.ds u
        rw [show (gch.ds.low.set u (min (gch.ds.low.getD u 0) (gch.ds.low.getD p.1 0))).getD u 0
            = min (C4.lowOf g.ds u) (C4.lowOf gch.ds p.1) from hlowu,
          min_eq_left hm, hdiscch_u]
        exact hl
      · right
        refine ⟨gi, z, w, hgipe, hjz, hpost.mono z hvz, hnvz, hpost.mono w hvw, ?_⟩
        show C4.discOf gch.ds w = (gch.ds.low.set u
            (min (gch.ds.low.getD u 0) (gch.ds.low.getD p.1 0))).getD u 0
        rw [show (gch.ds.low.set u (min (gch.ds.low.getD u 0) (gch.ds.low.getD p.1 0))).getD u 0
            = min (C4.lowOf g.ds u) (C4.lowOf gch.ds p.1) from hlowu,
          min_eq_left hm, hpost.stable_disc w hvw]
        exact hdw
    · have hm2 : C4.lowOf gch.ds p.1 ≤ C4.lowOf g.ds u := le_of_not_le hm
      rcases hpost.low_complete with hl | ⟨gi, z, w, hgi2, hjz, hvz, hnvz, hvw, hdw⟩
      · right
        refine ⟨p.2, u, p.1, hpne, hj_uv, hpost.mono u hmid.hu, hpre.hunvis, hpost.hu, ?_⟩
        show C4.discOf gch.ds p.1 = (gch.ds.low.set u
            (min (gch.ds.low.getD u 0) (gch.ds.low.getD p.1 0))).getD u 0
        rw [show (gch.ds.low.set u (min (gch.ds.low.getD u 0) (gch.ds.low.getD p.1 0))).getD u 0
            = min (C4.lowOf g.ds u) (C4.lowOf gch.ds p.1) from hlowu,
          min_eq_right hm2]
        exact hl.symm
      · right
        have hgipe : (gi : Int) ≠ pe := by
          intro hc
          have hpe0 : 0 ≤ pe := by rw [← hc]; exact Int.natCast_nonneg gi
          obtain ⟨c, hjc, hvc⟩ := hpre.hpe hpe0
          have hgieq : gi = pe.toNat := by
            rw [← hc]
            exact (Int.toNat_natCast gi).symm
          rw [← hgieq] at hjc
          rcases edgeJoins_pair hjc hjz with ⟨hzu, hwc⟩ | ⟨hzc, hwu⟩
          · rw [hzu] at hnvz
            exact hnvz hmid.hu
          · rw [hzc] at hnvz
            exact hnvz (hmid.mono c hvc)
        refine ⟨gi, z, w, hgipe, hjz, hvz, fun h0 => hnvz (hmid.mono z h0), hvw, ?_⟩
        show C4.discOf gch.ds w = (gch.ds.low.set u
            (min (gch.ds.low.getD u 0) (gch.ds.low.getD p.1 0))).getD u 0
        rw [show (gch.ds.low.set u (min (gch.ds.low.getD u 0) (gch.ds.low.getD p.1 0))).getD u 0
            = min (C4.lowOf g.ds u) (C4.lowOf gch.ds p.1) from hlowu,
          min_eq_right hm2]
        exact hdw
  · -- verdict_b
    intro j hj
    rcases List.mem_append.mp hj with hj1 | hjopt
    · rcases List.mem_append.mp hj1 with hjB | hjBc
      · obtain ⟨hjΔ, hnc⟩ := hmid.verdict_b j hjB
        exact ⟨List.mem_append.mpr (Or.inl hjΔ), hnc⟩
      · obtain ⟨hjΔc, hnc⟩ := hpost.verdict_b j hjBc
        exact ⟨List.mem_append.mpr (Or.inr (List.mem_cons_of_mem _ hjΔc)), hnc⟩
    · cases br with
      | false => simp at hjopt
      | true =>
        simp only [if_pos] at hjopt
        rw [List.mem_singleton] at hjopt
        subst hjopt
        exact ⟨List.mem_append.mpr (Or.inr (List.mem_cons_self _ _)), hcut rfl⟩
  · -- verdict_t
    intro j hjΔ hjb
    have hjnb_ch : j ∉ gch.ds.bridges := by
      intro hc
      exact hjb (List.mem_append.mpr (Or.inl hc))
    have hjnb_g : j ∉ g.ds.bridges := by
      intro hc
      apply hjnb_ch
      rw [hpost.bridges_eq]
      exact List.mem_append.mpr (Or.inl hc)
    rcases List.mem_append.mp hjΔ with hj1 | hj2
    · exact hmid.verdict_t j hj1 hjnb_g
    · rcases List.mem_cons.mp hj2 with hje | hjc
      · subst hje
        cases br with
        | true =>
          exfalso
          apply hjb
          refine List.mem_append.mpr (Or.inr ?_)
          simp
        | false => exact hconn rfl
      · exact hpost.verdict_t j hjc hjnb_ch

theorem post_of_mid {bonds : List ME.PBond} {n : Nat} {adj : List (List (Nat × Nat))}
    {A : List Nat} {pe : Int} {u : Nat} {g₀ : C4.GState} {g : C4.GState}
    {Δ newB : List Nat}
    (hadj : C4.AdjOK bonds n adj)
    (hpre : C4.Pre bonds n A pe u g₀)
    (hmid : C4.Mid bonds n adj A pe u g₀ [] g Δ newB) :
    C4.Post bonds n pe u g₀ g Δ newB := by
  have hclosed_u : C4.Closed bonds g.ds u := by
    intro i y hj
    have hmem : (y, i) ∈ adj.getD u [] := hadj.complete i u y hj hpre.hun
    rcases hmid.scan_vis (y, i) hmem with hemp | hc
    · simp at hemp
    · by_cases hipe : ((i : Nat) : Int) = pe
      · have hpe0 : 0 ≤ pe := by rw [← hipe]; exact Int.natCast_nonneg i
        obtain ⟨c, hjc, hvc⟩ := hpre.hpe hpe0
        have hieq : (i : Nat) = pe.toNat := by
          rw [← hipe]
          exact (Int.toNat_natCast i).symm
        rw [← hieq] at hjc
        rcases edgeJoins_pair hjc hj with ⟨huu, hyc⟩ | ⟨huc, hyu⟩
        · rw [hyc]
          exact hmid.mono c hvc
        · rw [hyu]
          exact hmid.hu
      · exact hc hipe
  refine ⟨hmid.wf, hmid.mono, hmid.hu, hmid.stable_disc, hmid.stable_low,
    hmid.timer_gt, hmid.disc_u, hmid.new_disc, ?_, hmid.tree_eq, hmid.tree_new,
    hmid.treevis, hmid.tconn, hmid.uc_lt, hmid.bridges_eq, hmid.low_ub, ?_,
    hmid.low_complete, hmid.verdict_b, hmid.verdict_t⟩
  · -- closed_new
    intro x hx hnx
    by_cases hxu : x = u
    · rw [hxu]
      exact hclosed_u
    · refine hmid.frame x hx ?_ hxu
      intro hxA
      exact hnx (hpre.hAvis x hxA)
  · -- low_sound, now including the scans at u itself
    intro gi z w hjz hz hnz hw hgipe
    by_cases hzu : z = u
    · rw [hzu] at hjz
      have hmem : (w, gi) ∈ adj.getD u [] := hadj.complete gi u w hjz hpre.hun
      rcases hmid.scan_low (w, gi) hmem with hemp | hc
      · simp at hemp
      · exact hc hgipe hw
    · exact hmid.low_sound gi z w hjz hz hnz hzu hw hgipe

theorem pre_child {bonds : List ME.PBond} {n : Nat} {adj : List (List (Nat × Nat))}
    {A : List Nat} {pe : Int} {u : Nat} {g₀ : C4.GState} {p : Nat × Nat}
    {es : List (Nat × Nat)} {g : C4.GState} {Δ newB : List Nat}
    (hadj : C4.AdjOK bonds n adj)
    (hpre : C4.Pre bonds n A pe u g₀)
    (hmid : C4.Mid bonds n adj A pe u g₀ (p :: es) g Δ newB)
    (hrow : p ∈ adj.getD u [])
    (hnvis : ¬ C4.vis g.ds p.1) :
    C4.Pre bonds n (A ++ [u]) (p.2 : Int) p.1 g := by
  have hj_uv : C4.edgeJoins bonds p.2 u p.1 := (hadj.sound u p hrow).2.2
  refine ⟨hmid.wf, (hadj.sound u p hrow).1, hnvis, ?_, ?_, ?_, ?_, ?_⟩
  · -- hframe
    intro x hx hxA
    refine hmid.frame x hx ?_ ?_
    · intro hc
      exact hxA (List.mem_append.mpr (Or.inl hc))
    · intro hc
      exact hxA (List.mem_append.mpr (Or.inr (by rw [hc]; exact List.mem_singleton.mpr rfl)))
  · -- hAvis
    intro y hy
    rcases List.mem_append.mp hy with hyA | hyu
    · exact hmid.mono y (hpre.hAvis y hyA)
    · rw [List.mem_singleton.mp hyu]
      exact hmid.hu
  · -- hAconn
    intro y hy
    rw [peL_natCast]
    have hstep_uv : C4.ConnIn bonds (g.tree ++ [p.2]) u p.1 :=
      Relation.ReflTransGen.single
        ⟨p.2, List.mem_append.mpr (Or.inr (List.mem_singleton.mpr rfl)), hj_uv⟩
    rcases List.mem_append.mp hy with hyA | hyu
    · have h1 := hpre.hAconn y hyA
      have h2 : C4.ConnIn bonds (g.tree ++ [p.2]) y u := by
        refine connIn_mono ?_ h1
        intro i hi
        refine List.mem_append.mpr (Or.inl ?_)
        rw [hmid.tree_eq]
        exact List.mem_append.mpr (Or.inl hi)
      exact h2.trans hstep_uv
    · rw [List.mem_singleton.mp hyu]
      exact hstep_uv
  · -- hpe
    intro _
    refine ⟨u, ?_, hmid.hu⟩
    rw [Int.toNat_natCast]
    exact edgeJoins_symm hj_uv
  · -- htree
    intro i hi a b hj
    exact hmid.treevis i hi a b hj

theorem edgeStep_descend_eq {rec : Nat → Nat → C4.GState → C4.GState} {pe : Int}
    {u : Nat} {g : C4.GState} {p : Nat × Nat} {gch : C4.GState}
    (hpe : ¬ ((p.2 : Int) == pe) = true)
    (hv : ¬ g.ds.visited.getD p.1 false = true)
    (hvune : p.1 ≠ u)
    (hgch : rec p.1 p.2 g = gch)
    (br : Bool)
    (hbrc : br = true ↔ C4.discOf g.ds u < C4.lowOf gch.ds p.1)
    (hdu : C4.discOf gch.ds u = C4.discOf g.ds u) :
    C4.edgeStep rec pe u g p =
      ⟨{ gch.ds with
          low := gch.ds.low.set u (min (gch.ds.low.getD u 0) (gch.ds.low.getD p.1 0)),
          bridges := gch.ds.bridges ++ (if br then [p.2] else []) }, gch.tree⟩ := by
  have hcond : ((gch.ds.low.set u
      (min (gch.ds.low.getD u 0) (gch.ds.low.getD p.1 0))).getD p.1 0 >
      gch.ds.disc.getD u 0) ↔ C4.discOf g.ds u < C4.lowOf gch.ds p.1 := by
    rw [listGetD_set_ne _ _ _ _ _ hvune]
    show C4.lowOf gch.ds p.1 > C4.discOf gch.ds u ↔ _
    rw [hdu]
  simp only [C4.edgeStep]
  rw [if_neg hpe, if_neg hv, hgch]
  cases br with
  | true =>
    rw [if_pos (hcond.mpr (hbrc.mp rfl))]
    rfl
  | false =>
    have hnc : ¬ ((gch.ds.low.set u
        (min (gch.ds.low.getD u 0) (gch.ds.low.getD p.1 0))).getD p.1 0 >
        gch.ds.disc.getD u 0) := by
      intro hc
      have := hcond.mp hc
      have h2 := hbrc.mpr this
      simp at h2
    rw [if_neg hnc]
    simp

theorem dfs_master (bonds : List ME.PBond) (n : Nat) (adj : List (List (Nat × Nat)))
    (hadj : C4.AdjOK bonds n adj) :
    ∀ (fuel : Nat) (A : List Nat) (pe : Int) (u : Nat) (g₀ : C4.GState),
      C4.Pre bonds n A pe u g₀ → C4.uc g₀.ds ≤ fuel →
      ∃ Δ newB, C4.Post bonds n pe u g₀ (C4.dfsGoT adj fuel u pe g₀) Δ newB := by
  intro fuel
  induction fuel with
  | zero =>
    intro A pe u g₀ hpre hfuel
    exfalso
    have hvlen : u < g₀.ds.visited.length := by rw [hpre.wf.hvlen]; exact hpre.hun
    have := uc_pos hvlen hpre.hunvis
    omega
  | succ fuel ih =>
    intro A pe u g₀ hpre hfuel
    have hfold : ∀ (es : List (Nat × Nat)), (∀ q ∈ es, q ∈ adj.getD u []) →
        ∀ (g : C4.GState) (Δ newB : List Nat),
        C4.Mid bonds n adj A pe u g₀ es g Δ newB →
        ∃ Δ2 newB2, C4.Mid bonds n adj A pe u g₀ []
          (es.foldl (C4.edgeStep (fun v idx g2 => C4.dfsGoT adj fuel v idx g2) pe u) g)
          Δ2 newB2 := by
      intro es
      induction es with
      | nil =>
        intro _ g Δ newB hmid
        exact ⟨Δ, newB, hmid⟩
      | cons p es ihe =>
        intro hsub g Δ newB hmid
        rw [List.foldl_cons]
        have hrow : p ∈ adj.getD u [] := hsub p (List.mem_cons_self _ _)
        have hsub2 : ∀ q ∈ es, q ∈ adj.getD u [] :=
          fun q hq => hsub q (List.mem_cons_of_mem _ hq)
        by_cases hpeb : ((p.2 : Int) == pe) = true
        · have hpeEq : (p.2 : Int) = pe := by rwa [beq_iff_eq] at hpeb
          have hstep : C4.edgeStep (fun v idx g2 => C4.dfsGoT adj fuel v idx g2) pe u g p
              = g := by
            simp only [C4.edgeStep]
            rw [if_pos hpeb]
          rw [hstep]
          exact ihe hsub2 g Δ newB (mid_step_pe hmid hpeEq)
        · have hpeNe : (p.2 : Int) ≠ pe := by
            intro hc
            exact hpeb (beq_iff_eq.mpr hc)
          by_cases hvb : g.ds.visited.getD p.1 false = true
          · have hstep : C4.edgeStep (fun v idx g2 => C4.dfsGoT adj fuel v idx g2) pe u g p
                = { g with ds := { g.ds with
                    low := g.ds.low.set u
                      (min (g.ds.low.getD u 0) (g.ds.disc.getD p.1 0)) } } := by
              simp only [C4.edgeStep]
              rw [if_neg hpeb, if_pos hvb]
            rw [hstep]
            exact ihe hsub2 _ _ _ (mid_step_back hadj hpre hmid hrow hpeNe hvb)
          · have hnvis : ¬ C4.vis g.ds p.1 := hvb
            have hprec := pre_child hadj hpre hmid hrow hnvis
            have hucc : C4.uc g.ds ≤ fuel := by
              have := hmid.uc_lt
              omega
            obtain ⟨Δc, newBc, hpost⟩ := ih (A ++ [u]) (p.2 : Int) p.1 g hprec hucc
            have hvune : p.1 ≠ u := by
              intro hc
              rw [hc] at hnvis
              exact hnvis hmid.hu
            have hdu : C4.discOf (C4.dfsGoT adj fuel p.1 (p.2 : Int) g).ds u
                = C4.discOf g.ds u := hpost.stable_disc u hmid.hu
            by_cases hbr : C4.discOf g.ds u
                < C4.lowOf (C4.dfsGoT adj fuel p.1 (p.2 : Int) g).ds p.1
            · have hbrc1 : (true = true) ↔ C4.discOf g.ds u
                  < C4.lowOf (C4.dfsGoT adj fuel p.1 (p.2 : Int) g).ds p.1 :=
                ⟨fun _ => hbr, fun _ => rfl⟩
              rw [@edgeStep_descend_eq (fun v idx g2 => C4.dfsGoT adj fuel v idx g2)
                pe u g p (C4.dfsGoT adj fuel p.1 (p.2 : Int) g) hpeb hvb hvune rfl true
                hbrc1 hdu]
              exact ihe hsub2 _ _ _
                (mid_step_descend hadj hpre hmid hrow hpeNe hnvis hpost true
                  (fun _ => hbr) (fun hc => nomatch hc))
            · have hbrc1 : (false = true) ↔ C4.discOf g.ds u
                  < C4.lowOf (C4.dfsGoT adj fuel p.1 (p.2 : Int) g).ds p.1 :=
                ⟨fun hc => (nomatch hc), fun hlt => absurd hlt hbr⟩
              rw [@edgeStep_descend_eq (fun v idx g2 => C4.dfsGoT adj fuel v idx g2)
                pe u g p (C4.dfsGoT adj fuel p.1 (p.2 : Int) g) hpeb hvb hvune rfl false
                hbrc1 hdu]
              exact ihe hsub2 _ _ _
                (mid_step_descend hadj hpre hmid hrow hpeNe hnvis hpost false
                  (fun hc => nomatch hc) (fun _ => le_of_not_lt hbr))
    obtain ⟨Δ2, newB2, hmid2⟩ := hfold (adj.getD u []) (fun q hq => hq)
      ⟨C4.markState u g₀.ds, g₀.tree ++ C4.peL pe⟩ [] []
      (mid_init bonds n adj A pe u g₀ hpre)
    refine ⟨Δ2, newB2, ?_⟩
    have hgoal := post_of_mid hadj hpre hmid2
    show C4.Post bonds n pe u g₀ (C4.dfsGoT adj (fuel + 1) u pe g₀) Δ2 newB2
    simp only [C4.dfsGoT]
    exact hgoal

theorem top_init (bonds : List ME.PBond) (n : Nat) :
    C4.TopInv bonds n
      ⟨⟨List.replicate n false, List.replicate n (-1), List.replicate n (-1), 0, []⟩, []⟩ := by
  have hnv : ∀ x, ¬ C4.vis
      (⟨List.replicate n false, List.replicate n (-1), List.replicate n (-1), 0, []⟩ :
        DL.DState) x := by
    intro x hx
    simp only [C4.vis] at hx
    rw [getD_replicate_self] at hx
    exact Bool.false_ne_true hx
  refine ⟨⟨?_, ?_, ?_, ?_⟩, ?_, ?_, ?_, ?_, ?_⟩
  · exact List.length_replicate n false
  · exact List.length_replicate n (-1)
  · exact List.length_replicate n (-1)
  · intro x hx
    exact absurd hx (hnv x)
  · intro x hx
    exact absurd hx (hnv x)
  · intro i hi
    exact absurd hi (List.not_mem_nil i)
  · intro i a b hj hv
    exact absurd hv (hnv a)
  · intro i hi
    exact absurd hi (List.not_mem_nil i)
  · intro i hi
    exact absurd hi (List.not_mem_nil i)

theorem top_step {bonds : List ME.PBond} {n : Nat} {g g₁ : C4.GState} {r : Nat}
    {Δ newB : List Nat}
    (htop : C4.TopInv bonds n g)
    (hpost : C4.Post bonds n (-1) r g g₁ Δ newB) :
    C4.TopInv bonds n g₁ := by
  have hpeL : C4.peL (-1) = [] := by
    simp [C4.peL]
  have htree1 : g₁.tree = g.tree ++ Δ := by
    have := hpost.tree_eq
    rw [hpeL] at this
    simpa using this
  have hsubtree : ∀ i ∈ g.tree, i ∈ g₁.tree := by
    intro i hi
    rw [htree1]
    exact List.mem_append.mpr (Or.inl hi)
  have hsubΔ : ∀ i ∈ Δ, i ∈ g₁.tree := by
    intro i hi
    rw [htree1]
    exact List.mem_append.mpr (Or.inr hi)
  refine ⟨hpost.wf, ?_, ?_, ?_, ?_, ?_⟩
  · -- all_closed
    intro x hx
    by_cases hvg : C4.vis g.ds x
    · exact closed_mono (fun y hy => hpost.mono y hy) (htop.all_closed x hvg)
    · exact hpost.closed_new x hx hvg
  · -- treevis
    intro i hi a b hj
    rw [htree1] at hi
    rcases List.mem_append.mp hi with hio | hiΔ
    · have := htop.treevis i hio a b hj
      exact ⟨hpost.mono a this.1, hpost.mono b this.2⟩
    · have := hpost.tree_new i hiΔ a b hj
      exact ⟨this.1.1, this.2.1⟩
  · -- conn
    intro i a b hj hva
    by_cases hvg : C4.vis g.ds a
    · exact connIn_mono hsubtree (htop.conn i a b hj hvg)
    · have hvb : C4.vis g₁.ds b := hpost.closed_new a hva hvg i b hj
      have hnb : ¬ C4.vis g.ds b := by
        intro hvbg
        exact hvg (htop.all_closed b hvbg i a (edgeJoins_symm hj))
      have h1 : C4.ConnIn bonds Δ a r := hpost.tconn a hva hvg
      have h2 : C4.ConnIn bonds Δ b r := hpost.tconn b hvb hnb
      exact connIn_mono hsubΔ (h1.trans (connIn_symm h2))
  · -- verdict_b
    intro i hi
    rw [hpost.bridges_eq] at hi
    rcases List.mem_append.mp hi with hio | hin
    · obtain ⟨ht, hnc⟩ := htop.verdict_b i hio
      exact ⟨hsubtree i ht, hnc⟩
    · obtain ⟨hΔ, hnc⟩ := hpost.verdict_b i hin
      exact ⟨hsubΔ i hΔ, hnc⟩
  · -- verdict_t
    intro i hi hnb
    rw [htree1] at hi
    rcases List.mem_append.mp hi with hio | hiΔ
    · refine htop.verdict_t i hio ?_
      intro hc
      apply hnb
      rw [hpost.bridges_eq]
      exact List.mem_append.mpr (Or.inl hc)
    · exact hpost.verdict_t i hiΔ hnb

theorem top_loop (bonds : List ME.PBond) (n : Nat) (adj : List (List (Nat × Nat)))
    (hadj : C4.AdjOK bonds n adj) :
    ∀ (l : List Nat) (g : C4.GState), (∀ x ∈ l, x < n) → C4.TopInv bonds n g →
      C4.TopInv bonds n (l.foldl
        (fun g2 i => if g2.ds.visited.getD i false then g2
          else C4.dfsGoT adj (n + 1) i (-1) g2) g) ∧
      (∀ x, C4.vis g.ds x → C4.vis (l.foldl
        (fun g2 i => if g2.ds.visited.getD i false then g2
          else C4.dfsGoT adj (n + 1) i (-1) g2) g).ds x) ∧
      (∀ x ∈ l, C4.vis (l.foldl
        (fun g2 i => if g2.ds.visited.getD i false then g2
          else C4.dfsGoT adj (n + 1) i (-1) g2) g).ds x) := by
  intro l
  induction l with
  | nil =>
    intro g _ htop
    exact ⟨htop, fun x hx => hx, fun x hx => absurd hx (List.not_mem_nil x)⟩
  | cons r l ihl =>
    intro g hl htop
    have hrn : r < n := hl r (List.mem_cons_self _ _)
    have hl2 : ∀ x ∈ l, x < n := fun x hx => hl x (List.mem_cons_of_mem _ hx)
    rw [List.foldl_cons]
    by_cases hv : g.ds.visited.getD r false = true
    · rw [if_pos hv]
      obtain ⟨h1, h2, h3⟩ := ihl g hl2 htop
      refine ⟨h1, h2, ?_⟩
      intro x hx
      rcases List.mem_cons.mp hx with hxr | hxl
      · rw [hxr]
        exact h2 r hv
      · exact h3 x hxl
    · rw [if_neg hv]
      have hpre : C4.Pre bonds n [] (-1) r g := by
        refine ⟨htop.wf, hrn, hv, ?_, ?_, ?_, ?_, ?_⟩
        · intro x hx _
          exact htop.all_closed x hx
        · intro y hy
          exact absurd hy (List.not_mem_nil y)
        · intro y hy
          exact absurd hy (List.not_mem_nil y)
        · intro hc
          norm_num at hc
        · exact htop.treevis
      have hfuel : C4.uc g.ds ≤ n + 1 := by
        have h1 : C4.uc g.ds ≤ g.ds.visited.length := List.countP_le_length _
        rw [htop.wf.hvlen] at h1
        omega
      obtain ⟨Δ, newB, hpost⟩ := dfs_master bonds n adj hadj (n + 1) [] (-1) r g hpre hfuel
      have htop1 := top_step htop hpost
      obtain ⟨h1, h2, h3⟩ := ihl (C4.dfsGoT adj (n + 1) r (-1) g) hl2 htop1
      refine ⟨h1, ?_, ?_⟩
      · intro x hx
        exact h2 x (hpost.mono x hx)
      · intro x hx
        rcases List.mem_cons.mp hx with hxr | hxl
        · rw [hxr]
          exact h2 r hpost.hu
        · exact h3 x hxl

/-- C4.  For every parsed bond graph on which the ring-bond classification
returns (all endpoints in range; parallel edges and self loops permitted), a
bond is classified as a ring bond iff its removal leaves its two endpoint
atoms connected: the DFS low-link bridge computation agrees exactly with the
connectivity characterization. -/
theorem c4_ring_bond_classification (bonds : List ME.PBond) (n : Nat) (rb : List Nat)
    (hrb : DL._findRingBonds bonds n = some rb)
    (i : Nat) (bd : ME.PBond) (hbd : bonds.get? i = some bd) :
    i ∈ rb ↔ C4.ConnMinus bonds i bd.fromIdx.toNat bd.toIdx.toNat := by
  have hall : bonds.all (DL.bondOK n) = true := by
    by_contra hc
    simp only [DL._findRingBonds] at hrb
    rw [if_neg hc] at hrb
    exact Option.noConfusion hrb
  simp only [DL._findRingBonds] at hrb
  rw [if_pos hall] at hrb
  injection hrb with hrbeq
  have hok : ∀ q ∈ bonds.enum, q.2.fromIdx.toNat < n ∧ q.2.toIdx.toNat < n := by
    intro q hq
    have hmem : q.2 ∈ bonds := List.snd_mem_of_mem_enum hq
    have hb := List.all_eq_true.mp hall q.2 hmem
    simp only [DL.bondOK, Bool.and_eq_true, decide_eq_true_eq] at hb
    obtain ⟨⟨⟨h1, h2⟩, h3⟩, h4⟩ := hb
    omega
  have hadj := ringAdj_ok bonds n hok
  obtain ⟨htop, hmono, hallv⟩ := top_loop bonds n (DL.ringAdj bonds n) hadj (List.range n)
    ⟨⟨List.replicate n false, List.replicate n (-1), List.replicate n (-1), 0, []⟩, []⟩
    (fun x hx => List.mem_range.mp hx) (top_init bonds n)
  have herase := rootsT_ds (DL.ringAdj bonds n) n
  have hstb : (List.range n).foldl
      (fun st i2 => if st.visited.getD i2 false then st
        else DL.dfsGo (DL.ringAdj bonds n) (n + 1) i2 (-1) st)
      ⟨List.replicate n false, List.replicate n (-1), List.replicate n (-1), 0, []⟩
      = ((List.range n).foldl
        (fun (g2 : C4.GState) i2 => if g2.ds.visited.getD i2 false then g2
          else C4.dfsGoT (DL.ringAdj bonds n) (n + 1) i2 (-1) g2)
        ⟨⟨List.replicate n false, List.replicate n (-1), List.replicate n (-1), 0, []⟩,
          []⟩).ds := herase.symm
  rw [hstb] at hrbeq
  have hilt : i < bonds.length := (List.get?_eq_some.mp hbd).1
  have hienum : (i, bd) ∈ bonds.enum := get_enum hbd
  have hfn : bd.fromIdx.toNat < n := (hok (i, bd) hienum).1
  have htn : bd.toIdx.toNat < n := (hok (i, bd) hienum).2
  have hj : C4.edgeJoins bonds i bd.fromIdx.toNat bd.toIdx.toNat :=
    ⟨bd, hbd, Or.inl ⟨rfl, rfl⟩⟩
  rw [← hrbeq]
  rw [List.mem_filter]
  constructor
  · rintro ⟨hir, hnc⟩
    simp only [decide_eq_true_eq] at hnc
    have hnb : i ∉ (((List.range n).foldl
        (fun (g2 : C4.GState) i2 => if g2.ds.visited.getD i2 false then g2
          else C4.dfsGoT (DL.ringAdj bonds n) (n + 1) i2 (-1) g2)
        ⟨⟨List.replicate n false, List.replicate n (-1), List.replicate n (-1), 0, []⟩,
          []⟩).ds).bridges := by
      intro hc
      exact hnc (List.elem_iff.mpr hc)
    by_cases htre : i ∈ ((List.range n).foldl
        (fun (g2 : C4.GState) i2 => if g2.ds.visited.getD i2 false then g2
          else C4.dfsGoT (DL.ringAdj bonds n) (n + 1) i2 (-1) g2)
        ⟨⟨List.replicate n false, List.replicate n (-1), List.replicate n (-1), 0, []⟩,
          []⟩).tree
    · exact htop.verdict_t i htre hnb bd.fromIdx.toNat bd.toIdx.toNat hj
    · have hva : C4.vis (((List.range n).foldl
          (fun (g2 : C4.GState) i2 => if g2.ds.visited.getD i2 false then g2
            else C4.dfsGoT (DL.ringAdj bonds n) (n + 1) i2 (-1) g2)
          ⟨⟨List.replicate n false, List.replicate n (-1), List.replicate n (-1), 0, []⟩,
            []⟩).ds) bd.fromIdx.toNat :=
        hallv bd.fromIdx.toNat (List.mem_range.mpr hfn)
      have hci := htop.conn i bd.fromIdx.toNat bd.toIdx.toNat hj hva
      refine connIn_minus ?_ hci
      intro j hjt hje
      rw [hje] at hjt
      exact htre hjt
  · intro hconn
    refine ⟨List.mem_range.mpr hilt, ?_⟩
    simp only [decide_eq_true_eq]
    intro hc
    have hib : i ∈ (((List.range n).foldl
        (fun (g2 : C4.GState) i2 => if g2.ds.visited.getD i2 false then g2
          else C4.dfsGoT (DL.ringAdj bonds n) (n + 1) i2 (-1) g2)
        ⟨⟨List.replicate n false, List.replicate n (-1), List.replicate n (-1), 0, []⟩,
          []⟩).ds).bridges := List.elem_iff.mp hc
    exact (htop.verdict_b i hib).2 bd.fromIdx.toNat bd.toIdx.toNat hj hconn

theorem c4_ring_bond_witness :
    DL._findRingBonds [⟨0, 1, 1⟩, ⟨1, 2, 1⟩, ⟨2, 0, 1⟩, ⟨0, 3, 1⟩] 4 = some [0, 1, 2] ∧
    ([⟨0, 1, 1⟩, ⟨1, 2, 1⟩, ⟨2, 0, 1⟩, ⟨0, 3, 1⟩] : List ME.PBond).get? 0 = some ⟨0, 1, 1⟩ ∧
    (0 ∈ [0, 1, 2] ↔
      C4.ConnMinus [⟨0, 1, 1⟩, ⟨1, 2, 1⟩, ⟨2, 0, 1⟩, ⟨0, 3, 1⟩] 0
        ((0 : Int)).toNat ((1 : Int)).toNat) :=
  ⟨by decide, rfl,
    c4_ring_bond_classification [⟨0, 1, 1⟩, ⟨1, 2, 1⟩, ⟨2, 0, 1⟩, ⟨0, 3, 1⟩] 4 [0, 1, 2]
      (by decide) 0 ⟨0, 1, 1⟩ rfl⟩
